import Mathlib

/-!
# Verification of the ModelEyes differential UI-state synchronization engine

A shallow embedding of the TypeScript sources of the ModelEyes repository
(`src/common/optimization.ts`, `src/common/cache.ts`, `src/server/base-server.ts`,
`src/server/openai-server.ts`) together with proofs and refutations of the
specification's claims about them.

Modelling conventions:
* JavaScript objects used as string-keyed records (`Record<string, T>`, `Map`)
  are embedded as insertion-ordered association lists `List (String × T)`;
  property read, assignment and `delete` become `recGet`, `recSet`, `recDelete`.
  A JS object never holds two entries with one key, which `recSet`-built lists
  preserve; where a theorem starts from arbitrary lists we carry an explicit
  `nodupKeys` hypothesis.
* JS numbers appearing in the engine (timestamps, bounds, counters) are
  embedded as `Int` / `Nat`; every arithmetic operation performed on them by
  the code stays exact in double precision at these magnitudes, and
  `Math.round` on the already-integral embedded values is the identity.
* `undefined`-able fields become `Option`; a field of a `Partial<UIElement>`
  that may be *present with value `undefined`* (as produced by
  `changes.text = newElement.text`) becomes a nested `Option (Option _)`,
  the outer layer recording presence of the property.
* Strings are sequences of Unicode scalars; `charCodeAt` agrees with
  `Char.toNat` on the basic multilingual plane, which we assume throughout.
-/

set_option maxHeartbeats 1000000

namespace ModelEyes

/-! ## Association lists: the embedding of JS objects -/

/-- Property read `obj[k]`: first entry with the key. -/
def recGet {α : Type} : List (String × α) → String → Option α
  | [], _ => none
  | (k', v) :: rest, k => if k' = k then some v else recGet rest k

/-- Property write `obj[k] = v`: update in place, else append (JS key order). -/
def recSet {α : Type} : List (String × α) → String → α → List (String × α)
  | [], k, v => [(k, v)]
  | (k', v') :: rest, k, v =>
    if k' = k then (k', v) :: rest else (k', v') :: recSet rest k v

/-- Property removal `delete obj[k]`. -/
def recDelete {α : Type} : List (String × α) → String → List (String × α)
  | [], _ => []
  | (k', v') :: rest, k => if k' = k then rest else (k', v') :: recDelete rest k

/-- `k in obj` / `Map.has`. -/
def recHas {α : Type} (l : List (String × α)) (k : String) : Bool :=
  (recGet l k).isSome

/-- `Object.keys`. -/
def recKeys {α : Type} (l : List (String × α)) : List String :=
  l.map Prod.fst

/-- A JS object never repeats a key. -/
def nodupKeys {α : Type} (l : List (String × α)) : Prop :=
  (recKeys l).Nodup

/-! ## Whitespace runs and the `split(/\s+/)` word count

`"...".split(/\s+/).length` equals one plus the number of maximal whitespace
runs in the string, which is what `wsRuns` counts.  `isWs` is the set of
code points matched by the JavaScript `\s` class (restricted to single
UTF-16 units, which is all that can occur here). -/

/-- JavaScript regular-expression `\s`. -/
def isWs (c : Char) : Bool :=
  let n := c.toNat
  n = 32 || n = 9 || n = 10 || n = 11 || n = 12 || n = 13 || n = 160 || n = 5760 ||
    (8192 ≤ n && n ≤ 8202) || n = 8232 || n = 8233 || n = 8239 || n = 8287 ||
    n = 12288 || n = 65279

/-- Number of maximal whitespace runs; the Boolean records whether the
previous character was whitespace. -/
def wsGo : Bool → List Char → Nat
  | _, [] => 0
  | inWs, c :: cs => if isWs c then (if inWs then 0 else 1) + wsGo true cs else wsGo false cs

def wsRuns (s : String) : Nat := wsGo false s.data

/-- `s.split(/\s+/).length` for a JS string `s`. -/
def jsWordCount (s : String) : Nat := wsRuns s + 1

/-- The first character exists and is not whitespace. -/
def headNonWs (s : String) : Bool :=
  match s.data with
  | [] => false
  | c :: _ => !isWs c

/-! ## Comma joining (the shape of `JSON.stringify` juxtaposition) -/

def joinComma : List String → String
  | [] => ""
  | [s] => s
  | s :: rest => s ++ ("," ++ joinComma rest)

/-! ## Shrinking lists of serialized fragments -/

/-- `l'` arises from `l` by dropping fragments and replacing kept ones with
fragments of no greater length and whitespace-run count. -/
inductive StrShrink : List String → List String → Prop
  | nil : StrShrink [] []
  | cons {s' s : String} {l' l : List String} :
      s'.length ≤ s.length → wsRuns s' ≤ wsRuns s → StrShrink l' l →
      StrShrink (s' :: l') (s :: l)
  | skip {s : String} {l' l : List String} : StrShrink l' l → StrShrink l' (s :: l)

/-! ## `JSON.stringify` string and number fragments -/

def hexChar (n : Nat) : Char :=
  Char.ofNat (if n < 10 then 48 + n else 87 + n)

/-- The escape `JSON.stringify` applies to one character of a string value
(including the ` `/` ` escapes mandated since ES2019). -/
def escChar (c : Char) : String :=
  if c.toNat = 34 then "\\\""
  else if c.toNat = 92 then "\\\\"
  else if c.toNat = 8 then "\\b"
  else if c.toNat = 9 then "\\t"
  else if c.toNat = 10 then "\\n"
  else if c.toNat = 12 then "\\f"
  else if c.toNat = 13 then "\\r"
  else if c.toNat < 32 then "\\u00" ++ String.mk [hexChar (c.toNat / 16), hexChar (c.toNat % 16)]
  else if c.toNat = 8232 then "\\u2028"
  else if c.toNat = 8233 then "\\u2029"
  else String.singleton c

def escStr (s : String) : String :=
  s.data.foldl (fun acc c => acc ++ escChar c) ""

/-- A JSON string literal. -/
def qstr (s : String) : String := "\"" ++ escStr s ++ "\""

/-- A JSON boolean literal. -/
def boolStr (b : Bool) : String := if b then "true" else "false"

/-- A JSON number literal for the integral numbers the engine manipulates. -/
def numStr (n : Int) : String := Int.repr n

/-- Opening brace of a JSON object. -/
def obrace : String := "\x7b"

/-- Closing brace of a JSON object. -/
def cbrace : String := "\x7d"

/-! ## Data model (`src/common/types.ts`)

`UIElement`, `UIState` and `DifferentialUpdate`, with optional fields as
`Option` and string-keyed records as association lists.  Attribute and style
values are the strings the extractors produce. -/

structure Bounds where
  x : Int
  y : Int
  width : Int
  height : Int
deriving DecidableEq, Repr

abbrev AttrMap := List (String × String)

structure UIElement where
  id : String
  type : String
  text : Option String
  attributes : Option AttrMap
  bounds : Bounds
  interactable : Option Bool
  visible : Option Bool
  children : Option (List String)
  parent : Option String
  zIndex : Option Int
  styles : Option AttrMap
deriving DecidableEq, Repr

/-- `Partial<UIElement>`: the outer `Option` records whether the property is
present on the patch object at all (a property may be present with value
`undefined`, which `Object.assign` copies). -/
structure ElementPatch where
  id : Option String
  type : Option String
  text : Option (Option String)
  attributes : Option (Option AttrMap)
  bounds : Option Bounds
  interactable : Option (Option Bool)
  visible : Option (Option Bool)
  children : Option (Option (List String))
  parent : Option (Option String)
  zIndex : Option (Option Int)
  styles : Option (Option AttrMap)
deriving DecidableEq, Repr

structure Viewport where
  width : Int
  height : Int
deriving DecidableEq, Repr

structure UIState where
  timestamp : Int
  platform : String
  application : String
  title : String
  url : Option String
  viewport : Viewport
  elements : List (String × UIElement)
  focus : Option String
  hover : Option String
  version : String
deriving DecidableEq, Repr

/-- `DifferentialUpdate`; `focus`/`hover` carry `string | null`, and the
field itself may be absent: absent = outer `none`, explicit `null` = inner
`none`. -/
structure DifferentialUpdate where
  timestamp : Int
  added : Option (List (String × UIElement))
  modified : Option (List (String × ElementPatch))
  removed : Option (List String)
  focus : Option (Option String)
  hover : Option (Option String)
  baseVersion : String
  version : String
deriving DecidableEq, Repr

/-! ## Fingerprint (`hashElement` / `hashString`, `src/common/optimization.ts`) -/

/-- `ToInt32`, the coercion applied by `hash & hash` and `<<`. -/
def toInt32 (n : Int) : Int := (n + 2 ^ 31) % 2 ^ 32 - 2 ^ 31

/-- One step of the accumulator update
`hash = ((hash << 5) - hash) + char; hash = hash & hash`. -/
def hashStep (h : Int) (c : Nat) : Int := toInt32 (toInt32 (h * 32) - h + c)

/-- Base-36 digit (`0`-`9`, `a`-`z`), as produced by `Number.toString(36)`. -/
def digit36 (n : Nat) : Char :=
  Char.ofNat (if n < 10 then 48 + n else 87 + n)

def toBase36Core : Nat → Nat → List Char → List Char
  | 0, _, ds => ds
  | fuel + 1, n, ds =>
    let d := digit36 (n % 36)
    let n' := n / 36
    if n' = 0 then d :: ds else toBase36Core fuel n' (d :: ds)

def natToBase36 (n : Nat) : String := ⟨toBase36Core (n + 1) n []⟩

/-- `Number.prototype.toString(36)` on a 32-bit integer. -/
def intToString36 (i : Int) : String :=
  if i < 0 then "-" ++ natToBase36 i.natAbs else natToBase36 i.toNat

/-- `hashString` from `optimization.ts`. -/
def hashString (s : String) : String :=
  intToString36 (s.data.foldl (fun h c => hashStep h c.toNat) 0)

/-- `JSON.stringify` of an attribute/style record. -/
def attrsStr (l : AttrMap) : String :=
  obrace ++ joinComma (l.map (fun p => qstr p.1 ++ ":" ++ qstr p.2)) ++ cbrace

/-- `JSON.stringify` of a bounds object (keys in construction order). -/
def boundsStr (b : Bounds) : String :=
  obrace ++ "\"x\":" ++ numStr b.x ++ ",\"y\":" ++ numStr b.y ++
    ",\"width\":" ++ numStr b.width ++ ",\"height\":" ++ numStr b.height ++ cbrace

/-- `hashElement`: hash of `JSON.stringify` of the reduced
`{type, text, bounds, interactable, visible, attributes}` object (styles and
children deliberately excluded by the source). -/
def hashElement (el : UIElement) : String :=
  hashString (obrace ++ "\"type\":" ++ qstr el.type ++
    ",\"text\":" ++ qstr (el.text.getD "") ++
    ",\"bounds\":" ++ boundsStr el.bounds ++
    ",\"interactable\":" ++ boolStr (el.interactable.getD false) ++
    ",\"visible\":" ++ boolStr (el.visible != some false) ++
    ",\"attributes\":" ++ attrsStr (el.attributes.getD []) ++ cbrace)

/-! ## Field-level diff (`computeElementChanges` and helpers) -/

def boundsEqual : Option Bounds → Option Bounds → Bool
  | some a, some b => a.x == b.x && a.y == b.y && a.width == b.width && a.height == b.height
  | a, b => a == b

def attributesEqual : Option AttrMap → Option AttrMap → Bool
  | some a, some b => a.length == b.length && a.all (fun p => recGet b p.1 == some p.2)
  | a, b => a == b

def stylesEqual : Option AttrMap → Option AttrMap → Bool
  | some a, some b => a.length == b.length && a.all (fun p => recGet b p.1 == some p.2)
  | a, b => a == b

def arraysEqual : Option (List String) → Option (List String) → Bool
  | some a, some b => a == b
  | a, b => a == b

/-- `computeElementChanges`: the partial element holding exactly the changed
diffed fields (JS assigns only `text`, `bounds`, `interactable`, `visible`,
`attributes`, `styles`, `children`; never `id`, `type` or `zIndex`). -/
def computeElementChanges (oldElement newElement : UIElement) : ElementPatch where
  id := none
  type := none
  text := if oldElement.text != newElement.text then some newElement.text else none
  attributes :=
    if !attributesEqual oldElement.attributes newElement.attributes
    then some newElement.attributes else none
  bounds :=
    if !boundsEqual (some oldElement.bounds) (some newElement.bounds)
    then some newElement.bounds else none
  interactable :=
    if oldElement.interactable != newElement.interactable
    then some newElement.interactable else none
  visible :=
    if oldElement.visible != newElement.visible then some newElement.visible else none
  children :=
    if !arraysEqual oldElement.children newElement.children
    then some newElement.children else none
  parent := none
  zIndex := none
  styles :=
    if !stylesEqual oldElement.styles newElement.styles then some newElement.styles else none

/-- `Object.keys(changes).length == 0`. -/
def patchIsEmpty (p : ElementPatch) : Bool :=
  p.id.isNone && p.type.isNone && p.text.isNone && p.attributes.isNone && p.bounds.isNone &&
    p.interactable.isNone && p.visible.isNone && p.children.isNone && p.parent.isNone &&
    p.zIndex.isNone && p.styles.isNone

/-- `x || null` and `x || undefined` on an optional string: both `null` and
`undefined` embed as `none`, and the empty string is falsy. -/
def orElseNone (o : Option String) : Option String :=
  match o with
  | some s => if s = "" then none else some s
  | none => none

/-! ## Snapshot diff (`computeDiff`) -/

/-- The loop over `newState.elements` classifying each id as added/modified. -/
def diffScan (oldElems : List (String × UIElement)) (newElems : List (String × UIElement)) :
    List (String × UIElement) × List (String × ElementPatch) :=
  newElems.foldl
    (fun acc p =>
      match recGet oldElems p.1 with
      | none => (recSet acc.1 p.1 p.2, acc.2)
      | some oldEl =>
        if hashElement oldEl != hashElement p.2 then
          let changes := computeElementChanges oldEl p.2
          if !patchIsEmpty changes then (acc.1, recSet acc.2 p.1 changes) else acc
        else acc)
    ([], [])

/-- `computeDiff` from `optimization.ts`. -/
def computeDiff (oldState newState : UIState) : DifferentialUpdate :=
  let scan := diffScan oldState.elements newState.elements
  let removed :=
    (oldState.elements.filter (fun p => !recHas newState.elements p.1)).map Prod.fst
  { timestamp := newState.timestamp
    baseVersion := oldState.version
    version := newState.version
    added := if scan.1.isEmpty then none else some scan.1
    modified := if scan.2.isEmpty then none else some scan.2
    removed := if removed.isEmpty then none else some removed
    focus := if oldState.focus != newState.focus then some (orElseNone newState.focus) else none
    hover := if oldState.hover != newState.hover then some (orElseNone newState.hover) else none }

/-! ## Patch application (`BaseMCPServer.applyUpdate`) -/

/-- `Object.assign(element, changes)`: present properties of the patch
overwrite, absent ones leave the base property in place. -/
def assignElement (el : UIElement) (ch : ElementPatch) : UIElement where
  id := ch.id.getD el.id
  type := ch.type.getD el.type
  text := match ch.text with | some t => t | none => el.text
  attributes := match ch.attributes with | some a => a | none => el.attributes
  bounds := ch.bounds.getD el.bounds
  interactable := match ch.interactable with | some i => i | none => el.interactable
  visible := match ch.visible with | some v => v | none => el.visible
  children := match ch.children with | some c => c | none => el.children
  parent := match ch.parent with | some q => q | none => el.parent
  zIndex := match ch.zIndex with | some z => z | none => el.zIndex
  styles := match ch.styles with | some st => st | none => el.styles

namespace BaseServer

/-- `BaseMCPServer.applyUpdate`: deep-copies the base state, stamps the
patch version/timestamp, merges `added`, `modified`, `removed` and the
focus/hover overrides.  The deep copy makes the function pure; purity over
the heap is stated separately via `applyUpdateAlloc`. -/
def applyUpdate (state : UIState) (update : DifferentialUpdate) : UIState :=
  let elems1 := match update.added with
    | some additions => additions.foldl (fun e p => recSet e p.1 p.2) state.elements
    | none => state.elements
  let elems2 := match update.modified with
    | some mods =>
      mods.foldl
        (fun e p =>
          match recGet e p.1 with
          | some el => recSet e p.1 (assignElement el p.2)
          | none => e)
        elems1
    | none => elems1
  let elems3 := match update.removed with
    | some rem => rem.foldl (fun e id => recDelete e id) elems2
    | none => elems2
  { state with
    version := update.version
    timestamp := update.timestamp
    elements := elems3
    focus := match update.focus with | some f => orElseNone f | none => state.focus
    hover := match update.hover with | some h => orElseNone h | none => state.hover }

/-- The allocation behaviour of `applyUpdate` made explicit: the base state
lives in a heap cell, `JSON.parse(JSON.stringify(state))` allocates a fresh
cell, and every mutation of the routine targets the fresh cell only. -/
def applyUpdateAlloc (heap : List UIState) (i : Nat) (update : DifferentialUpdate) :
    List UIState × Nat :=
  match heap[i]? with
  | some base => (heap ++ [applyUpdate base update], heap.length)
  | none => (heap, heap.length)

end BaseServer

/-! ## Server state machine (`BaseMCPServer.processStateUpdate`) -/

structure ContextManagement where
  maxHistoryStates : Option Int
  includeFullElementDetails : Option Bool
deriving DecidableEq, Repr

structure MCPServerConfig where
  contextManagement : Option ContextManagement
deriving DecidableEq, Repr

structure ServerState where
  config : Option MCPServerConfig
  currentState : Option UIState
  stateHistory : List UIState
deriving DecidableEq, Repr

namespace BaseServer

/-- Truthiness of `this.config?.contextManagement?.maxHistoryStates`. -/
def maxHistoryTruthy (σ : ServerState) : Bool :=
  match σ.config with
  | some cfg =>
    match cfg.contextManagement with
    | some cm =>
      match cm.maxHistoryStates with
      | some n => n != 0
      | none => false
    | none => false
  | none => false

/-- `addStateToHistory`: push, then shift when over
`maxHistoryStates ?? 10`. -/
def addStateToHistory (σ : ServerState) (s : UIState) : ServerState :=
  let hist := σ.stateHistory ++ [s]
  let maxH : Int :=
    (((σ.config.bind (fun c => c.contextManagement)).bind
      (fun cm => cm.maxHistoryStates)).getD 10)
  if (hist.length : Int) > maxH then { σ with stateHistory := hist.tail }
  else { σ with stateHistory := hist }

/-- `processStateUpdate`: throws (second component `some msg`, state
unchanged) when no current state exists or the base version mismatches;
otherwise applies the update and re-caches. -/
def processStateUpdate (σ : ServerState) (update : DifferentialUpdate) :
    ServerState × Option String :=
  match σ.currentState with
  | none => (σ, some "No current state available")
  | some cur =>
    if update.baseVersion != cur.version then
      (σ, some "Update base version does not match current state version")
    else
      let newState := applyUpdate cur update
      let σ₁ := { σ with currentState := some newState }
      let σ₂ := if maxHistoryTruthy σ then addStateToHistory σ₁ newState else σ₁
      (σ₂, none)

end BaseServer

/-! ## LRU cache (`src/common/cache.ts`)

Keys are strings in both instantiations (composite snapshot keys and element
ids); keeping the key type concrete lets the embedding express the JS
truthiness test `if (lruKey)` that guards eviction. -/

structure LRUCache (V : Type) where
  capacity : Nat
  cache : List (String × V)
  usage : List (String × Nat)
  accessCounter : Nat

namespace LRUCache

def empty (V : Type) (capacity : Nat) : LRUCache V :=
  { capacity := capacity, cache := [], usage := [], accessCounter := 0 }

/-- `get`: `undefined` on a miss, otherwise promote and return. -/
def get {V : Type} (c : LRUCache V) (k : String) : Option V × LRUCache V :=
  if !recHas c.cache k then (none, c)
  else
    let counter := c.accessCounter + 1
    (recGet c.cache k,
      { c with usage := recSet c.usage k counter, accessCounter := counter })

/-- `findLRUKey`: scan of the usage map keeping the strictly smallest count
(the initial bound is `Infinity`, so the first entry always wins it). -/
def findLRUKey {V : Type} (c : LRUCache V) : Option String :=
  (c.usage.foldl
    (fun acc p =>
      match acc with
      | none => some p
      | some q => if p.2 < q.2 then some p else acc)
    none).map Prod.fst

/-- `set`: evict the LRU key when at capacity and adding a new key — but
only when that key is truthy (`if (lruKey)`), so the empty-string key is
never evicted — then insert/update. -/
def set {V : Type} (c : LRUCache V) (k : String) (v : V) : LRUCache V :=
  let c₁ :=
    if c.cache.length ≥ c.capacity && !recHas c.cache k then
      match findLRUKey c with
      | some lruKey =>
        if lruKey ≠ "" then
          { c with cache := recDelete c.cache lruKey, usage := recDelete c.usage lruKey }
        else c
      | none => c
    else c
  let counter := c₁.accessCounter + 1
  { c₁ with
    cache := recSet c₁.cache k v
    usage := recSet c₁.usage k counter
    accessCounter := counter }

def has {V : Type} (c : LRUCache V) (k : String) : Bool := recHas c.cache k

def delete {V : Type} (c : LRUCache V) (k : String) : Bool × LRUCache V :=
  if recHas c.cache k then
    (true, { c with cache := recDelete c.cache k, usage := recDelete c.usage k })
  else (false, c)

def clear {V : Type} (c : LRUCache V) : LRUCache V :=
  { c with cache := [], usage := [], accessCounter := 0 }

def size {V : Type} (c : LRUCache V) : Nat := c.cache.length

end LRUCache

/-- An external `get`/`set`/`delete` call against an LRU cache. -/
inductive CacheOp (V : Type) where
  | get (k : String)
  | set (k : String) (v : V)
  | del (k : String)

def runOp {V : Type} (c : LRUCache V) : CacheOp V → LRUCache V
  | .get k => (c.get k).2
  | .set k v => c.set k v
  | .del k => (c.delete k).2

def runOps {V : Type} (c : LRUCache V) (ops : List (CacheOp V)) : LRUCache V :=
  ops.foldl runOp c

/-- Keys a `set` operation inserts; `get`/`delete` never insert. -/
def opSetKeyOk {V : Type} : CacheOp V → Prop
  | .set k _ => k ≠ ""
  | _ => True

/-! ## Snapshot cache (`UIStateCache`) -/

structure UIStateCache where
  stateCache : LRUCache UIState
  versionToTimestamp : List (String × Int)

namespace UIStateCache

def empty (capacity : Nat := 10) : UIStateCache :=
  { stateCache := LRUCache.empty UIState capacity, versionToTimestamp := [] }

/-- `` `${timestamp}-${version}` ``. -/
def getStateKeyFromParts (timestamp : Int) (version : String) : String :=
  numStr timestamp ++ "-" ++ version

def getStateKey (s : UIState) : String := getStateKeyFromParts s.timestamp s.version

/-- `addState`: stores in the LRU cache and records the version in the
never-pruned `versionToTimestamp` map. -/
def addState (c : UIStateCache) (s : UIState) : UIStateCache :=
  { c with
    stateCache := c.stateCache.set (getStateKey s) s
    versionToTimestamp := recSet c.versionToTimestamp s.version s.timestamp }

def getStateByVersion (c : UIStateCache) (version : String) : Option UIState × UIStateCache :=
  match recGet c.versionToTimestamp version with
  | none => (none, c)
  | some timestamp =>
    let r := c.stateCache.get (getStateKeyFromParts timestamp version)
    (r.1, { c with stateCache := r.2 })

/-- `getMostRecentState`: scan `versionToTimestamp` for the strictly largest
timestamp starting from `(0, "")`, then look that version up. -/
def getMostRecentState (c : UIStateCache) : Option UIState × UIStateCache :=
  let scan := c.versionToTimestamp.foldl
    (fun acc p => if p.2 > acc.1 then (p.2, p.1) else acc) ((0 : Int), "")
  if scan.2 ≠ "" then c.getStateByVersion scan.2 else (none, c)

/-- `UIStateCache.applyUpdate`: look up the base version, apply the patch
(the statement sequence of its body is identical to
`BaseMCPServer.applyUpdate`, so the embedding reuses it), cache and return
the result; `undefined` when the base version is not resident. -/
def applyUpdate (c : UIStateCache) (baseVersion : String) (update : DifferentialUpdate) :
    Option UIState × UIStateCache :=
  match c.getStateByVersion baseVersion with
  | (none, c₁) => (none, c₁)
  | (some baseState, c₁) =>
    let newState := BaseServer.applyUpdate baseState update
    (some newState, c₁.addState newState)

def size (c : UIStateCache) : Nat := c.stateCache.size

end UIStateCache

/-! ## Context compaction pipeline
(`BaseMCPServer.simplifyState` → `compressState` → `filterElements` →
`OpenAIMCPServer.simplifyContextForTokenLimit`)

After `simplifyState` the pipeline works on untyped (`any`) values; the
shapes those values can actually take, starting from a typed `UIState`, are
captured by `SElement`/`SState` with every field optional (absent property =
`none`).  `JSON.stringify` drops absent properties; keys are serialized in
the canonical construction order of the sources. -/

structure SElement where
  id : Option String
  type : Option String
  text : Option String
  attributes : Option AttrMap
  bounds : Option Bounds
  interactable : Option Bool
  visible : Option Bool
  children : Option (List String)
  parent : Option String
  zIndex : Option Int
  styles : Option AttrMap
deriving DecidableEq, Repr

structure SState where
  platform : String
  application : String
  title : String
  url : Option String
  viewport : Viewport
  elements : List (String × SElement)
  focus : Option String
  hover : Option String
deriving DecidableEq, Repr

/-- Truthiness of an optional string (`undefined` and `""` are falsy). -/
def truthyOptStr : Option String → Bool
  | some s => s != ""
  | none => false

/-- Truthiness of an optional boolean. -/
def optTruthy : Option Bool → Bool
  | some b => b
  | none => false

/-- `JSON.stringify` of an array of strings. -/
def strArrStr (l : List String) : String := "[" ++ joinComma (l.map qstr) ++ "]"

/-- `JSON.stringify` of a viewport object. -/
def viewportStr (v : Viewport) : String :=
  obrace ++ "\"width\":" ++ numStr v.width ++ ",\"height\":" ++ numStr v.height ++ cbrace

/-- The `"key":value` fragments of a serialized element, present fields
only, in construction order. -/
def sElementEntryStrs (e : SElement) : List String :=
  [e.id.map (fun v => "\"id\":" ++ qstr v),
   e.type.map (fun v => "\"type\":" ++ qstr v),
   e.text.map (fun v => "\"text\":" ++ qstr v),
   e.attributes.map (fun a => "\"attributes\":" ++ attrsStr a),
   e.bounds.map (fun b => "\"bounds\":" ++ boundsStr b),
   e.interactable.map (fun b => "\"interactable\":" ++ boolStr b),
   e.visible.map (fun b => "\"visible\":" ++ boolStr b),
   e.children.map (fun c => "\"children\":" ++ strArrStr c),
   e.parent.map (fun v => "\"parent\":" ++ qstr v),
   e.zIndex.map (fun z => "\"zIndex\":" ++ numStr z),
   e.styles.map (fun st => "\"styles\":" ++ attrsStr st)].reduceOption

/-- `JSON.stringify` of one element. -/
def sElementStr (e : SElement) : String :=
  obrace ++ joinComma (sElementEntryStrs e) ++ cbrace

def sElemsEntryStr (p : String × SElement) : String :=
  qstr p.1 ++ ":" ++ sElementStr p.2

/-- `JSON.stringify` of the elements record. -/
def sElemsStr (l : List (String × SElement)) : String :=
  obrace ++ joinComma (l.map sElemsEntryStr) ++ cbrace

/-- The `"key":value` fragments of a serialized simplified state. -/
def sStateEntryStrs (c : SState) : List String :=
  ["\"platform\":" ++ qstr c.platform,
   "\"application\":" ++ qstr c.application,
   "\"title\":" ++ qstr c.title] ++
  (match c.url with | some u => ["\"url\":" ++ qstr u] | none => []) ++
  ["\"viewport\":" ++ viewportStr c.viewport,
   "\"elements\":" ++ sElemsStr c.elements] ++
  (match c.focus with | some f => ["\"focus\":" ++ qstr f] | none => []) ++
  (match c.hover with | some h => ["\"hover\":" ++ qstr h] | none => [])

/-- `JSON.stringify` of a simplified state. -/
def sStateStr (c : SState) : String :=
  obrace ++ joinComma (sStateEntryStrs c) ++ cbrace

/-- Inline greedy cost `Math.ceil(JSON.stringify(element).length / 4)`. -/
def jsonTokens4 (s : String) : Nat := (s.length + 3) / 4

/-- `OpenAIMCPServer.estimateTokenCount`:
`Math.ceil(charCount / 4 + wordCount * 0.75)`, with
`wordCount = json.split(/\s+/).length`; the double-precision sum is exact,
and the ceiling equals `⌈(c + 3w) / 4⌉`. -/
def estimateTokenCountOpenAI (s : SState) : Nat :=
  let json := sStateStr s
  (json.length + 3 * jsWordCount json + 3) / 4

/-- `BaseMCPServer.simplifyState`: full-details spread `{...element}` keeps
all fields; the essential projection keeps
`id, type, text, bounds, interactable, children, parent`. -/
def fullS (e : UIElement) : SElement :=
  { id := some e.id, type := some e.type, text := e.text, attributes := e.attributes,
    bounds := some e.bounds, interactable := e.interactable, visible := e.visible,
    children := e.children, parent := e.parent, zIndex := e.zIndex, styles := e.styles }

def essentialS (e : UIElement) : SElement :=
  { id := some e.id, type := some e.type, text := e.text, attributes := none,
    bounds := some e.bounds, interactable := e.interactable, visible := none,
    children := e.children, parent := e.parent, zIndex := none, styles := none }

def simplifyState (state : UIState) (includeFullElementDetails includeInvisible : Bool) :
    SState :=
  let elems := state.elements.foldl
    (fun acc p =>
      if !includeInvisible && p.2.visible == some false then acc
      else if includeFullElementDetails then recSet acc p.1 (fullS p.2)
      else recSet acc p.1 (essentialS p.2))
    []
  { platform := state.platform, application := state.application, title := state.title,
    url := state.url, viewport := state.viewport, elements := elems,
    focus := if truthyOptStr state.focus then state.focus else none,
    hover := if truthyOptStr state.hover then state.hover else none }

/-- `Math.round` on the embedded integral numbers. -/
def mathRound (n : Int) : Int := n

def roundBounds (b : Bounds) : Bounds :=
  { x := mathRound b.x, y := mathRound b.y,
    width := mathRound b.width, height := mathRound b.height }

/-- Per-element body of the `compressState` loop. -/
def compressElement (e0 : SElement) : SElement :=
  let e1 := if e0.text == some "" then { e0 with text := none } else e0
  let e2 := if (match e1.attributes with | none => true | some a => a.isEmpty)
    then { e1 with attributes := none } else e1
  let e3 := if (match e2.styles with | none => true | some s => s.isEmpty)
    then { e2 with styles := none } else e2
  let e4 := if (match e3.children with | none => true | some c => c.isEmpty)
    then { e3 with children := none } else e3
  let e5 := if e4.visible == some true then { e4 with visible := none } else e4
  let e6 := if e5.interactable == some false then { e5 with interactable := none } else e5
  match e6.bounds with
  | some b => { e6 with bounds := some (roundBounds b) }
  | none => e6

/-- `compressState` from `optimization.ts` (the `JSON.parse(JSON.stringify(...))`
deep copy is the identity on the embedded values). -/
def compressState (state : SState) : SState :=
  { state with elements := state.elements.map (fun p => (p.1, compressElement p.2)) }

/-! ## `filterElements` and scoring -/

structure FilterOptions where
  maxElements : Option Nat
  prioritizeInteractable : Option Bool
  prioritizeVisible : Option Bool
  excludeTypes : Option (List String)
  includeTypes : Option (List String)

/-- `getElementDepth`: the `while` loop breaks after one iteration, so the
estimated depth is 1 when a truthy parent reference exists, else 0. -/
def getElementDepth (e : SElement) : Nat :=
  match e.parent with
  | some p => if p != "" then 1 else 0
  | none => 0

def calculateElementScore (e : SElement) (opts : FilterOptions) : Int :=
  (if optTruthy opts.prioritizeInteractable && optTruthy e.interactable then 100 else 0) +
  (if optTruthy opts.prioritizeVisible && e.visible != some false then 50 else 0) +
  (if (match e.text with | some t => t != "" && t.trim.length > 0 | none => false)
    then 25 else 0) +
  max 0 (20 - 2 * (getElementDepth e : Int))

/-- Stable insertion of `x` before the first `y` with `cmp x y ≤ 0`:
the unique stable order consistent with a JS `Array.prototype.sort`
comparator (JS sorts are stable). -/
def insertBy {α : Type} (cmp : α → α → Int) (x : α) : List α → List α
  | [] => [x]
  | y :: ys => if cmp x y ≤ 0 then x :: y :: ys else y :: insertBy cmp x ys

def sortBy {α : Type} (cmp : α → α → Int) : List α → List α
  | [] => []
  | x :: xs => insertBy cmp x (sortBy cmp xs)

structure Scored where
  id : String
  element : SElement
  score : Int

/-- `filterElements` from `optimization.ts`, on the pipeline's value shapes. -/
def filterElements (state : SState) (opts : FilterOptions) : SState :=
  let elementArray := state.elements.map
    (fun p => Scored.mk p.1 p.2 (calculateElementScore p.2 opts))
  let ea1 := match opts.excludeTypes with
    | some ex =>
      if ex.length > 0 then
        elementArray.filter
          (fun q => !(match q.element.type with | some t => ex.contains t | none => false))
      else elementArray
    | none => elementArray
  let ea2 := match opts.includeTypes with
    | some inc =>
      if inc.length > 0 then
        ea1.filter
          (fun q => (match q.element.type with | some t => inc.contains t | none => false))
      else ea1
    | none => ea1
  let sorted := sortBy (fun a b => b.score - a.score) ea2
  let limited := match opts.maxElements with
    | some m => if m ≠ 0 && sorted.length > m then sorted.take m else sorted
    | none => sorted
  { state with elements := limited.foldl (fun acc q => recSet acc q.id q.element) [] }

/-! ## OpenAI server context preparation (`src/server/openai-server.ts`) -/

structure ContextOptions where
  maxTokens : Option Nat
  includeFullElementDetails : Option Bool
  includeInvisible : Option Bool

/-- `ModelContext` (the unused `metadata` record is omitted). -/
structure ModelContext where
  uiState : SState
  tokenCount : Nat
deriving Repr

namespace OpenAIServer

/-- `BaseMCPServer.prepareContextForModel`, as dispatched from the OpenAI
server (so `this.estimateTokenCount` is the override). -/
def basePrepareContext (cfgIncludeFull : Option Bool) (st : UIState) (opts : ContextOptions) :
    ModelContext :=
  let includeFull := (opts.includeFullElementDetails.or cfgIncludeFull).getD false
  let includeInvisible := opts.includeInvisible.getD false
  let simplified := simplifyState st includeFull includeInvisible
  { uiState := simplified, tokenCount := estimateTokenCountOpenAI simplified }

/-- Comparator of `sortedElementIds` (interactable first, then text). -/
def elemCmp (elements : List (String × SElement)) (a b : String) : Int :=
  match recGet elements a, recGet elements b with
  | some eA, some eB =>
    if optTruthy eA.interactable && !optTruthy eB.interactable then -1
    else if !optTruthy eA.interactable && optTruthy eB.interactable then 1
    else if truthyOptStr eA.text && !truthyOptStr eB.text then -1
    else if !truthyOptStr eA.text && truthyOptStr eB.text then 1
    else 0
  | _, _ => 0

def sortIdsByImportance (elements : List (String × SElement)) : List String :=
  sortBy (elemCmp elements) (recKeys elements)

/-- The greedy fill loop of `simplifyContextForTokenLimit`: accumulate
elements while the running count stays within the budget, falling back to an
essential-fields projection for interactable elements. -/
def simplifyGreedy (maxTokens : Nat) (elements : List (String × SElement))
    (sortedIds : List String) (start : Nat) : List (String × SElement) × Nat :=
  sortedIds.foldl
    (fun acc id =>
      match recGet elements id with
      | none => acc
      | some element =>
        let elementTokens := jsonTokens4 (sElementStr element)
        if acc.2 + elementTokens ≤ maxTokens then
          (recSet acc.1 id element, acc.2 + elementTokens)
        else if optTruthy element.interactable then
          let simplifiedElement : SElement :=
            { id := element.id, type := element.type, text := element.text,
              attributes := none, bounds := none, interactable := some true,
              visible := none, children := none, parent := none, zIndex := none,
              styles := none }
          let simplifiedTokens := jsonTokens4 (sElementStr simplifiedElement)
          if acc.2 + simplifiedTokens ≤ maxTokens then
            (recSet acc.1 id simplifiedElement, acc.2 + simplifiedTokens)
          else acc
        else acc)
    ([], start)

/-- `OpenAIMCPServer.simplifyContextForTokenLimit`. -/
def simplifyContextForTokenLimit (context : ModelContext) (maxTokens : Nat) : ModelContext :=
  let filteredState := filterElements context.uiState
    { maxElements := some 50, prioritizeInteractable := some true,
      prioritizeVisible := some true,
      excludeTypes := some ["script", "style", "meta", "link", "noscript"],
      includeTypes := none }
  let currentTokenCount := estimateTokenCountOpenAI filteredState
  let elements := filteredState.elements
  let sortedElementIds := sortIdsByImportance elements
  let r := simplifyGreedy maxTokens elements sortedElementIds currentTokenCount
  let finalState := { filteredState with elements := r.1 }
  { uiState := finalState, tokenCount := estimateTokenCountOpenAI finalState }

/-- `OpenAIMCPServer.prepareContextForModel` (compression, token estimate,
and the conditional aggressive simplification). -/
def prepareContextForModel (serverMaxTokens : Nat) (cfgIncludeFull : Option Bool)
    (st : UIState) (opts : ContextOptions) : ModelContext :=
  let baseContext := basePrepareContext cfgIncludeFull st opts
  let maxTokens := opts.maxTokens.getD serverMaxTokens
  let compressedState := compressState baseContext.uiState
  let ctx : ModelContext :=
    { uiState := compressedState, tokenCount := estimateTokenCountOpenAI compressedState }
  if ctx.tokenCount > maxTokens then simplifyContextForTokenLimit ctx maxTokens else ctx

/-- The "empty output" of the pipeline on a given snapshot: the compacted
skeleton with no elements at all. -/
def emptyContextState (cfgIncludeFull : Option Bool) (st : UIState) (opts : ContextOptions) :
    SState :=
  { compressState (basePrepareContext cfgIncludeFull st opts).uiState with elements := [] }

end OpenAIServer

/-- `lruSetAll`: a sequence of `set` calls. -/
def lruSetAll {V : Type} (c : LRUCache V) (ps : List (String × V)) : LRUCache V :=
  ps.foldl (fun c p => c.set p.1 p.2) c

/-- Usage map produced by inserting fresh keys in order after counter `a`. -/
def usageFrom {V : Type} (a : Nat) : List (String × V) → List (String × Nat)
  | [] => []
  | p :: ps => (p.1, a + 1) :: usageFrom (a + 1) ps

/-- Lookup of an id in the optional `modified` record of a patch. -/
def modifiedLookup (u : DifferentialUpdate) (id : String) : Option ElementPatch :=
  u.modified.bind (fun m => recGet m id)

/-- Lookup of an id in the optional `added` record of a patch. -/
def addedLookup (u : DifferentialUpdate) (id : String) : Option UIElement :=
  u.added.bind (fun m => recGet m id)

/-- The conditions forced on a snapshot pair by the round-trip
counterexamples: keys are unique; focus/hover of the result are not the
(falsy) empty string; and for every id present in both snapshots the two
elements agree on the fields the differ never patches (`id`, `type`,
`parent`, `zIndex`), collide in fingerprint only when structurally equal, and
have observationally equal attribute/style maps only when listed identically. -/
def roundTripCompatible (old new : UIState) : Prop :=
  nodupKeys old.elements ∧ nodupKeys new.elements ∧
  new.focus ≠ some "" ∧ new.hover ≠ some "" ∧
  ∀ p ∈ old.elements, ∀ q ∈ new.elements, p.1 = q.1 →
    (p.2.id = q.2.id ∧ p.2.type = q.2.type ∧ p.2.parent = q.2.parent ∧
      p.2.zIndex = q.2.zIndex) ∧
    (hashElement p.2 = hashElement q.2 → p.2 = q.2) ∧
    (attributesEqual p.2.attributes q.2.attributes = true → p.2.attributes = q.2.attributes) ∧
    (stylesEqual p.2.styles q.2.styles = true → p.2.styles = q.2.styles)

/-- The `removed` id list computed by `computeDiff`. -/
def removedIds (oldE newE : List (String × UIElement)) : List String :=
  (oldE.filter (fun p => !recHas newE p.1)).map Prod.fst

/-- The interactable fallback projection built by the greedy loop of
`simplifyContextForTokenLimit`. -/
def simplifiedOf (element : SElement) : SElement :=
  { id := element.id, type := element.type, text := element.text,
    attributes := none, bounds := none, interactable := some true,
    visible := none, children := none, parent := none, zIndex := none,
    styles := none }

/-- Measure of the serialized entry an id contributes to a record. -/
def lookupMeasure (E : List (String × SElement)) (g : String × SElement → Nat)
    (id : String) : Nat :=
  match recGet E id with
  | some e => g (id, e)
  | none => 0

/-- The serialized fragments of a state that precede the elements record. -/
def statePreStrs (c : SState) : List String :=
  ["\"platform\":" ++ qstr c.platform,
   "\"application\":" ++ qstr c.application,
   "\"title\":" ++ qstr c.title] ++
  (match c.url with | some u => ["\"url\":" ++ qstr u] | none => []) ++
  ["\"viewport\":" ++ viewportStr c.viewport]

/-- The serialized fragments of a state that follow the elements record. -/
def statePostStrs (c : SState) : List String :=
  (match c.focus with | some f => ["\"focus\":" ++ qstr f] | none => []) ++
  (match c.hover with | some h => ["\"hover\":" ++ qstr h] | none => [])

/-! ## Concrete fixtures used by counterexamples and witnesses -/

/-- Context options with an explicit 30-token budget. -/
def exCtxOpts : ContextOptions where
  maxTokens := some 30
  includeFullElementDetails := none
  includeInvisible := none

/-- A minimal element: everything optional absent. -/
def exElem0 : UIElement where
  id := "a"
  type := "div"
  text := none
  attributes := none
  bounds := { x := 0, y := 0, width := 10, height := 10 }
  interactable := none
  visible := none
  children := none
  parent := none
  zIndex := none
  styles := none

/-- Element with red styles. -/
def exElemRed : UIElement := { exElem0 with styles := some [("color", "red")] }

/-- Same element with blue styles: differs only in the non-hashed field. -/
def exElemBlue : UIElement := { exElem0 with styles := some [("color", "blue")] }

/-- A minimal snapshot holding the given elements. -/
def exState (elems : List (String × UIElement)) (version : String) (timestamp : Int) :
    UIState where
  timestamp := timestamp
  platform := "web"
  application := "app"
  title := "t"
  url := none
  viewport := { width := 100, height := 100 }
  elements := elems
  focus := none
  hover := none
  version := version

def exStyleOld : UIState := exState [("a", exElemRed)] "1" 1
def exStyleNew : UIState := exState [("a", exElemBlue)] "2" 2

/-- Elements whose attribute values `"Aa"` and `"BB"` produce colliding
31-based hashes (`'A'*31 + 'a' = 'B'*31 + 'B' = 2112`). -/
def exElemAttrAa : UIElement := { exElem0 with attributes := some [("k", "Aa")] }

def exElemAttrBB : UIElement := { exElem0 with attributes := some [("k", "BB")] }

def exAttrOld : UIState := exState [("a", exElemAttrAa)] "1" 1
def exAttrNew : UIState := exState [("a", exElemAttrBB)] "2" 2

/-- The spec §8 basic-diff scenario: button `Go` → `Submit`, label added. -/
def exBtnGo : UIElement where
  id := "btn"
  type := "button"
  text := some "Go"
  attributes := none
  bounds := { x := 0, y := 0, width := 10, height := 10 }
  interactable := some true
  visible := none
  children := none
  parent := none
  zIndex := none
  styles := none

def exBtnSubmit : UIElement := { exBtnGo with text := some "Submit" }

def exLabel : UIElement where
  id := "label"
  type := "label"
  text := some "Name"
  attributes := none
  bounds := { x := 0, y := 20, width := 10, height := 10 }
  interactable := none
  visible := none
  children := none
  parent := none
  zIndex := none
  styles := none

def exScenarioA : UIState := exState [("btn", exBtnGo)] "1" 1
def exScenarioB : UIState := exState [("btn", exBtnSubmit), ("label", exLabel)] "2" 2

/-- A successor snapshot keeping the button untouched and adding the label:
a pair on which the amended round-trip law is exercised concretely. -/
def exScenarioC : UIState := exState [("btn", exBtnGo), ("label", exLabel)] "2" 2

/-- A snapshot with timestamp `0`: cached but invisible to the
`getMostRecentState` scan. -/
def exStateTs0 : UIState := exState [("a", exElem0)] "a" 0

/-- Resident snapshot for the amended `getMostRecentState` witness. -/
def exStateTs5 : UIState := exState [("a", exElem0)] "v1" 5

def exCacheC6 : UIStateCache where
  stateCache :=
    { capacity := 10
      cache := [(UIStateCache.getStateKeyFromParts 5 "v1", exStateTs5)]
      usage := [(UIStateCache.getStateKeyFromParts 5 "v1", 1)]
      accessCounter := 1 }
  versionToTimestamp := [("v1", 5)]

/-- Compaction fixture: an interactable parent retaining a child reference,
and a low-scoring child that gets pruned. -/
def exSParent : SElement where
  id := some "p"
  type := some "div"
  text := none
  attributes := none
  bounds := some { x := 0, y := 0, width := 10, height := 10 }
  interactable := some true
  visible := none
  children := some ["c"]
  parent := none
  zIndex := none
  styles := none

def exSChild : SElement where
  id := some "c"
  type := some "div"
  text := none
  attributes := none
  bounds := some { x := 0, y := 0, width := 5, height := 5 }
  interactable := none
  visible := none
  children := none
  parent := some "p"
  zIndex := none
  styles := none

def exSState : SState where
  platform := "web"
  application := "app"
  title := "t"
  url := none
  viewport := { width := 100, height := 100 }
  elements := [("p", exSParent), ("c", exSChild)]
  focus := none
  hover := none

def exFilterOpts : FilterOptions where
  maxElements := some 1
  prioritizeInteractable := some true
  prioritizeVisible := none
  excludeTypes := none
  includeTypes := none

/-- A patch carrying whole attribute and style maps. -/
def exPatchStyles : ElementPatch where
  id := none
  type := none
  text := none
  attributes := some (some [("k", "v")])
  bounds := none
  interactable := none
  visible := none
  children := none
  parent := none
  zIndex := none
  styles := some (some [("color", "blue")])

/-- An update whose only `modified` entry names an id absent from the base. -/
def exUpdateModOnly : DifferentialUpdate where
  timestamp := 2
  added := none
  modified := some [("ghost", exPatchStyles)]
  removed := none
  focus := none
  hover := none
  baseVersion := "1"
  version := "2"

/-! ## Library lemmas about the embedding -/

@[simp] theorem recGet_nil {α : Type} (k : String) : recGet ([] : List (String × α)) k = none := rfl

@[simp] theorem recGet_cons {α : Type} (k' k : String) (v : α) (rest : List (String × α)) :
    recGet ((k', v) :: rest) k = if k' = k then some v else recGet rest k := rfl

@[simp] theorem recSet_nil {α : Type} (k : String) (v : α) :
    recSet ([] : List (String × α)) k v = [(k, v)] := rfl

@[simp] theorem recSet_cons {α : Type} (k' k : String) (v' v : α) (rest : List (String × α)) :
    recSet ((k', v') :: rest) k v
      = if k' = k then (k', v) :: rest else (k', v') :: recSet rest k v := rfl

@[simp] theorem recDelete_nil {α : Type} (k : String) :
    recDelete ([] : List (String × α)) k = [] := rfl

@[simp] theorem recDelete_cons {α : Type} (k' k : String) (v' : α) (rest : List (String × α)) :
    recDelete ((k', v') :: rest) k
      = if k' = k then rest else (k', v') :: recDelete rest k := rfl

theorem recSet_fresh {α : Type} (l : List (String × α)) (k : String) (v : α)
    (h : recGet l k = none) : recSet l k v = l ++ [(k, v)] := by
  induction l with
  | nil => rfl
  | cons p rest ih =>
    obtain ⟨k', v'⟩ := p
    by_cases hk : k' = k
    · simp [recGet, hk] at h
    · simp [recSet, hk] at *
      exact ih h

theorem recGet_append_left {α : Type} (l₁ l₂ : List (String × α)) (k : String)
    (h : recGet l₁ k ≠ none) : recGet (l₁ ++ l₂) k = recGet l₁ k := by
  induction l₁ with
  | nil => simp [recGet] at h
  | cons p rest ih =>
    obtain ⟨k', v'⟩ := p
    by_cases hk : k' = k <;> simp [recGet, hk] at *
    exact ih h

theorem recGet_append_right {α : Type} (l₁ l₂ : List (String × α)) (k : String)
    (h : recGet l₁ k = none) : recGet (l₁ ++ l₂) k = recGet l₂ k := by
  induction l₁ with
  | nil => rfl
  | cons p rest ih =>
    obtain ⟨k', v'⟩ := p
    by_cases hk : k' = k <;> simp [recGet, hk] at *
    exact ih h

theorem recGet_recSet_self {α : Type} (l : List (String × α)) (k : String) (v : α) :
    recGet (recSet l k v) k = some v := by
  induction l with
  | nil => simp [recGet, recSet]
  | cons p rest ih =>
    obtain ⟨k', v'⟩ := p
    by_cases hk : k' = k <;> simp [recGet, recSet, hk, ih]

theorem recGet_recSet_other {α : Type} (l : List (String × α)) (k k₀ : String) (v : α)
    (h : k ≠ k₀) : recGet (recSet l k v) k₀ = recGet l k₀ := by
  induction l with
  | nil => simp [recGet, recSet, h]
  | cons p rest ih =>
    obtain ⟨k', v'⟩ := p
    by_cases hk : k' = k
    · subst hk
      simp [recSet, recGet, h]
    · simp [recSet, recGet, hk, ih]

theorem recGet_eq_none_of_not_mem_keys {α : Type} (l : List (String × α)) (k : String)
    (h : k ∉ recKeys l) : recGet l k = none := by
  induction l with
  | nil => rfl
  | cons p rest ih =>
    obtain ⟨k', v'⟩ := p
    have h1 : k' ≠ k := fun hk => h (by simp [recKeys, hk])
    have h2 : k ∉ recKeys rest := fun hk => h (by simp [recKeys]; right; simpa [recKeys] using hk)
    simp [recGet, h1, ih h2]

theorem recGet_recDelete_self {α : Type} (l : List (String × α)) (k : String)
    (hnd : nodupKeys l) : recGet (recDelete l k) k = none := by
  induction l with
  | nil => rfl
  | cons p rest ih =>
    obtain ⟨k', v'⟩ := p
    have hnd' : nodupKeys rest := (List.nodup_cons.mp hnd).2
    by_cases hk : k' = k
    · subst hk
      simp only [recDelete, if_pos rfl]
      exact recGet_eq_none_of_not_mem_keys rest k' (List.nodup_cons.mp hnd).1
    · simp [recDelete, recGet, hk, ih hnd']

theorem recGet_recDelete_other {α : Type} (l : List (String × α)) (k k₀ : String)
    (h : k ≠ k₀) : recGet (recDelete l k) k₀ = recGet l k₀ := by
  induction l with
  | nil => rfl
  | cons p rest ih =>
    obtain ⟨k', v'⟩ := p
    by_cases hk : k' = k
    · subst hk
      simp [recDelete, recGet, h]
    · simp [recDelete, recGet, hk, ih]

theorem recGet_isSome_of_mem_keys {α : Type} (l : List (String × α)) (k : String)
    (h : k ∈ recKeys l) : (recGet l k).isSome := by
  induction l with
  | nil => simp [recKeys] at h
  | cons p rest ih =>
    obtain ⟨k', v'⟩ := p
    by_cases hk : k' = k
    · simp [recGet, hk]
    · have h2 : k ∈ recKeys rest := by
        rcases List.mem_cons.mp h with h1 | h1
        · exact absurd h1.symm hk
        · exact h1
      simp [recGet, hk, ih h2]

theorem recKeys_recSet {α : Type} (l : List (String × α)) (k : String) (v : α) :
    recKeys (recSet l k v) = if recHas l k then recKeys l else recKeys l ++ [k] := by
  induction l with
  | nil => simp [recKeys, recSet, recHas, recGet]
  | cons p rest ih =>
    obtain ⟨k', v'⟩ := p
    by_cases hk : k' = k
    · simp [recSet, recKeys, recHas, recGet, hk]
    · have hstep : recSet ((k', v') :: rest) k v = (k', v') :: recSet rest k v := by
        simp [recSet, hk]
      rw [hstep]
      have hkeys : recKeys ((k', v') :: recSet rest k v) = k' :: recKeys (recSet rest k v) := rfl
      rw [hkeys, ih]
      by_cases hmem : recHas rest k
      · simp only [recHas, recGet, if_neg hk] at hmem ⊢
        simp only [hmem, if_pos]
        rfl
      · simp only [recHas, recGet, if_neg hk] at hmem ⊢
        simp only [hmem]
        rfl

theorem nodupKeys_recSet {α : Type} (l : List (String × α)) (k : String) (v : α)
    (hnd : nodupKeys l) : nodupKeys (recSet l k v) := by
  unfold nodupKeys
  rw [recKeys_recSet]
  by_cases hmem : recHas l k
  · simpa [hmem] using hnd
  · simp only [hmem, Bool.false_eq_true, if_false]
    rw [List.nodup_append]
    refine ⟨hnd, List.nodup_singleton k, ?_⟩
    intro a ha
    simp only [List.mem_singleton]
    intro hab
    subst hab
    have := recGet_isSome_of_mem_keys l a ha
    simp [recHas, this] at hmem

theorem recGet_eq_some_of_mem_nodup {α : Type} (l : List (String × α)) (k : String) (v : α)
    (hnd : nodupKeys l) (hmem : (k, v) ∈ l) : recGet l k = some v := by
  induction l with
  | nil => simp at hmem
  | cons p rest ih =>
    obtain ⟨k', v'⟩ := p
    rcases List.mem_cons.mp hmem with h1 | h2
    · cases h1
      simp [recGet]
    · have hk : k' ≠ k := by
        intro hkk
        subst hkk
        have : k' ∈ recKeys rest := by
          simp [recKeys]
          exact ⟨v, h2⟩
        exact (List.nodup_cons.mp hnd).1 this
      simp [recGet, hk]
      exact ih (List.nodup_cons.mp hnd).2 h2

theorem mem_of_recGet_eq_some {α : Type} (l : List (String × α)) (k : String) (v : α)
    (h : recGet l k = some v) : (k, v) ∈ l := by
  induction l with
  | nil => simp [recGet] at h
  | cons p rest ih =>
    obtain ⟨k', v'⟩ := p
    by_cases hk : k' = k
    · subst hk
      simp [recGet] at h
      simp [h]
    · simp [recGet, hk] at h
      exact List.mem_cons_of_mem _ (ih h)

theorem wsGo_of_headNonWs (b : List Char) (f : Bool)
    (hb : b = [] ∨ ∃ c cs, b = c :: cs ∧ isWs c = false) : wsGo f b = wsGo false b := by
  rcases hb with h | ⟨c, cs, rfl, hc⟩
  · subst h; rfl
  · simp [wsGo, hc]

theorem wsGo_append (a : List Char) (f : Bool) (b : List Char)
    (hb : b = [] ∨ ∃ c cs, b = c :: cs ∧ isWs c = false) :
    wsGo f (a ++ b) = wsGo f a + wsGo false b := by
  induction a generalizing f with
  | nil =>
    have := wsGo_of_headNonWs b f hb
    simpa [wsGo] using this
  | cons c cs ih =>
    by_cases hc : isWs c = true
    · simp [wsGo, hc, ih]
      omega
    · simp at hc
      simp [wsGo, hc, ih]

theorem wsRuns_append (a b : String) (hb : headNonWs b = true) :
    wsRuns (a ++ b) = wsRuns a + wsRuns b := by
  unfold wsRuns
  rw [String.data_append]
  apply wsGo_append
  right
  unfold headNonWs at hb
  cases hdata : b.data with
  | nil => rw [hdata] at hb; simp at hb
  | cons c cs =>
    rw [hdata] at hb
    simp at hb
    exact ⟨c, cs, rfl, hb⟩

theorem headNonWs_append (a b : String) (ha : headNonWs a = true) :
    headNonWs (a ++ b) = true := by
  unfold headNonWs at ha ⊢
  rw [String.data_append]
  cases hdata : a.data with
  | nil => rw [hdata] at ha; simp at ha
  | cons c cs =>
    rw [hdata] at ha
    rw [List.cons_append]
    simpa using ha

theorem headNonWs_ne_empty (s : String) (h : headNonWs s = true) : s.length ≥ 1 := by
  unfold headNonWs at h
  cases hdata : s.data with
  | nil => rw [hdata] at h; simp at h
  | cons c cs =>
    have : s.length = s.data.length := rfl
    rw [this, hdata]
    simp

theorem joinComma_nil : joinComma [] = "" := rfl

theorem joinComma_single (s : String) : joinComma [s] = s := rfl

theorem joinComma_cons (s s' : String) (rest : List String) :
    joinComma (s :: s' :: rest) = s ++ ("," ++ joinComma (s' :: rest)) := rfl

theorem joinComma_length (l : List String) (h : l ≠ []) :
    (joinComma l).length + 1 = (l.map (fun s => s.length + 1)).sum := by
  induction l with
  | nil => simp at h
  | cons s rest ih =>
    cases rest with
    | nil => simp [joinComma]
    | cons s' rest' =>
      rw [joinComma_cons]
      have := ih (by simp)
      simp only [List.map_cons, List.sum_cons] at this ⊢
      rw [String.length_append, String.length_append]
      have hcomma : ("," : String).length = 1 := rfl
      omega

theorem headNonWs_joinComma (s : String) (rest : List String) (hs : headNonWs s = true) :
    headNonWs (joinComma (s :: rest)) = true := by
  cases rest with
  | nil => simpa [joinComma]
  | cons s' rest' =>
    rw [joinComma_cons]
    exact headNonWs_append _ _ hs

theorem wsRuns_comma_prefix (x : String) : wsRuns ("," ++ x) = wsRuns x := by
  unfold wsRuns
  rw [String.data_append]
  show wsGo false (',' :: x.data) = wsGo false x.data
  simp [wsGo, isWs]

theorem joinComma_ws (l : List String) (h : ∀ s ∈ l, headNonWs s = true) :
    wsRuns (joinComma l) = (l.map wsRuns).sum := by
  induction l with
  | nil => simp [joinComma, wsRuns, wsGo]
  | cons s rest ih =>
    cases rest with
    | nil => simp [joinComma]
    | cons s' rest' =>
      rw [joinComma_cons]
      have hs' : headNonWs (joinComma (s' :: rest')) = true :=
        headNonWs_joinComma s' rest' (h s' (by simp))
      have hb : headNonWs ("," ++ joinComma (s' :: rest')) = true := by
        unfold headNonWs
        rw [String.data_append]
        rfl
      rw [wsRuns_append _ _ hb, wsRuns_comma_prefix,
        ih (fun t ht => h t (List.mem_cons_of_mem _ ht))]
      simp

theorem StrShrink.refl (l : List String) : StrShrink l l := by
  induction l with
  | nil => exact .nil
  | cons s rest ih => exact .cons le_rfl le_rfl ih

theorem StrShrink.lenF_le {l' l : List String} (h : StrShrink l' l) :
    (l'.map (fun s => s.length + 1)).sum ≤ (l.map (fun s => s.length + 1)).sum := by
  induction h with
  | nil => simp
  | cons hlen hws _ ih => simp only [List.map_cons, List.sum_cons]; omega
  | skip _ ih => simp only [List.map_cons, List.sum_cons]; omega

theorem StrShrink.ws_le {l' l : List String} (h : StrShrink l' l) :
    (l'.map wsRuns).sum ≤ (l.map wsRuns).sum := by
  induction h with
  | nil => simp
  | cons hlen hws _ ih => simp only [List.map_cons, List.sum_cons]; omega
  | skip _ ih => simp only [List.map_cons, List.sum_cons]; omega

theorem StrShrink.ne_nil {l' l : List String} (h : StrShrink l' l) (h' : l' ≠ []) : l ≠ [] := by
  cases h with
  | nil => exact h'
  | cons _ _ _ => simp
  | skip _ => simp

theorem headNonWs_qstr (s : String) : headNonWs (qstr s) = true := by
  apply headNonWs_append
  rfl

theorem headNonWs_boolStr (b : Bool) : headNonWs (boolStr b) = true := by
  cases b <;> rfl

theorem toDigitsCore_headed (fuel : Nat) :
    ∀ n ds, 1 ≤ fuel → ∃ m tail, m < 10 ∧
      Nat.toDigitsCore 10 fuel n ds = Nat.digitChar m :: tail := by
  induction fuel with
  | zero => intro n ds h; omega
  | succ f ih =>
    intro n ds _
    show ∃ m tail, m < 10 ∧
      (if n / 10 = 0 then Nat.digitChar (n % 10) :: ds
        else Nat.toDigitsCore 10 f (n / 10) (Nat.digitChar (n % 10) :: ds)) = _
    by_cases hz : n / 10 = 0
    · exact ⟨n % 10, ds, Nat.mod_lt _ (by norm_num), by simp [hz]⟩
    · cases f with
      | zero =>
        refine ⟨n % 10, ds, Nat.mod_lt _ (by norm_num), ?_⟩
        simp [hz]
        rfl
      | succ f' =>
        obtain ⟨m, tail, hm, heq⟩ := ih (n / 10) (Nat.digitChar (n % 10) :: ds) (by omega)
        exact ⟨m, tail, hm, by simp [hz, heq]⟩

theorem digitChar_nonWs (m : Nat) (h : m < 10) : isWs (Nat.digitChar m) = false := by
  interval_cases m <;> rfl

theorem headNonWs_natRepr (n : Nat) : headNonWs (Nat.repr n) = true := by
  obtain ⟨m, tail, hm, heq⟩ := toDigitsCore_headed (n + 1) n [] (by omega)
  show headNonWs ⟨Nat.toDigits 10 n⟩ = true
  unfold Nat.toDigits
  rw [heq]
  unfold headNonWs
  simp [digitChar_nonWs m hm]

theorem headNonWs_numStr (n : Int) : headNonWs (numStr n) = true := by
  cases n with
  | ofNat m => exact headNonWs_natRepr m
  | negSucc m =>
    show headNonWs ("-" ++ Nat.repr (m + 1)) = true
    apply headNonWs_append
    rfl

/-! ## Cache lemmas -/

theorem recKeys_recDelete {α : Type} (l : List (String × α)) (k : String) :
    recKeys (recDelete l k) = (recKeys l).erase k := by
  induction l with
  | nil => rfl
  | cons p rest ih =>
    obtain ⟨k', v'⟩ := p
    by_cases hk : k' = k
    · subst hk
      simp [recDelete, recKeys, List.erase_cons]
    · have hbeq : (k' == k) = false := by simp [hk]
      simp only [recDelete, if_neg hk, recKeys, List.map_cons, List.erase_cons, hbeq,
        Bool.false_eq_true, if_false]
      exact congrArg (List.cons k') (by simpa [recKeys] using ih)

theorem recDelete_length_le {α : Type} (l : List (String × α)) (k : String) :
    (recDelete l k).length ≤ l.length := by
  induction l with
  | nil => simp [recDelete]
  | cons p rest ih =>
    obtain ⟨k', v'⟩ := p
    by_cases hk : k' = k
    · simp [recDelete, hk]
    · simp [recDelete, hk]
      omega

theorem recSet_length {α : Type} (l : List (String × α)) (k : String) (v : α) :
    (recSet l k v).length = if recHas l k then l.length else l.length + 1 := by
  induction l with
  | nil => simp [recSet, recHas, recGet]
  | cons p rest ih =>
    obtain ⟨k', v'⟩ := p
    by_cases hk : k' = k
    · simp [recSet, recHas, recGet, hk]
    · simp only [recSet, if_neg hk, List.length_cons, recHas, recGet, ih]
      by_cases hmem : recHas rest k
      · simp only [recHas, recGet, if_neg hk] at hmem ⊢
        simp [hmem]
      · simp only [recHas, recGet, if_neg hk] at hmem ⊢
        simp [hmem]

theorem mem_recSet {α : Type} (l : List (String × α)) (k : String) (v : α)
    (q : String × α) (h : q ∈ recSet l k v) : q ∈ l ∨ q = (k, v) := by
  induction l with
  | nil => simp [recSet] at h; simp [h]
  | cons p rest ih =>
    obtain ⟨k', v'⟩ := p
    by_cases hk : k' = k
    · subst hk
      simp [recSet] at h
      rcases h with h | h
      · right; simp [h]
      · left; simp [h]
    · simp [recSet, hk] at h
      rcases h with h | h
      · left; simp [h]
      · rcases ih h with h2 | h2
        · left; simp [h2]
        · right; exact h2

theorem mem_recSet_other {α : Type} (l : List (String × α)) (k : String) (v : α)
    (q : String × α) (hq : q ∈ l) (hne : q.1 ≠ k) : q ∈ recSet l k v := by
  induction l with
  | nil => simp at hq
  | cons p rest ih =>
    obtain ⟨k', v'⟩ := p
    by_cases hk : k' = k
    · subst hk
      simp [recSet]
      rcases List.mem_cons.mp hq with h | h
      · exfalso; apply hne; rw [h]
      · right; exact h
    · simp [recSet, hk]
      rcases List.mem_cons.mp hq with h | h
      · left; simp [h]
      · right; exact ih h

/-! ## Claim C4 -/

/-- C4 (confirmed): `processStateUpdate` raises exactly when there is no
current state or the update's base version differs from the current
version; on a raise the server state (current state and history) is
untouched, and on success the current state becomes the patched snapshot
carrying the update's version. -/
theorem c4_version_mismatch_rejection (σ : ServerState) (u : DifferentialUpdate) :
    ((BaseServer.processStateUpdate σ u).2.isSome ↔
      σ.currentState = none ∨
        ∃ cur, σ.currentState = some cur ∧ u.baseVersion ≠ cur.version)
    ∧ ((BaseServer.processStateUpdate σ u).2.isSome →
        (BaseServer.processStateUpdate σ u).1 = σ)
    ∧ (∀ cur, σ.currentState = some cur → u.baseVersion = cur.version →
        (BaseServer.processStateUpdate σ u).2 = none ∧
        (BaseServer.processStateUpdate σ u).1.currentState =
          some (BaseServer.applyUpdate cur u) ∧
        (BaseServer.applyUpdate cur u).version = u.version) := by
  refine ⟨?_, ?_, ?_⟩
  · cases hcur : σ.currentState with
    | none => simp [BaseServer.processStateUpdate, hcur]
    | some cur =>
      by_cases hv : u.baseVersion = cur.version
      · simp [BaseServer.processStateUpdate, hcur, hv]
      · simp [BaseServer.processStateUpdate, hcur, bne_iff_ne, hv]
  · intro hsome
    cases hcur : σ.currentState with
    | none => simp [BaseServer.processStateUpdate, hcur]
    | some cur =>
      by_cases hv : u.baseVersion = cur.version
      · exfalso
        simp [BaseServer.processStateUpdate, hcur, hv] at hsome
      · simp [BaseServer.processStateUpdate, hcur, bne_iff_ne, hv]
  · intro cur hcur hv
    refine ⟨?_, ?_, rfl⟩
    · simp [BaseServer.processStateUpdate, hcur, hv]
    · simp only [BaseServer.processStateUpdate, hcur, hv, bne_self_eq_false, Bool.false_eq_true,
        if_false]
      by_cases hh : BaseServer.maxHistoryTruthy σ
      · simp [hh, BaseServer.addStateToHistory]
        split <;> rfl
      · simp [hh]

/-- Witness for C4 on a concrete server state and update. -/
theorem c4_version_mismatch_rejection_witness :
    (BaseServer.processStateUpdate
      { config := none, currentState := some exScenarioA, stateHistory := [] }
      (computeDiff exScenarioA exScenarioB)).2 = none ∧
    (BaseServer.processStateUpdate
      { config := none, currentState := some exScenarioA, stateHistory := [] }
      (computeDiff exScenarioA exScenarioB)).1.currentState =
      some (BaseServer.applyUpdate exScenarioA (computeDiff exScenarioA exScenarioB)) ∧
    (BaseServer.applyUpdate exScenarioA (computeDiff exScenarioA exScenarioB)).version =
      (computeDiff exScenarioA exScenarioB).version := by
  exact (c4_version_mismatch_rejection
    { config := none, currentState := some exScenarioA, stateHistory := [] }
    (computeDiff exScenarioA exScenarioB)).2.2 exScenarioA rfl rfl

/-! ## Claim C9 -/

/-- C9 (confirmed): applying a patch allocates a fresh snapshot and never
mutates the base — every previously existing heap cell is unchanged and the
result lives in the fresh cell; the result takes `version`/`timestamp` from
the patch and carries `platform`, `application`, `title`, `url`, `viewport`
over from the base; `UIStateCache.applyUpdate` returns exactly such a
patched snapshot of the resident base. -/
theorem c9_apply_purity_frame (heap : List UIState) (i : Nat) (u : DifferentialUpdate)
    (base : UIState) (hbase : heap[i]? = some base) :
    (∀ j, j < heap.length →
      (BaseServer.applyUpdateAlloc heap i u).1[j]? = heap[j]?)
    ∧ (BaseServer.applyUpdateAlloc heap i u).1[(BaseServer.applyUpdateAlloc heap i u).2]? =
        some (BaseServer.applyUpdate base u)
    ∧ (BaseServer.applyUpdate base u).version = u.version
    ∧ (BaseServer.applyUpdate base u).timestamp = u.timestamp
    ∧ (BaseServer.applyUpdate base u).platform = base.platform
    ∧ (BaseServer.applyUpdate base u).application = base.application
    ∧ (BaseServer.applyUpdate base u).title = base.title
    ∧ (BaseServer.applyUpdate base u).url = base.url
    ∧ (BaseServer.applyUpdate base u).viewport = base.viewport
    ∧ (∀ (c : UIStateCache) (bv : String) (ns : UIState) (c' : UIStateCache),
        c.applyUpdate bv u = (some ns, c') →
        ∃ b₀, (c.getStateByVersion bv).1 = some b₀ ∧
          ns = BaseServer.applyUpdate b₀ u ∧ ns.version = u.version ∧
          ns.platform = b₀.platform) := by
  refine ⟨?_, ?_, rfl, rfl, rfl, rfl, rfl, rfl, rfl, ?_⟩
  · intro j hj
    simp only [BaseServer.applyUpdateAlloc, hbase]
    rw [List.getElem?_append]
    simp [hj]
  · simp only [BaseServer.applyUpdateAlloc, hbase]
    exact List.getElem?_concat_length heap (BaseServer.applyUpdate base u)
  · intro c bv ns c' h
    unfold UIStateCache.applyUpdate at h
    cases hg : c.getStateByVersion bv with
    | mk o c₁ =>
      cases o with
      | none => rw [hg] at h; simp at h
      | some b₀ =>
        rw [hg] at h
        simp only at h
        injection h with h1 h2
        injection h1 with h1
        refine ⟨b₀, ?_, h1.symm, ?_, ?_⟩
        · rfl
        · rw [← h1]; rfl
        · rw [← h1]; rfl

/-- Witness for C9 on a one-cell heap. -/
theorem c9_apply_purity_frame_witness :
    (∀ j, j < [exScenarioA].length →
      (BaseServer.applyUpdateAlloc [exScenarioA] 0 (computeDiff exScenarioA exScenarioB)).1[j]? =
        [exScenarioA][j]?) ∧
    (BaseServer.applyUpdate exScenarioA (computeDiff exScenarioA exScenarioB)).version =
      (computeDiff exScenarioA exScenarioB).version := by
  have h := c9_apply_purity_frame [exScenarioA] 0 (computeDiff exScenarioA exScenarioB)
    exScenarioA rfl
  exact ⟨h.1, h.2.2.1⟩

/-! ## Claim C7 -/

/-- C7 (refuted): a capacity-0 cache does retain entries.  A single `set`
leaves `size() = 1` with the value retrievable; with the (falsy)
empty-string key resident, eviction is skipped entirely and the cache even
grows to 2 entries. -/
theorem c7_capacity_zero_counterexample :
    ((LRUCache.empty Nat 0).set "a" 1).size = 1
    ∧ (((LRUCache.empty Nat 0).set "a" 1).get "a").1 = some 1
    ∧ (((LRUCache.empty Nat 0).set "" 1).set "x" 2).size = 2 := by
  exact ⟨rfl, rfl, rfl⟩

/-- Invariant step for a capacity-0 cache: each `get`/`set`/`delete` with a
truthy set-key preserves "at most one resident entry, usage keys mirror
cache keys, no empty-string key". -/
theorem lru_cap0_step {V : Type} (c : LRUCache V) (op : CacheOp V)
    (hcap : c.capacity = 0)
    (hlen : c.cache.length <= 1)
    (hkeys : recKeys c.usage = recKeys c.cache)
    (hne : ∀ k ∈ recKeys c.cache, k ≠ "")
    (hop : opSetKeyOk op) :
    (runOp c op).capacity = 0 ∧ (runOp c op).cache.length <= 1 ∧
      recKeys (runOp c op).usage = recKeys (runOp c op).cache ∧
      ∀ k ∈ recKeys (runOp c op).cache, k ≠ "" := by
  obtain ⟨cap, cache, usage, ctr⟩ := c
  simp only at hcap hlen hkeys hne
  subst hcap
  cases op with
  | get k =>
    by_cases hhas : recHas cache k
    · have hres : runOp ⟨0, cache, usage, ctr⟩ (CacheOp.get k) =
          ⟨0, cache, recSet usage k (ctr + 1), ctr + 1⟩ := by
        show (LRUCache.get _ k).2 = _
        unfold LRUCache.get
        simp [hhas]
      have hk : k ∈ recKeys usage := by
        rw [hkeys]
        rcases Option.isSome_iff_exists.mp hhas with ⟨v, hv⟩
        have := mem_of_recGet_eq_some _ _ _ hv
        simp [recKeys]
        exact ⟨v, this⟩
      have husage : recHas usage k = true := recGet_isSome_of_mem_keys _ _ hk
      rw [hres]
      refine ⟨rfl, hlen, ?_, hne⟩
      show recKeys (recSet usage k _) = recKeys cache
      rw [recKeys_recSet, husage, if_pos rfl]
      exact hkeys
    · have hres : runOp ⟨0, cache, usage, ctr⟩ (CacheOp.get k) = ⟨0, cache, usage, ctr⟩ := by
        show (LRUCache.get _ k).2 = _
        unfold LRUCache.get
        simp [hhas]
      rw [hres]
      exact ⟨rfl, hlen, hkeys, hne⟩
  | del k =>
    by_cases hhas : recHas cache k
    · have hres : runOp ⟨0, cache, usage, ctr⟩ (CacheOp.del k) =
          ⟨0, recDelete cache k, recDelete usage k, ctr⟩ := by
        show (LRUCache.delete _ k).2 = _
        unfold LRUCache.delete
        simp [hhas]
      rw [hres]
      refine ⟨rfl, le_trans (recDelete_length_le _ _) hlen, ?_, ?_⟩
      · show recKeys (recDelete usage k) = recKeys (recDelete cache k)
        rw [recKeys_recDelete, recKeys_recDelete, hkeys]
      · intro k' hk'
        have hk2 : k' ∈ (recKeys cache).erase k := by
          rw [← recKeys_recDelete]
          exact hk'
        exact hne k' (List.mem_of_mem_erase hk2)
    · have hres : runOp ⟨0, cache, usage, ctr⟩ (CacheOp.del k) = ⟨0, cache, usage, ctr⟩ := by
        show (LRUCache.delete _ k).2 = _
        unfold LRUCache.delete
        simp [hhas]
      rw [hres]
      exact ⟨rfl, hlen, hkeys, hne⟩
  | set k v =>
    have hkne : k ≠ "" := hop
    cases cache with
    | nil =>
      have husage : usage = [] := by
        have h0 : recKeys usage = [] := by rw [hkeys]; rfl
        exact List.map_eq_nil_iff.mp h0
      subst husage
      have hres : runOp ⟨0, [], [], ctr⟩ (CacheOp.set k v) = ⟨0, [(k, v)], [(k, ctr + 1)], ctr + 1⟩ := by
        show LRUCache.set _ k v = _
        rfl
      rw [hres]
      refine ⟨rfl, by simp, rfl, ?_⟩
      intro k' hk'
      simp [recKeys] at hk'
      rw [hk']
      exact hkne
    | cons p rest =>
      obtain ⟨k₀, v₀⟩ := p
      have hrest : rest = [] := by
        simp at hlen
        exact hlen
      subst hrest
      have hk₀ : k₀ ≠ "" := by
        apply hne
        simp [recKeys]
      obtain ⟨n₀, husage⟩ : ∃ n₀, usage = [(k₀, n₀)] := by
        have hkk : recKeys usage = [k₀] := by rw [hkeys]; rfl
        cases hu : usage with
        | nil => rw [hu] at hkk; simp [recKeys] at hkk
        | cons q t =>
          rw [hu] at hkk
          obtain ⟨q₁, q₂⟩ := q
          simp [recKeys] at hkk
          obtain ⟨h1, h2⟩ := hkk
          exact ⟨q₂, by rw [h1, h2]⟩
      subst husage
      by_cases hkk : k₀ = k
      · subst hkk
        have hres : runOp ⟨0, [(k₀, v₀)], [(k₀, n₀)], ctr⟩ (CacheOp.set k₀ v) =
            ⟨0, [(k₀, v)], [(k₀, ctr + 1)], ctr + 1⟩ := by
          show LRUCache.set _ k₀ v = _
          unfold LRUCache.set
          simp [recHas, recGet, recSet]
        rw [hres]
        refine ⟨rfl, by simp, rfl, ?_⟩
        intro k' hk'
        simp [recKeys] at hk'
        rw [hk']
        exact hk₀
      · have hres : runOp ⟨0, [(k₀, v₀)], [(k₀, n₀)], ctr⟩ (CacheOp.set k v) =
            ⟨0, [(k, v)], [(k, ctr + 1)], ctr + 1⟩ := by
          show LRUCache.set _ k v = _
          unfold LRUCache.set LRUCache.findLRUKey
          have hg : recHas [(k₀, v₀)] k = false := by simp [recHas, recGet, hkk]
          simp [hg, hk₀, recDelete, recSet]
        rw [hres]
        refine ⟨rfl, by simp, rfl, ?_⟩
        intro k' hk'
        simp [recKeys] at hk'
        rw [hk']
        exact hkne

/-- Runs of operations preserve the capacity-0 invariant. -/
theorem lru_cap0_runOps {V : Type} (ops : List (CacheOp V)) (c : LRUCache V)
    (hops : ∀ op ∈ ops, opSetKeyOk op)
    (hcap : c.capacity = 0) (hlen : c.cache.length ≤ 1)
    (hkeys : recKeys c.usage = recKeys c.cache)
    (hne : ∀ k ∈ recKeys c.cache, k ≠ "") :
    (runOps c ops).cache.length ≤ 1 := by
  induction ops generalizing c with
  | nil => exact hlen
  | cons op rest ih =>
    have hstep := lru_cap0_step c op hcap hlen hkeys hne (hops op (by simp))
    show (runOps (runOp c op) rest).cache.length ≤ 1
    exact ih _ (fun o ho => hops o (by simp [ho])) hstep.1 hstep.2.1 hstep.2.2.1 hstep.2.2.2

/-- C7 (amended): a capacity-0 LRU cache retains at most one entry (it
behaves as a capacity-1 cache) for every sequence of `get`/`set`/`delete`
operations whose `set` keys are truthy (non-empty) strings. -/
theorem c7_capacity_zero_amended {V : Type} (ops : List (CacheOp V))
    (h : ∀ op ∈ ops, opSetKeyOk op) :
    (runOps (LRUCache.empty V 0) ops).size ≤ 1 := by
  show (runOps (LRUCache.empty V 0) ops).cache.length ≤ 1
  refine lru_cap0_runOps ops _ h rfl ?_ rfl ?_
  · simp [LRUCache.empty]
  · intro k hk
    simp [LRUCache.empty, recKeys] at hk

/-- Witness for amended C7 on a concrete operation sequence. -/
theorem c7_capacity_zero_amended_witness :
    (∀ op ∈ [CacheOp.set "a" (1 : Nat), CacheOp.get "a", CacheOp.set "b" 2], opSetKeyOk op)
    ∧ (runOps (LRUCache.empty Nat 0)
        [CacheOp.set "a" 1, CacheOp.get "a", CacheOp.set "b" 2]).size ≤ 1 := by
  have h : ∀ op ∈ [CacheOp.set "a" (1 : Nat), CacheOp.get "a", CacheOp.set "b" 2],
      opSetKeyOk op := by
    intro op hop
    simp only [List.mem_cons, List.not_mem_nil, or_false] at hop
    rcases hop with h | h | h
    all_goals rw [h]
    · simp [opSetKeyOk]
    · simp [opSetKeyOk]
    · simp [opSetKeyOk]
  exact ⟨h, c7_capacity_zero_amended _ h⟩

/-! ## LRU characterization lemmas -/

theorem lru_get_fst {V : Type} (c : LRUCache V) (k : String) :
    (c.get k).1 = recGet c.cache k := by
  unfold LRUCache.get
  by_cases hhas : recHas c.cache k
  · simp [hhas]
  · simp only [recHas] at hhas
    simp [hhas, recHas, Option.not_isSome_iff_eq_none.mp (by simpa [recHas] using hhas)]

theorem lru_get_hit_snd {V : Type} (c : LRUCache V) (k : String)
    (hhas : recHas c.cache k = true) :
    (c.get k).2 = { c with usage := recSet c.usage k (c.accessCounter + 1),
                           accessCounter := c.accessCounter + 1 } := by
  unfold LRUCache.get
  simp [hhas]

theorem lru_set_no_evict {V : Type} (c : LRUCache V) (k : String) (v : V)
    (hlt : c.cache.length < c.capacity) :
    c.set k v = { capacity := c.capacity, cache := recSet c.cache k v,
                  usage := recSet c.usage k (c.accessCounter + 1),
                  accessCounter := c.accessCounter + 1 } := by
  unfold LRUCache.set
  have hcond : (decide (c.cache.length ≥ c.capacity) && !recHas c.cache k) = false := by
    simp [Nat.not_le.mpr hlt]
  rw [hcond]
  rfl

theorem lru_set_evict {V : Type} (c : LRUCache V) (k : String) (v : V) (lk : String)
    (hfull : c.cache.length ≥ c.capacity)
    (hfresh : recHas c.cache k = false)
    (hlru : c.findLRUKey = some lk)
    (hlkne : lk ≠ "") :
    c.set k v = { capacity := c.capacity,
                  cache := recSet (recDelete c.cache lk) k v,
                  usage := recSet (recDelete c.usage lk) k (c.accessCounter + 1),
                  accessCounter := c.accessCounter + 1 } := by
  unfold LRUCache.set
  have hcond : (decide (c.cache.length ≥ c.capacity) && !recHas c.cache k) = true := by
    simp [hfull, hfresh]
  rw [hcond, hlru]
  simp only [if_pos rfl]
  rw [if_pos hlkne]
  rfl

theorem lruSetAll_append {V : Type} (c : LRUCache V) (l₁ l₂ : List (String × V)) :
    lruSetAll c (l₁ ++ l₂) = lruSetAll (lruSetAll c l₁) l₂ := by
  unfold lruSetAll
  exact List.foldl_append ..

theorem usageFrom_snd_ge {V : Type} (ps : List (String × V)) (a : Nat) (q : String × Nat)
    (h : q ∈ usageFrom a ps) : a + 1 ≤ q.2 := by
  induction ps generalizing a with
  | nil => simp [usageFrom] at h
  | cons p rest ih =>
    rcases List.mem_cons.mp h with h1 | h1
    · rw [h1]
    · have := ih (a + 1) h1
      omega

theorem lruSetAll_fresh {V : Type} (ps : List (String × V)) (c : LRUCache V)
    (hnd : (ps.map Prod.fst).Nodup)
    (hfresh : ∀ p ∈ ps, recGet c.cache p.1 = none)
    (hkeys : recKeys c.usage = recKeys c.cache)
    (hcap : c.cache.length + ps.length ≤ c.capacity) :
    lruSetAll c ps =
      { capacity := c.capacity, cache := c.cache ++ ps,
        usage := c.usage ++ usageFrom c.accessCounter ps,
        accessCounter := c.accessCounter + ps.length } := by
  induction ps generalizing c with
  | nil => simp [lruSetAll, usageFrom]
  | cons p rest ih =>
    obtain ⟨k, v⟩ := p
    have hlt : c.cache.length < c.capacity := by
      simp at hcap
      omega
    have hfr : recGet c.cache k = none := hfresh (k, v) (by simp)
    have hfru : recGet c.usage k = none := by
      apply recGet_eq_none_of_not_mem_keys
      rw [hkeys]
      intro hmem
      have := recGet_isSome_of_mem_keys _ _ hmem
      simp [hfr] at this
    have hstep := lru_set_no_evict c k v hlt
    have hrec : lruSetAll c ((k, v) :: rest) = lruSetAll (c.set k v) rest := rfl
    rw [hrec, hstep]
    rw [ih]
    · simp only [recSet_fresh c.cache k v hfr, recSet_fresh c.usage k _ hfru]
      rw [List.append_assoc, List.append_assoc]
      show _ = ⟨c.capacity, c.cache ++ ((k, v) :: rest), c.usage ++ usageFrom c.accessCounter ((k, v) :: rest), _⟩
      have hu : usageFrom c.accessCounter ((k, v) :: rest)
          = (k, c.accessCounter + 1) :: usageFrom (c.accessCounter + 1) rest := rfl
      rw [hu]
      simp [List.singleton_append]
      omega
    · exact (List.nodup_cons.mp hnd).2
    · intro q hq
      show recGet (recSet c.cache k v) q.1 = none
      have hqk : q.1 ≠ k := by
        intro hqk
        apply (List.nodup_cons.mp hnd).1
        exact List.mem_map.mpr ⟨q, hq, hqk⟩
      rw [recGet_recSet_other _ _ _ _ (Ne.symm hqk)]
      exact hfresh q (by simp [hq])
    · show recKeys (recSet c.usage k _) = recKeys (recSet c.cache k v)
      rw [recKeys_recSet, recKeys_recSet]
      simp only [recHas, hfr, hfru, Option.isSome_none, Bool.false_eq_true, if_false]
      rw [hkeys]
    · show (recSet c.cache k v).length + rest.length ≤ c.capacity
      rw [recSet_length]
      simp only [recHas, hfr, Option.isSome_none, Bool.false_eq_true, if_false]
      simp at hcap
      omega

theorem lruFold_stay (l : List (String × Nat)) (q : String × Nat)
    (h : ∀ p ∈ l, ¬(p.2 < q.2)) :
    l.foldl
      (fun acc p =>
        match acc with
        | none => some p
        | some q' => if p.2 < q'.2 then some p else acc)
      (some q) = some q := by
  induction l with
  | nil => rfl
  | cons p rest ih =>
    have hp := h p (by simp)
    simp only [List.foldl_cons, if_neg hp]
    exact ih (fun r hr => h r (by simp [hr]))

theorem lruFold_min (l : List (String × Nat)) (k : String) (m : Nat) :
    ∀ (acc : Option (String × Nat)), (acc = none ∨ ∃ q, acc = some q ∧ m < q.2) →
    (k, m) ∈ l → (∀ p ∈ l, p ≠ (k, m) → m < p.2) →
    l.foldl
      (fun acc p =>
        match acc with
        | none => some p
        | some q' => if p.2 < q'.2 then some p else acc)
      acc = some (k, m) := by
  induction l with
  | nil => intro acc _ hmem; simp at hmem
  | cons p rest ih =>
    intro acc hacc hmem hmin
    by_cases hp : p = (k, m)
    · subst hp
      have hstep : ((k, m) :: rest).foldl
          (fun acc p =>
            match acc with
            | none => some p
            | some q' => if p.2 < q'.2 then some p else acc)
          acc = rest.foldl
          (fun acc p =>
            match acc with
            | none => some p
            | some q' => if p.2 < q'.2 then some p else acc)
          (some (k, m)) := by
        rcases hacc with h | ⟨q, hq, hlt⟩
        · rw [h]; rfl
        · rw [hq]
          simp only [List.foldl_cons, if_pos hlt]
      rw [hstep]
      apply lruFold_stay
      intro r hr
      by_cases hrp : r = (k, m)
      · rw [hrp]; omega
      · have := hmin r (by simp [hr]) hrp
        omega
    · have hmem' : (k, m) ∈ rest := by
        rcases List.mem_cons.mp hmem with h | h
        · exact absurd h.symm hp
        · exact h
      have hpl : m < p.2 := hmin p (by simp) hp
      have hstep : ∃ q, (p :: rest).foldl
          (fun acc p =>
            match acc with
            | none => some p
            | some q' => if p.2 < q'.2 then some p else acc)
          acc = rest.foldl
          (fun acc p =>
            match acc with
            | none => some p
            | some q' => if p.2 < q'.2 then some p else acc)
          (some q) ∧ m < q.2 := by
        rcases hacc with h | ⟨q, hq, hlt⟩
        · exact ⟨p, by rw [h]; rfl, hpl⟩
        · by_cases hcmp : p.2 < q.2
          · exact ⟨p, by rw [hq]; simp only [List.foldl_cons, if_pos hcmp], hpl⟩
          · exact ⟨q, by rw [hq]; simp only [List.foldl_cons, if_neg hcmp], hlt⟩
      obtain ⟨q, hq, hlt⟩ := hstep
      rw [hq]
      exact ih (some q) (Or.inr ⟨q, rfl, hlt⟩) hmem'
        (fun r hr hrne => hmin r (by simp [hr]) hrne)

theorem findLRUKey_spec {V : Type} (c : LRUCache V) (k : String) (m : Nat)
    (hmem : (k, m) ∈ c.usage) (hmin : ∀ p ∈ c.usage, p ≠ (k, m) → m < p.2) :
    c.findLRUKey = some k := by
  unfold LRUCache.findLRUKey
  rw [lruFold_min c.usage k m none (Or.inl rfl) hmem hmin]
  rfl

/-! ## Claim C8, counterexample -/

/-- C8 (refuted as stated): with capacity 1, inserting the two distinct
keys `""` and `"b"` does not evict the least-recently-touched key `""` (the
falsy-key guard skips eviction and the cache grows past capacity); and a
`get` before the second insert does not protect the touched key when the
capacity is 1 — the promoted key is still the one evicted. -/
theorem c8_lru_eviction_counterexample :
    (((LRUCache.empty Nat 1).set "" 1).set "b" 2).size = 2
    ∧ ((((LRUCache.empty Nat 1).set "" 1).set "b" 2).get "").1 = some 1
    ∧ (((((LRUCache.empty Nat 1).set "a" 1).get "a").2.set "b" 2).get "a").1 = none := by
  exact ⟨rfl, rfl, rfl⟩

/-- C8 (amended): for capacity `N = rest.length + 1 ≥ 1` and distinct
non-empty keys, inserting `N + 1` keys into a fresh cache evicts exactly the
first-inserted (least-recently-touched) key — it alone reads back as
`undefined`, the other `N` keys read back their values; and a `get` on a key
before the last insert protects it provided `N ≥ 2`: the gotten key
survives and the least-recently-used among the others (`k₁`, or the
second-inserted key when `k₁` itself was gotten) is evicted instead.  With
`N = 1` or an empty-string key the original claim fails
(see the counterexample). -/
theorem c8_lru_eviction_amended {V : Type} (k₁ : String) (v₁ : V)
    (rest : List (String × V)) (kx : String) (vx : V)
    (hnd : ((((k₁, v₁) :: rest) ++ [(kx, vx)]).map Prod.fst).Nodup)
    (hne : ∀ p ∈ ((k₁, v₁) :: rest) ++ [(kx, vx)], p.1 ≠ "") :
    ((lruSetAll (LRUCache.empty V (rest.length + 1))
        (((k₁, v₁) :: rest) ++ [(kx, vx)])).get k₁).1 = none
    ∧ ((lruSetAll (LRUCache.empty V (rest.length + 1))
        (((k₁, v₁) :: rest) ++ [(kx, vx)])).get kx).1 = some vx
    ∧ (∀ p ∈ rest,
        ((lruSetAll (LRUCache.empty V (rest.length + 1))
          (((k₁, v₁) :: rest) ++ [(kx, vx)])).get p.1).1 = some p.2)
    ∧ (∀ kj vj, (kj, vj) ∈ (k₁, v₁) :: rest →
        (kj ≠ k₁ →
          ((((lruSetAll (LRUCache.empty V (rest.length + 1))
              ((k₁, v₁) :: rest)).get kj).2.set kx vx).get kj).1 = some vj
          ∧ ((((lruSetAll (LRUCache.empty V (rest.length + 1))
              ((k₁, v₁) :: rest)).get kj).2.set kx vx).get k₁).1 = none)
        ∧ (∀ k₂ v₂ rest', kj = k₁ → rest = (k₂, v₂) :: rest' →
          ((((lruSetAll (LRUCache.empty V (rest.length + 1))
              ((k₁, v₁) :: rest)).get kj).2.set kx vx).get k₁).1 = some v₁
          ∧ ((((lruSetAll (LRUCache.empty V (rest.length + 1))
              ((k₁, v₁) :: rest)).get kj).2.set kx vx).get k₂).1 = none)) := by
  have hmapcons : ((k₁, v₁) :: rest).map Prod.fst = k₁ :: rest.map Prod.fst := rfl
  rw [List.map_append] at hnd
  have hndps : (((k₁, v₁) :: rest).map Prod.fst).Nodup := (List.nodup_append.mp hnd).1
  have hdisj : ∀ a ∈ ((k₁, v₁) :: rest).map Prod.fst, a ∉ ([(kx, vx)].map Prod.fst) :=
    fun a ha => (List.nodup_append.mp hnd).2.2 ha
  have hkx : kx ∉ ((k₁, v₁) :: rest).map Prod.fst := by
    intro hmem
    exact hdisj kx hmem (by simp)
  have hk₁rest : k₁ ∉ rest.map Prod.fst := by
    rw [hmapcons] at hndps
    exact (List.nodup_cons.mp hndps).1
  have hndrest : (rest.map Prod.fst).Nodup := by
    rw [hmapcons] at hndps
    exact (List.nodup_cons.mp hndps).2
  have hk₁ne : k₁ ≠ "" := hne (k₁, v₁) (by simp)
  have hkxk₁ : kx ≠ k₁ := by
    intro h
    apply hkx
    rw [hmapcons, h]
    simp
  have hkxrest : kx ∉ rest.map Prod.fst := by
    intro h
    apply hkx
    rw [hmapcons]
    simp [h]
  -- the first `rest.length + 1` inserts fill the fresh cache without eviction
  have hfill : lruSetAll (LRUCache.empty V (rest.length + 1)) ((k₁, v₁) :: rest) =
      { capacity := rest.length + 1, cache := (k₁, v₁) :: rest,
        usage := usageFrom 0 ((k₁, v₁) :: rest), accessCounter := rest.length + 1 } := by
    have h := lruSetAll_fresh ((k₁, v₁) :: rest) (LRUCache.empty V (rest.length + 1)) hndps
      (fun p _ => rfl) rfl (by simp [LRUCache.empty])
    simpa [LRUCache.empty] using h
  have husagehead : usageFrom 0 ((k₁, v₁) :: rest) = (k₁, 1) :: usageFrom 1 rest := rfl
  have hrecdel : recDelete ((k₁, v₁) :: rest) k₁ = rest := by simp [recDelete]
  have hrestkx : recGet rest kx = none := recGet_eq_none_of_not_mem_keys rest kx hkxrest
  have hsetrest : recSet rest kx vx = rest ++ [(kx, vx)] := recSet_fresh rest kx vx hrestkx
  have hget₁ : recGet (rest ++ [(kx, vx)]) k₁ = none := by
    rw [recGet_append_right _ _ _ (recGet_eq_none_of_not_mem_keys rest k₁ hk₁rest)]
    simp [recGet, hkxk₁]
  have hgetx : recGet (rest ++ [(kx, vx)]) kx = some vx := by
    rw [recGet_append_right _ _ _ hrestkx]
    simp [recGet]
  refine ⟨?_, ?_, ?_, ?_⟩
  · rw [lruSetAll_append]
    have hone : lruSetAll (lruSetAll (LRUCache.empty V (rest.length + 1)) ((k₁, v₁) :: rest))
        [(kx, vx)] = (lruSetAll (LRUCache.empty V (rest.length + 1)) ((k₁, v₁) :: rest)).set
        kx vx := rfl
    rw [hone, hfill]
    rw [lru_set_evict _ kx vx k₁ (by simp) ?hfresh ?hlru hk₁ne]
    · rw [lru_get_fst]
      show recGet (recSet (recDelete ((k₁, v₁) :: rest) k₁) kx vx) k₁ = none
      rw [hrecdel, hsetrest]
      exact hget₁
    case hfresh =>
      show recHas ((k₁, v₁) :: rest) kx = false
      simp [recHas, recGet_eq_none_of_not_mem_keys _ kx hkx]
    case hlru =>
      apply findLRUKey_spec _ k₁ 1
      · show (k₁, 1) ∈ usageFrom 0 ((k₁, v₁) :: rest)
        rw [husagehead]
        simp
      · intro q hq hqne
        rw [husagehead] at hq
        rcases List.mem_cons.mp hq with h | h
        · exact absurd h hqne
        · have := usageFrom_snd_ge rest 1 q h
          omega
  · rw [lruSetAll_append]
    have hone : lruSetAll (lruSetAll (LRUCache.empty V (rest.length + 1)) ((k₁, v₁) :: rest))
        [(kx, vx)] = (lruSetAll (LRUCache.empty V (rest.length + 1)) ((k₁, v₁) :: rest)).set
        kx vx := rfl
    rw [hone, hfill]
    rw [lru_set_evict _ kx vx k₁ (by simp) ?hfresh2 ?hlru2 hk₁ne]
    · rw [lru_get_fst]
      show recGet (recSet (recDelete ((k₁, v₁) :: rest) k₁) kx vx) kx = some vx
      rw [hrecdel, hsetrest]
      exact hgetx
    case hfresh2 =>
      show recHas ((k₁, v₁) :: rest) kx = false
      simp [recHas, recGet_eq_none_of_not_mem_keys _ kx hkx]
    case hlru2 =>
      apply findLRUKey_spec _ k₁ 1
      · show (k₁, 1) ∈ usageFrom 0 ((k₁, v₁) :: rest)
        rw [husagehead]
        simp
      · intro q hq hqne
        rw [husagehead] at hq
        rcases List.mem_cons.mp hq with h | h
        · exact absurd h hqne
        · have := usageFrom_snd_ge rest 1 q h
          omega
  · intro p hp
    rw [lruSetAll_append]
    have hone : lruSetAll (lruSetAll (LRUCache.empty V (rest.length + 1)) ((k₁, v₁) :: rest))
        [(kx, vx)] = (lruSetAll (LRUCache.empty V (rest.length + 1)) ((k₁, v₁) :: rest)).set
        kx vx := rfl
    rw [hone, hfill]
    rw [lru_set_evict _ kx vx k₁ (by simp) ?hfresh3 ?hlru3 hk₁ne]
    · rw [lru_get_fst]
      show recGet (recSet (recDelete ((k₁, v₁) :: rest) k₁) kx vx) p.1 = some p.2
      rw [hrecdel, hsetrest]
      have hrg : recGet rest p.1 = some p.2 := by
        obtain ⟨pk, pv⟩ := p
        exact recGet_eq_some_of_mem_nodup rest pk pv hndrest hp
      rw [recGet_append_left _ _ _ (by simp [hrg])]
      exact hrg
    case hfresh3 =>
      show recHas ((k₁, v₁) :: rest) kx = false
      simp [recHas, recGet_eq_none_of_not_mem_keys _ kx hkx]
    case hlru3 =>
      apply findLRUKey_spec _ k₁ 1
      · show (k₁, 1) ∈ usageFrom 0 ((k₁, v₁) :: rest)
        rw [husagehead]
        simp
      · intro q hq hqne
        rw [husagehead] at hq
        rcases List.mem_cons.mp hq with h | h
        · exact absurd h hqne
        · have := usageFrom_snd_ge rest 1 q h
          omega
  · intro kj vj hkj
    have hkjkeys : kj ∈ recKeys ((k₁, v₁) :: rest) := by
      show kj ∈ ((k₁, v₁) :: rest).map Prod.fst
      exact List.mem_map.mpr ⟨(kj, vj), hkj, rfl⟩
    have hkjhas : recHas ((k₁, v₁) :: rest) kj = true :=
      recGet_isSome_of_mem_keys _ _ hkjkeys
    have hc₂ : ((lruSetAll (LRUCache.empty V (rest.length + 1)) ((k₁, v₁) :: rest)).get kj).2 =
        { capacity := rest.length + 1, cache := (k₁, v₁) :: rest,
          usage := recSet (usageFrom 0 ((k₁, v₁) :: rest)) kj (rest.length + 2),
          accessCounter := rest.length + 2 } := by
      rw [hfill, lru_get_hit_snd _ _ hkjhas]
    constructor
    · intro hkjne
      have hkjrest : (kj, vj) ∈ rest := by
        rcases List.mem_cons.mp hkj with h | h
        · exact absurd (congrArg Prod.fst h) hkjne
        · exact h
      have hlru : LRUCache.findLRUKey
          { capacity := rest.length + 1, cache := (k₁, v₁) :: rest,
            usage := recSet (usageFrom 0 ((k₁, v₁) :: rest)) kj (rest.length + 2),
            accessCounter := rest.length + 2 } = some k₁ := by
        apply findLRUKey_spec _ k₁ 1
        · show (k₁, 1) ∈ recSet (usageFrom 0 ((k₁, v₁) :: rest)) kj (rest.length + 2)
          apply mem_recSet_other
          · rw [husagehead]; simp
          · exact Ne.symm hkjne
        · intro q hq hqne
          rcases mem_recSet _ _ _ _ hq with h | h
          · rw [husagehead] at h
            rcases List.mem_cons.mp h with h2 | h2
            · exact absurd h2 hqne
            · have := usageFrom_snd_ge rest 1 q h2
              omega
          · rw [h]
            omega
      rw [hc₂]
      rw [lru_set_evict _ kx vx k₁ (by simp) ?hfresh4 hlru hk₁ne]
      constructor
      · rw [lru_get_fst]
        show recGet (recSet (recDelete ((k₁, v₁) :: rest) k₁) kx vx) kj = some vj
        rw [hrecdel, hsetrest]
        have hrg : recGet rest kj = some vj :=
          recGet_eq_some_of_mem_nodup rest kj vj hndrest hkjrest
        rw [recGet_append_left _ _ _ (by simp [hrg])]
        exact hrg
      · rw [lru_get_fst]
        show recGet (recSet (recDelete ((k₁, v₁) :: rest) k₁) kx vx) k₁ = none
        rw [hrecdel, hsetrest]
        exact hget₁
      case hfresh4 =>
        show recHas ((k₁, v₁) :: rest) kx = false
        simp [recHas, recGet_eq_none_of_not_mem_keys _ kx hkx]
    · intro k₂ v₂ rest' hkjk hrest
      subst hrest
      rw [hkjk] at hc₂ ⊢
      have hk₂ne : k₂ ≠ "" := hne (k₂, v₂) (by simp)
      have hk₂k₁ : k₂ ≠ k₁ := by
        intro h
        apply hk₁rest
        rw [← h]
        simp
      have husage' : recSet (usageFrom 0 ((k₁, v₁) :: (k₂, v₂) :: rest')) k₁
          (((k₂, v₂) :: rest').length + 2) =
          (k₁, ((k₂, v₂) :: rest').length + 2) :: usageFrom 1 ((k₂, v₂) :: rest') := by
        rw [husagehead]
        simp [recSet]
      have husage1 : usageFrom 1 ((k₂, v₂) :: rest') = (k₂, 2) :: usageFrom 2 rest' := rfl
      have hlru : LRUCache.findLRUKey
          { capacity := ((k₂, v₂) :: rest').length + 1, cache := (k₁, v₁) :: (k₂, v₂) :: rest',
            usage := recSet (usageFrom 0 ((k₁, v₁) :: (k₂, v₂) :: rest')) k₁
              (((k₂, v₂) :: rest').length + 2),
            accessCounter := ((k₂, v₂) :: rest').length + 2 } = some k₂ := by
        apply findLRUKey_spec _ k₂ 2
        · show (k₂, 2) ∈ recSet (usageFrom 0 ((k₁, v₁) :: (k₂, v₂) :: rest')) k₁ _
          rw [husage', husage1]
          simp
        · intro q hq hqne
          rw [husage'] at hq
          rcases List.mem_cons.mp hq with h | h
          · rw [h]
            show (2 : Nat) < ((k₂, v₂) :: rest').length + 2
            have hlen2 : ((k₂, v₂) :: rest').length = rest'.length + 1 := rfl
            omega
          · rw [husage1] at h
            rcases List.mem_cons.mp h with h2 | h2
            · exact absurd h2 hqne
            · have := usageFrom_snd_ge rest' 2 q h2
              omega
      rw [hc₂]
      rw [lru_set_evict _ kx vx k₂ (by simp) ?hfresh5 hlru hk₂ne]
      have hdel2 : recDelete ((k₁, v₁) :: (k₂, v₂) :: rest') k₂ = (k₁, v₁) :: rest' := by
        simp [recDelete, hk₂k₁.symm]
      have hkxrest'keys : kx ∉ rest'.map Prod.fst := by
        intro h
        apply hkxrest
        show kx ∈ ((k₂, v₂) :: rest').map Prod.fst
        simp [h]
      have hkxrest' : recGet ((k₁, v₁) :: rest') kx = none := by
        apply recGet_eq_none_of_not_mem_keys
        intro h
        have h' : kx ∈ k₁ :: rest'.map Prod.fst := h
        rcases List.mem_cons.mp h' with h2 | h2
        · exact hkxk₁ h2
        · exact hkxrest'keys h2
      have hset2 : recSet ((k₁, v₁) :: rest') kx vx = ((k₁, v₁) :: rest') ++ [(kx, vx)] :=
        recSet_fresh _ kx vx hkxrest'
      constructor
      · rw [lru_get_fst]
        show recGet (recSet (recDelete ((k₁, v₁) :: (k₂, v₂) :: rest') k₂) kx vx) k₁ = some v₁
        rw [hdel2, hset2]
        simp [recGet]
      · rw [lru_get_fst]
        show recGet (recSet (recDelete ((k₁, v₁) :: (k₂, v₂) :: rest') k₂) kx vx) k₂ = none
        rw [hdel2, hset2]
        have hk₂rest' : k₂ ∉ rest'.map Prod.fst := by
          intro h
          rw [hmapcons] at hndps
          have := (List.nodup_cons.mp hndps).2
          have hmap2 : ((k₂, v₂) :: rest').map Prod.fst = k₂ :: rest'.map Prod.fst := rfl
          rw [hmap2] at this
          exact (List.nodup_cons.mp this).1 h
        have hkxk₂ : kx ≠ k₂ := by
          intro h
          apply hkx
          rw [hmapcons, h]
          simp
        rw [show ((k₁, v₁) :: rest') ++ [(kx, vx)] = (k₁, v₁) :: (rest' ++ [(kx, vx)]) from rfl]
        simp only [recGet, if_neg hk₂k₁.symm]
        rw [recGet_append_right _ _ _ (recGet_eq_none_of_not_mem_keys rest' k₂ hk₂rest')]
        simp [recGet, hkxk₂]
      case hfresh5 =>
        show recHas ((k₁, v₁) :: (k₂, v₂) :: rest') kx = false
        simp [recHas, recGet_eq_none_of_not_mem_keys _ kx hkx]

/-- Witness for amended C8 with capacity 2 and keys `a`, `b`, `c`. -/
theorem c8_lru_eviction_amended_witness :
    ((((("a", (1 : Nat)) :: [("b", 2)]) ++ [("c", 3)]).map Prod.fst).Nodup)
    ∧ ((lruSetAll (LRUCache.empty Nat ([(("b" : String), (2 : Nat))].length + 1))
        ((("a", 1) :: [("b", 2)]) ++ [("c", 3)])).get "a").1 = none
    ∧ ((((lruSetAll (LRUCache.empty Nat ([(("b" : String), (2 : Nat))].length + 1))
        (("a", 1) :: [("b", 2)])).get "b").2.set "c" 3).get "b").1 = some 2 := by
  have h := c8_lru_eviction_amended "a" (1 : Nat) [("b", 2)] "c" 3 (by decide)
    (by decide)
  refine ⟨by decide, h.1, ?_⟩
  exact ((h.2.2.2 "b" 2 (by simp)).1 (by decide)).1

/-! ## Claim C6, counterexample -/

/-- C6 (refuted as stated): a snapshot with timestamp `0` is resident in
the cache, yet `getMostRecentState` returns `undefined` because its scan
starts at timestamp `0` and only strictly larger timestamps are
considered. -/
theorem c6_most_recent_counterexample :
    (((UIStateCache.empty 10).addState exStateTs0).getMostRecentState).1 = none
    ∧ ((UIStateCache.empty 10).addState exStateTs0).size = 1 := by
  exact ⟨rfl, rfl⟩

/-! ## Claim C6, amended -/

theorem scanMax_stay (l : List (String × Int)) (a : Int) (w : String)
    (h : ∀ p ∈ l, p.2 ≤ a) :
    l.foldl (fun acc p => if p.2 > acc.1 then (p.2, p.1) else acc) (a, w) = (a, w) := by
  induction l with
  | nil => rfl
  | cons p rest ih =>
    have hp := h p (by simp)
    have hngt : ¬(p.2 > (a, w).1) := by simp; exact hp
    simp only [List.foldl_cons, if_neg hngt]
    exact ih (fun q hq => h q (by simp [hq]))

theorem scanMax_spec (l : List (String × Int)) (v : String) (t : Int) :
    ∀ (a : Int) (w : String), a < t → (v, t) ∈ l → (∀ p ∈ l, p ≠ (v, t) → p.2 < t) →
    l.foldl (fun acc p => if p.2 > acc.1 then (p.2, p.1) else acc) (a, w) = (t, v) := by
  induction l with
  | nil => intro a w _ hmem; simp at hmem
  | cons p rest ih =>
    intro a w ha hmem hmax
    by_cases hp : p = (v, t)
    · subst hp
      simp only [List.foldl_cons]
      rw [if_pos (by simpa using ha)]
      apply scanMax_stay
      intro q hq
      by_cases hqv : q = (v, t)
      · rw [hqv]
      · exact le_of_lt (hmax q (by simp [hq]) hqv)
    · have hmem' : (v, t) ∈ rest := by
        rcases List.mem_cons.mp hmem with h | h
        · exact absurd h.symm hp
        · exact h
      have hpl : p.2 < t := hmax p (by simp) hp
      simp only [List.foldl_cons]
      by_cases hgt : p.2 > (a, w).1
      · rw [if_pos hgt]
        exact ih p.2 p.1 hpl hmem' (fun q hq hqv => hmax q (by simp [hq]) hqv)
      · rw [if_neg hgt]
        exact ih a w ha hmem' (fun q hq hqv => hmax q (by simp [hq]) hqv)

/-- C6 (amended): `getMostRecentState` returns the resident snapshot whose
version carries the strictly largest recorded timestamp, provided that
timestamp is positive, the version string is non-empty and unique in the
index, and the snapshot is still resident in the LRU store under its
composite key; with a non-positive maximal timestamp or after the LRU store
evicted that snapshot it returns `undefined` even when other snapshots are
resident (see the counterexample). -/
theorem c6_most_recent_amended (c : UIStateCache) (v : String) (t : Int) (s : UIState)
    (hnd : nodupKeys c.versionToTimestamp)
    (hmem : (v, t) ∈ c.versionToTimestamp)
    (hpos : 0 < t)
    (hv : v ≠ "")
    (hmax : ∀ p ∈ c.versionToTimestamp, p ≠ (v, t) → p.2 < t)
    (hres : recGet c.stateCache.cache (UIStateCache.getStateKeyFromParts t v) = some s) :
    (c.getMostRecentState).1 = some s := by
  unfold UIStateCache.getMostRecentState
  have hscan := scanMax_spec c.versionToTimestamp v t 0 "" hpos hmem hmax
  rw [hscan]
  rw [if_pos (by simpa using hv)]
  unfold UIStateCache.getStateByVersion
  have hvt : recGet c.versionToTimestamp v = some t :=
    recGet_eq_some_of_mem_nodup _ _ _ hnd hmem
  rw [hvt]
  have hhas : recHas c.stateCache.cache (UIStateCache.getStateKeyFromParts t v) = true := by
    simp [recHas, hres]
  simp only [lru_get_fst, hres]

/-- Witness for amended C6 on a concretely built cache. -/
theorem c6_most_recent_amended_witness :
    nodupKeys exCacheC6.versionToTimestamp ∧ (0 : Int) < 5 ∧
    (exCacheC6.getMostRecentState).1 = some exStateTs5 := by
  refine ⟨by show (recKeys exCacheC6.versionToTimestamp).Nodup; decide, by norm_num, ?_⟩
  apply c6_most_recent_amended exCacheC6 "v1" 5 exStateTs5
  · show (recKeys exCacheC6.versionToTimestamp).Nodup
    decide
  · simp [exCacheC6]
  · norm_num
  · decide
  · intro p hp hne
    exfalso
    apply hne
    simpa [exCacheC6] using hp
  · rfl

/-! ## Fold lemmas for patch application -/

theorem foldl_recSet_get {α : Type} (adds : List (String × α)) (base : List (String × α))
    (id : String) (hnd : nodupKeys adds) :
    recGet (adds.foldl (fun e p => recSet e p.1 p.2) base) id =
      match recGet adds id with
      | some v => some v
      | none => recGet base id := by
  induction adds generalizing base with
  | nil => rfl
  | cons p rest ih =>
    obtain ⟨k, v⟩ := p
    by_cases hk : k = id
    · subst hk
      have hid : recGet rest k = none := by
        apply recGet_eq_none_of_not_mem_keys
        exact (List.nodup_cons.mp hnd).1
      simp only [List.foldl_cons, recGet_cons, if_pos rfl]
      rw [ih _ (List.nodup_cons.mp hnd).2, hid]
      simp [recGet_recSet_self]
    · simp only [List.foldl_cons, recGet_cons, if_neg hk]
      rw [ih _ (List.nodup_cons.mp hnd).2, recGet_recSet_other _ _ _ _ hk]

theorem foldl_modify_get_absent (mods : List (String × ElementPatch))
    (base : List (String × UIElement)) (id : String)
    (habs : recGet mods id = none) :
    recGet (mods.foldl
      (fun e p =>
        match recGet e p.1 with
        | some el => recSet e p.1 (assignElement el p.2)
        | none => e) base) id = recGet base id := by
  induction mods generalizing base with
  | nil => rfl
  | cons p rest ih =>
    obtain ⟨k, ch⟩ := p
    have hk : k ≠ id := by
      intro h
      simp [recGet, h] at habs
    have habs' : recGet rest id = none := by
      simpa [recGet, hk] using habs
    simp only [List.foldl_cons]
    rw [ih _ habs']
    cases hbg : recGet base k with
    | none => rfl
    | some el => simp [recGet_recSet_other _ _ _ _ hk]

theorem foldl_modify_get_present (mods : List (String × ElementPatch))
    (base : List (String × UIElement)) (id : String) (ch : ElementPatch)
    (hnd : nodupKeys mods) (hch : recGet mods id = some ch) :
    recGet (mods.foldl
      (fun e p =>
        match recGet e p.1 with
        | some el => recSet e p.1 (assignElement el p.2)
        | none => e) base) id =
      (recGet base id).map (fun el => assignElement el ch) := by
  induction mods generalizing base with
  | nil => simp [recGet] at hch
  | cons p rest ih =>
    obtain ⟨k, ch'⟩ := p
    by_cases hk : k = id
    · subst hk
      have hcheq : ch' = ch := by simpa [recGet] using hch
      subst hcheq
      have habs : recGet rest k = none := by
        apply recGet_eq_none_of_not_mem_keys
        exact (List.nodup_cons.mp hnd).1
      simp only [List.foldl_cons]
      rw [foldl_modify_get_absent _ _ _ habs]
      cases hbg : recGet base k with
      | none => simp [hbg]
      | some el => simp [recGet_recSet_self, hbg]
    · have hch' : recGet rest id = some ch := by simpa [recGet, hk] using hch
      simp only [List.foldl_cons]
      rw [ih _ (List.nodup_cons.mp hnd).2 hch']
      cases hbg : recGet base k with
      | none => rfl
      | some el => simp [recGet_recSet_other _ _ _ _ hk]

theorem recGet_recDelete_none {α : Type} (l : List (String × α)) (k id : String)
    (h : recGet l id = none) : recGet (recDelete l k) id = none := by
  induction l with
  | nil => rfl
  | cons p rest ih =>
    obtain ⟨k', v'⟩ := p
    have hk' : k' ≠ id := by
      intro hx
      simp [recGet, hx] at h
    have h' : recGet rest id = none := by simpa [recGet, hk'] using h
    by_cases hk : k' = k
    · simpa [recDelete, hk] using h'
    · simp [recDelete, recGet, hk, hk', ih h']

theorem foldl_recDelete_absent {α : Type} (rem : List String) (base : List (String × α))
    (id : String) (habs : id ∉ rem) :
    recGet (rem.foldl (fun e i => recDelete e i) base) id = recGet base id := by
  induction rem generalizing base with
  | nil => rfl
  | cons k rest ih =>
    have hk : k ≠ id := by
      intro h
      exact habs (by simp [h])
    simp only [List.foldl_cons]
    rw [ih _ (fun h => habs (by simp [h]))]
    exact recGet_recDelete_other _ _ _ (fun h => hk h)

theorem foldl_recDelete_none {α : Type} (rem : List String) (base : List (String × α))
    (id : String) (h : recGet base id = none) :
    recGet (rem.foldl (fun e i => recDelete e i) base) id = none := by
  induction rem generalizing base with
  | nil => exact h
  | cons k rest ih =>
    simp only [List.foldl_cons]
    exact ih _ (recGet_recDelete_none _ _ _ h)

theorem nodupKeys_recDelete {α : Type} (l : List (String × α)) (k : String)
    (hnd : nodupKeys l) : nodupKeys (recDelete l k) := by
  unfold nodupKeys
  rw [recKeys_recDelete]
  exact List.Nodup.erase k hnd

theorem foldl_recDelete_mem {α : Type} (rem : List String) (base : List (String × α))
    (id : String) (hnd : nodupKeys base) (hmem : id ∈ rem) :
    recGet (rem.foldl (fun e i => recDelete e i) base) id = none := by
  induction rem generalizing base with
  | nil => simp at hmem
  | cons k rest ih =>
    simp only [List.foldl_cons]
    by_cases hk : k = id
    · subst hk
      exact foldl_recDelete_none _ _ _ (recGet_recDelete_self _ _ hnd)
    · have hmem' : id ∈ rest := by
        rcases List.mem_cons.mp hmem with h | h
        · exact absurd h.symm hk
        · exact h
      exact ih _ (nodupKeys_recDelete _ _ hnd) hmem'

theorem nodupKeys_foldl_recSet {α : Type} (adds : List (String × α))
    (base : List (String × α)) (hnd : nodupKeys base) :
    nodupKeys (adds.foldl (fun e p => recSet e p.1 p.2) base) := by
  induction adds generalizing base with
  | nil => exact hnd
  | cons p rest ih =>
    simp only [List.foldl_cons]
    exact ih _ (nodupKeys_recSet _ _ _ hnd)

theorem nodupKeys_foldl_modify (mods : List (String × ElementPatch))
    (base : List (String × UIElement)) (hnd : nodupKeys base) :
    nodupKeys (mods.foldl
      (fun e p =>
        match recGet e p.1 with
        | some el => recSet e p.1 (assignElement el p.2)
        | none => e) base) := by
  induction mods generalizing base with
  | nil => exact hnd
  | cons p rest ih =>
    simp only [List.foldl_cons]
    cases hbg : recGet base p.1 with
    | none => exact ih _ hnd
    | some el => exact ih _ (nodupKeys_recSet _ _ _ hnd)

/-! ## The classification loop of `computeDiff` -/

theorem diffScan_go_absent (oldE : List (String × UIElement))
    (l : List (String × UIElement))
    (acc : List (String × UIElement) × List (String × ElementPatch)) (id : String)
    (habs : recGet l id = none) :
    recGet (l.foldl
      (fun acc p =>
        match recGet oldE p.1 with
        | none => (recSet acc.1 p.1 p.2, acc.2)
        | some oldEl =>
          if hashElement oldEl != hashElement p.2 then
            let changes := computeElementChanges oldEl p.2
            if !patchIsEmpty changes then (acc.1, recSet acc.2 p.1 changes) else acc
          else acc) acc).1 id = recGet acc.1 id ∧
    recGet (l.foldl
      (fun acc p =>
        match recGet oldE p.1 with
        | none => (recSet acc.1 p.1 p.2, acc.2)
        | some oldEl =>
          if hashElement oldEl != hashElement p.2 then
            let changes := computeElementChanges oldEl p.2
            if !patchIsEmpty changes then (acc.1, recSet acc.2 p.1 changes) else acc
          else acc) acc).2 id = recGet acc.2 id := by
  induction l generalizing acc with
  | nil => exact ⟨rfl, rfl⟩
  | cons p rest ih =>
    obtain ⟨k, nEl⟩ := p
    have hk : k ≠ id := by
      intro h
      simp [recGet, h] at habs
    have habs' : recGet rest id = none := by simpa [recGet, hk] using habs
    simp only [List.foldl_cons]
    have hstep : ∀ acc' : List (String × UIElement) × List (String × ElementPatch),
        (recGet acc'.1 id = recGet acc.1 id ∧ recGet acc'.2 id = recGet acc.2 id) →
        recGet ((rest.foldl
          (fun acc p =>
            match recGet oldE p.1 with
            | none => (recSet acc.1 p.1 p.2, acc.2)
            | some oldEl =>
              if hashElement oldEl != hashElement p.2 then
                let changes := computeElementChanges oldEl p.2
                if !patchIsEmpty changes then (acc.1, recSet acc.2 p.1 changes) else acc
              else acc) acc')).1 id = recGet acc.1 id ∧
        recGet ((rest.foldl
          (fun acc p =>
            match recGet oldE p.1 with
            | none => (recSet acc.1 p.1 p.2, acc.2)
            | some oldEl =>
              if hashElement oldEl != hashElement p.2 then
                let changes := computeElementChanges oldEl p.2
                if !patchIsEmpty changes then (acc.1, recSet acc.2 p.1 changes) else acc
              else acc) acc')).2 id = recGet acc.2 id := by
      intro acc' ⟨h1, h2⟩
      have := ih acc' habs'
      exact ⟨this.1.trans h1, this.2.trans h2⟩
    cases hog : recGet oldE k with
    | none =>
      simp only [hog]
      exact hstep _ ⟨recGet_recSet_other _ _ _ _ hk, rfl⟩
    | some oEl =>
      by_cases hh : (hashElement oEl != hashElement nEl) = true
      · by_cases hemp : (!patchIsEmpty (computeElementChanges oEl nEl)) = true
        · simp only [hog, if_pos hh, if_pos hemp]
          exact hstep _ ⟨rfl, recGet_recSet_other _ _ _ _ hk⟩
        · simp only [hog, if_pos hh, if_neg hemp]
          exact hstep _ ⟨rfl, rfl⟩
      · simp only [hog, if_neg hh]
        exact hstep _ ⟨rfl, rfl⟩

theorem diffScan_go_present (oldE : List (String × UIElement))
    (l : List (String × UIElement)) (id : String) (el : UIElement)
    (hnd : nodupKeys l) (hmem : recGet l id = some el) :
    ∀ acc : List (String × UIElement) × List (String × ElementPatch),
    recGet (l.foldl
      (fun acc p =>
        match recGet oldE p.1 with
        | none => (recSet acc.1 p.1 p.2, acc.2)
        | some oldEl =>
          if hashElement oldEl != hashElement p.2 then
            let changes := computeElementChanges oldEl p.2
            if !patchIsEmpty changes then (acc.1, recSet acc.2 p.1 changes) else acc
          else acc) acc).1 id =
      (match recGet oldE id with
       | none => some el
       | some _ => recGet acc.1 id) ∧
    recGet (l.foldl
      (fun acc p =>
        match recGet oldE p.1 with
        | none => (recSet acc.1 p.1 p.2, acc.2)
        | some oldEl =>
          if hashElement oldEl != hashElement p.2 then
            let changes := computeElementChanges oldEl p.2
            if !patchIsEmpty changes then (acc.1, recSet acc.2 p.1 changes) else acc
          else acc) acc).2 id =
      (match recGet oldE id with
       | none => recGet acc.2 id
       | some oEl =>
         if (hashElement oEl != hashElement el) = true then
           if (!patchIsEmpty (computeElementChanges oEl el)) = true then
             some (computeElementChanges oEl el)
           else recGet acc.2 id
         else recGet acc.2 id) := by
  induction l with
  | nil => intro acc; simp [recGet] at hmem
  | cons p rest ih =>
    intro acc
    obtain ⟨k, nEl⟩ := p
    by_cases hk : k = id
    · subst hk
      have hel : nEl = el := by simpa [recGet] using hmem
      subst hel
      have hrest : recGet rest k = none := by
        apply recGet_eq_none_of_not_mem_keys
        exact (List.nodup_cons.mp hnd).1
      simp only [List.foldl_cons]
      cases hog : recGet oldE k with
      | none =>
        simp only [hog]
        have habs := diffScan_go_absent oldE rest (recSet acc.1 k nEl, acc.2) k hrest
        refine ⟨habs.1.trans ?_, habs.2⟩
        exact recGet_recSet_self _ _ _
      | some oEl =>
        by_cases hh : (hashElement oEl != hashElement nEl) = true
        · by_cases hemp : (!patchIsEmpty (computeElementChanges oEl nEl)) = true
          · simp only [hog, if_pos hh, if_pos hemp]
            have habs := diffScan_go_absent oldE rest (acc.1, recSet acc.2 k
              (computeElementChanges oEl nEl)) k hrest
            exact ⟨habs.1, habs.2.trans (recGet_recSet_self _ _ _)⟩
          · simp only [hog, if_pos hh, if_neg hemp]
            have habs := diffScan_go_absent oldE rest acc k hrest
            exact ⟨habs.1, habs.2⟩
        · simp only [hog, if_neg hh]
          have habs := diffScan_go_absent oldE rest acc k hrest
          refine ⟨habs.1, habs.2.trans ?_⟩
          simp [hh]
    · have hmem' : recGet rest id = some el := by simpa [recGet, hk] using hmem
      simp only [List.foldl_cons]
      have hih := ih (List.nodup_cons.mp hnd).2 hmem'
      cases hog : recGet oldE k with
      | none =>
        simp only [hog]
        have h := hih (recSet acc.1 k nEl, acc.2)
        refine ⟨h.1.trans ?_, h.2.trans ?_⟩
        · cases recGet oldE id with
          | none => rfl
          | some _ => exact recGet_recSet_other _ _ _ _ hk
        · rfl
      | some oEl =>
        by_cases hh : (hashElement oEl != hashElement nEl) = true
        · by_cases hemp : (!patchIsEmpty (computeElementChanges oEl nEl)) = true
          · simp only [hog, if_pos hh, if_pos hemp]
            have h := hih (acc.1, recSet acc.2 k (computeElementChanges oEl nEl))
            refine ⟨h.1, h.2.trans ?_⟩
            cases recGet oldE id with
            | none => exact recGet_recSet_other _ _ _ _ hk
            | some oEl' =>
              by_cases hh' : (hashElement oEl' != hashElement el) = true
              · by_cases hemp' : (!patchIsEmpty (computeElementChanges oEl' el)) = true
                · simp [hh', hemp']
                · simp [hh', hemp', recGet_recSet_other _ _ _ _ hk]
              · simp [hh', recGet_recSet_other _ _ _ _ hk]
          · simp only [hog, if_pos hh, if_neg hemp]
            exact hih acc
        · simp only [hog, if_neg hh]
          exact hih acc

theorem matchOptList {α β : Type} (l : List α) (b : β) (f : List α → β) (hf : f [] = b) :
    (match (if l.isEmpty then none else some l) with
     | some x => f x
     | none => b) = f l := by
  cases l with
  | nil => simpa using hf.symm
  | cons x xs => rfl

/-- Per-id content of `computeDiff`'s `modified` record. -/
theorem computeDiff_modifiedLookup (old new : UIState) (hndn : nodupKeys new.elements)
    (id : String) :
    modifiedLookup (computeDiff old new) id =
      (match recGet new.elements id, recGet old.elements id with
       | some nEl, some oEl =>
         if (hashElement oEl != hashElement nEl) = true then
           if (!patchIsEmpty (computeElementChanges oEl nEl)) = true then
             some (computeElementChanges oEl nEl)
           else none
         else none
       | _, _ => none) := by
  have hbase : modifiedLookup (computeDiff old new) id =
      recGet (diffScan old.elements new.elements).2 id := by
    show ((if (diffScan old.elements new.elements).2.isEmpty then none
      else some (diffScan old.elements new.elements).2).bind (fun m => recGet m id)) = _
    by_cases he : (diffScan old.elements new.elements).2.isEmpty
    · rw [if_pos he, Option.none_bind, List.isEmpty_iff.mp he]
      rfl
    · rw [if_neg he]
      rfl
  rw [hbase]
  unfold diffScan
  cases hn : recGet new.elements id with
  | none =>
    have h := diffScan_go_absent old.elements new.elements ([], []) id hn
    rw [h.2]
    rfl
  | some nEl =>
    have h := (diffScan_go_present old.elements new.elements id nEl hndn hn ([], [])).2
    rw [h]
    cases ho : recGet old.elements id with
    | none => rfl
    | some oEl =>
      by_cases hh : (hashElement oEl != hashElement nEl) = true
      · by_cases hemp : (!patchIsEmpty (computeElementChanges oEl nEl)) = true
        · simp [hh, hemp]
        · simp [hh, hemp]
      · simp [hh]

/-- Per-id content of `computeDiff`'s `added` record. -/
theorem computeDiff_addedLookup (old new : UIState) (hndn : nodupKeys new.elements)
    (id : String) :
    addedLookup (computeDiff old new) id =
      (match recGet new.elements id, recGet old.elements id with
       | some nEl, none => some nEl
       | _, _ => none) := by
  have hbase : addedLookup (computeDiff old new) id =
      recGet (diffScan old.elements new.elements).1 id := by
    show ((if (diffScan old.elements new.elements).1.isEmpty then none
      else some (diffScan old.elements new.elements).1).bind (fun m => recGet m id)) = _
    by_cases he : (diffScan old.elements new.elements).1.isEmpty
    · rw [if_pos he, Option.none_bind, List.isEmpty_iff.mp he]
      rfl
    · rw [if_neg he]
      rfl
  rw [hbase]
  unfold diffScan
  cases hn : recGet new.elements id with
  | none =>
    have h := diffScan_go_absent old.elements new.elements ([], []) id hn
    rw [h.1]
    rfl
  | some nEl =>
    have h := (diffScan_go_present old.elements new.elements id nEl hndn hn ([], [])).1
    rw [h]
    cases ho : recGet old.elements id with
    | none => rfl
    | some oEl => rfl


/-! ## Conversions between boolean tests and equalities -/

theorem optListGetD {α : Type} (l : List α) :
    (if l.isEmpty then none else some l).getD [] = l := by
  cases l with
  | nil => rfl
  | cons a as => rfl

theorem eq_of_bne_eq_false {α : Type} [BEq α] [LawfulBEq α] {a b : α}
    (h : (a != b) = false) : a = b := by
  by_contra hne
  have h2 : (a != b) = true := bne_iff_ne.mpr hne
  rw [h2] at h
  exact Bool.noConfusion h

theorem bne_eq_false_of_eq {α : Type} [BEq α] [LawfulBEq α] {a b : α}
    (h : a = b) : (a != b) = false := by
  subst h
  simp

theorem cond_some_isNone {α : Type} {c : Bool} {v : α}
    (h : (if c = true then some v else none).isNone = true) : c = false := by
  cases c
  · rfl
  · simp at h

theorem eq_of_boundsEqual {a b : Bounds} (h : boundsEqual (some a) (some b) = true) :
    a = b := by
  obtain ⟨ax, ay, aw, ah⟩ := a
  obtain ⟨bx, hy, bw, bh⟩ := b
  simp only [boundsEqual, Bool.and_eq_true, beq_iff_eq] at h
  obtain ⟨⟨⟨h1, h2⟩, h3⟩, h4⟩ := h
  subst h1
  subst h2
  subst h3
  subst h4
  rfl

theorem eq_of_arraysEqual {a b : Option (List String)} (h : arraysEqual a b = true) :
    a = b := by
  cases a <;> cases b <;> simp_all [arraysEqual]

theorem uielement_ext {a b : UIElement} (h1 : a.id = b.id) (h2 : a.type = b.type)
    (h3 : a.text = b.text) (h4 : a.attributes = b.attributes) (h5 : a.bounds = b.bounds)
    (h6 : a.interactable = b.interactable) (h7 : a.visible = b.visible)
    (h8 : a.children = b.children) (h9 : a.parent = b.parent) (h10 : a.zIndex = b.zIndex)
    (h11 : a.styles = b.styles) : a = b := by
  cases a
  cases b
  simp_all

/-! ## `Object.assign` after `computeElementChanges` recovers the new element -/

theorem assignElement_changes (o n : UIElement)
    (hid : o.id = n.id) (hty : o.type = n.type) (hpar : o.parent = n.parent)
    (hz : o.zIndex = n.zIndex)
    (hattr : attributesEqual o.attributes n.attributes = true → o.attributes = n.attributes)
    (hsty : stylesEqual o.styles n.styles = true → o.styles = n.styles) :
    assignElement o (computeElementChanges o n) = n := by
  have htext : (assignElement o (computeElementChanges o n)).text = n.text := by
    by_cases hx : o.text = n.text
    · simp [assignElement, computeElementChanges, hx]
    · simp [assignElement, computeElementChanges, bne_iff_ne, hx]
  have hattr2 : (assignElement o (computeElementChanges o n)).attributes = n.attributes := by
    cases hb : attributesEqual o.attributes n.attributes with
    | false => simp [assignElement, computeElementChanges, hb]
    | true =>
      have hgoal : (assignElement o (computeElementChanges o n)).attributes = o.attributes := by
        simp [assignElement, computeElementChanges, hb]
      rw [hgoal]
      exact hattr hb
  have hbounds : (assignElement o (computeElementChanges o n)).bounds = n.bounds := by
    cases hb : boundsEqual (some o.bounds) (some n.bounds) with
    | false => simp [assignElement, computeElementChanges, hb]
    | true =>
      have hgoal : (assignElement o (computeElementChanges o n)).bounds = o.bounds := by
        simp [assignElement, computeElementChanges, hb]
      rw [hgoal]
      exact eq_of_boundsEqual hb
  have hint : (assignElement o (computeElementChanges o n)).interactable = n.interactable := by
    by_cases hx : o.interactable = n.interactable
    · simp [assignElement, computeElementChanges, hx]
    · simp [assignElement, computeElementChanges, bne_iff_ne, hx]
  have hvis : (assignElement o (computeElementChanges o n)).visible = n.visible := by
    by_cases hx : o.visible = n.visible
    · simp [assignElement, computeElementChanges, hx]
    · simp [assignElement, computeElementChanges, bne_iff_ne, hx]
  have hchild : (assignElement o (computeElementChanges o n)).children = n.children := by
    cases hb : arraysEqual o.children n.children with
    | false => simp [assignElement, computeElementChanges, hb]
    | true =>
      have hgoal : (assignElement o (computeElementChanges o n)).children = o.children := by
        simp [assignElement, computeElementChanges, hb]
      rw [hgoal]
      exact eq_of_arraysEqual hb
  have hsty2 : (assignElement o (computeElementChanges o n)).styles = n.styles := by
    cases hb : stylesEqual o.styles n.styles with
    | false => simp [assignElement, computeElementChanges, hb]
    | true =>
      have hgoal : (assignElement o (computeElementChanges o n)).styles = o.styles := by
        simp [assignElement, computeElementChanges, hb]
      rw [hgoal]
      exact hsty hb
  exact uielement_ext hid hty htext hattr2 hbounds hint hvis hchild hpar hz hsty2

/-! ## An empty field-level patch forces structural equality -/

theorem eq_of_patchIsEmpty (o n : UIElement)
    (hpe : patchIsEmpty (computeElementChanges o n) = true)
    (hid : o.id = n.id) (hty : o.type = n.type) (hpar : o.parent = n.parent)
    (hz : o.zIndex = n.zIndex)
    (hattr : attributesEqual o.attributes n.attributes = true → o.attributes = n.attributes)
    (hsty : stylesEqual o.styles n.styles = true → o.styles = n.styles) : o = n := by
  unfold patchIsEmpty at hpe
  simp only [Bool.and_eq_true] at hpe
  obtain ⟨⟨⟨⟨⟨⟨⟨⟨⟨⟨hp1, hp2⟩, hp3⟩, hp4⟩, hp5⟩, hp6⟩, hp7⟩, hp8⟩, hp9⟩, hp10⟩, hp11⟩ := hpe
  have htext : o.text = n.text := eq_of_bne_eq_false (cond_some_isNone hp3)
  have hattr2 : o.attributes = n.attributes := by
    have hc := cond_some_isNone hp4
    have hq2 : attributesEqual o.attributes n.attributes = true := by
      cases hq : attributesEqual o.attributes n.attributes with
      | true => rfl
      | false =>
        rw [hq] at hc
        exact Bool.noConfusion hc
    exact hattr hq2
  have hbounds : o.bounds = n.bounds := by
    have hc := cond_some_isNone hp5
    have hq2 : boundsEqual (some o.bounds) (some n.bounds) = true := by
      cases hq : boundsEqual (some o.bounds) (some n.bounds) with
      | true => rfl
      | false =>
        rw [hq] at hc
        exact Bool.noConfusion hc
    exact eq_of_boundsEqual hq2
  have hint : o.interactable = n.interactable := eq_of_bne_eq_false (cond_some_isNone hp6)
  have hvis : o.visible = n.visible := eq_of_bne_eq_false (cond_some_isNone hp7)
  have hchild : o.children = n.children := by
    have hc := cond_some_isNone hp8
    have hq2 : arraysEqual o.children n.children = true := by
      cases hq : arraysEqual o.children n.children with
      | true => rfl
      | false =>
        rw [hq] at hc
        exact Bool.noConfusion hc
    exact eq_of_arraysEqual hq2
  have hsty2 : o.styles = n.styles := by
    have hc := cond_some_isNone hp11
    have hq2 : stylesEqual o.styles n.styles = true := by
      cases hq : stylesEqual o.styles n.styles with
      | true => rfl
      | false =>
        rw [hq] at hc
        exact Bool.noConfusion hc
    exact hsty hq2
  exact uielement_ext hid hty htext hattr2 hbounds hint hvis hchild hpar hz hsty2

/-! ## Per-id characterization of the two `diffScan` components -/

theorem diffScan_fst_get (oldE newE : List (String × UIElement))
    (hnd : nodupKeys newE) (id : String) :
    recGet (diffScan oldE newE).1 id =
      (match recGet newE id, recGet oldE id with
       | some nEl, none => some nEl
       | _, _ => none) := by
  unfold diffScan
  cases hn : recGet newE id with
  | none =>
    have h := diffScan_go_absent oldE newE ([], []) id hn
    rw [h.1]
    rfl
  | some nEl =>
    have h := (diffScan_go_present oldE newE id nEl hnd hn ([], [])).1
    rw [h]
    cases ho : recGet oldE id with
    | none => rfl
    | some oEl => rfl

theorem diffScan_snd_get (oldE newE : List (String × UIElement))
    (hnd : nodupKeys newE) (id : String) :
    recGet (diffScan oldE newE).2 id =
      (match recGet newE id, recGet oldE id with
       | some nEl, some oEl =>
         if (hashElement oEl != hashElement nEl) = true then
           if (!patchIsEmpty (computeElementChanges oEl nEl)) = true then
             some (computeElementChanges oEl nEl)
           else none
         else none
       | _, _ => none) := by
  unfold diffScan
  cases hn : recGet newE id with
  | none =>
    have h := diffScan_go_absent oldE newE ([], []) id hn
    rw [h.2]
    rfl
  | some nEl =>
    have h := (diffScan_go_present oldE newE id nEl hnd hn ([], [])).2
    rw [h]
    cases ho : recGet oldE id with
    | none => rfl
    | some oEl =>
      by_cases hh : (hashElement oEl != hashElement nEl) = true
      · by_cases hemp : (!patchIsEmpty (computeElementChanges oEl nEl)) = true
        · simp [hh, hemp]
        · simp [hh, hemp]
      · simp [hh]

theorem diffScan_go_nodup (oldE : List (String × UIElement))
    (l : List (String × UIElement)) :
    ∀ acc : List (String × UIElement) × List (String × ElementPatch),
    nodupKeys acc.1 → nodupKeys acc.2 →
    nodupKeys ((l.foldl
      (fun acc p =>
        match recGet oldE p.1 with
        | none => (recSet acc.1 p.1 p.2, acc.2)
        | some oldEl =>
          if hashElement oldEl != hashElement p.2 then
            let changes := computeElementChanges oldEl p.2
            if !patchIsEmpty changes then (acc.1, recSet acc.2 p.1 changes) else acc
          else acc) acc)).1 ∧
    nodupKeys ((l.foldl
      (fun acc p =>
        match recGet oldE p.1 with
        | none => (recSet acc.1 p.1 p.2, acc.2)
        | some oldEl =>
          if hashElement oldEl != hashElement p.2 then
            let changes := computeElementChanges oldEl p.2
            if !patchIsEmpty changes then (acc.1, recSet acc.2 p.1 changes) else acc
          else acc) acc)).2 := by
  induction l with
  | nil => intro acc h1 h2; exact ⟨h1, h2⟩
  | cons p rest ih =>
    intro acc h1 h2
    obtain ⟨k, nEl⟩ := p
    simp only [List.foldl_cons]
    cases hog : recGet oldE k with
    | none =>
      simp only [hog]
      exact ih _ (nodupKeys_recSet _ _ _ h1) h2
    | some oEl =>
      by_cases hh : (hashElement oEl != hashElement nEl) = true
      · by_cases hemp : (!patchIsEmpty (computeElementChanges oEl nEl)) = true
        · simp only [hog, if_pos hh, if_pos hemp]
          exact ih _ h1 (nodupKeys_recSet _ _ _ h2)
        · simp only [hog, if_pos hh, if_neg hemp]
          exact ih _ h1 h2
      · simp only [hog, if_neg hh]
        exact ih _ h1 h2

theorem diffScan_nodup (oldE newE : List (String × UIElement)) :
    nodupKeys (diffScan oldE newE).1 ∧ nodupKeys (diffScan oldE newE).2 :=
  diffScan_go_nodup oldE newE ([], []) List.nodup_nil List.nodup_nil

/-! ## The element record and focus/hover computed by `applyUpdate` -/

theorem BaseServer.applyUpdate_elements (state : UIState) (u : DifferentialUpdate) :
    (BaseServer.applyUpdate state u).elements =
      (u.removed.getD []).foldl (fun e id => recDelete e id)
        ((u.modified.getD []).foldl
          (fun e p =>
            match recGet e p.1 with
            | some el => recSet e p.1 (assignElement el p.2)
            | none => e)
          ((u.added.getD []).foldl (fun e p => recSet e p.1 p.2) state.elements)) := by
  obtain ⟨ts, ad, mo, rm, fo, hov, bv, vr⟩ := u
  cases ad <;> cases mo <;> cases rm <;> rfl

theorem BaseServer.applyUpdate_focus (state : UIState) (u : DifferentialUpdate) :
    (BaseServer.applyUpdate state u).focus =
      (match u.focus with
       | some f => orElseNone f
       | none => state.focus) := by
  obtain ⟨ts, ad, mo, rm, fo, hov, bv, vr⟩ := u
  cases fo <;> rfl

theorem BaseServer.applyUpdate_hover (state : UIState) (u : DifferentialUpdate) :
    (BaseServer.applyUpdate state u).hover =
      (match u.hover with
       | some f => orElseNone f
       | none => state.hover) := by
  obtain ⟨ts, ad, mo, rm, fo, hov, bv, vr⟩ := u
  cases hov <;> rfl

/-! ## The removed-id list of `computeDiff` -/

theorem removedIds_get_none (oldE newE : List (String × UIElement)) (id : String)
    (hmem : id ∈ removedIds oldE newE) : recGet newE id = none := by
  unfold removedIds at hmem
  rw [List.mem_map] at hmem
  obtain ⟨p, hp, hfst⟩ := hmem
  rw [List.mem_filter] at hp
  have hhas : (!recHas newE p.1) = true := hp.2
  subst hfst
  cases hq : recGet newE p.1 with
  | none => rfl
  | some v =>
    unfold recHas at hhas
    rw [hq] at hhas
    exact Bool.noConfusion hhas

theorem mem_removedIds (oldE newE : List (String × UIElement)) (id : String) (oEl : UIElement)
    (ho : recGet oldE id = some oEl) (hn : recGet newE id = none) :
    id ∈ removedIds oldE newE := by
  unfold removedIds
  rw [List.mem_map]
  refine ⟨(id, oEl), ?_, rfl⟩
  rw [List.mem_filter]
  refine ⟨mem_of_recGet_eq_some _ _ _ ho, ?_⟩
  show (!recHas newE id) = true
  unfold recHas
  rw [hn]
  rfl

/-! ## `x || undefined` on trusted inputs -/

theorem orElseNone_eq_self {o : Option String} (h : o ≠ some "") : orElseNone o = o := by
  cases o with
  | none => rfl
  | some s =>
    have hs : s ≠ "" := by
      intro hcontra
      rw [hcontra] at h
      exact h rfl
    simp [orElseNone, hs]

theorem orElseNone_ne_empty (o : Option String) : orElseNone o ≠ some "" := by
  cases o with
  | none => simp [orElseNone]
  | some s =>
    by_cases hs : s = "" <;> simp [orElseNone, hs]

/-! ## Modification entries with unknown ids are skipped -/

theorem foldl_modify_all_absent (mods : List (String × ElementPatch))
    (base : List (String × UIElement))
    (habs : ∀ p ∈ mods, recGet base p.1 = none) :
    mods.foldl
      (fun e p =>
        match recGet e p.1 with
        | some el => recSet e p.1 (assignElement el p.2)
        | none => e) base = base := by
  induction mods with
  | nil => rfl
  | cons q rest ih =>
    simp only [List.foldl_cons]
    rw [habs q (by simp)]
    exact ih (fun p hp => habs p (by simp [hp]))


/-! ## Claim C2 -/

/-- C2 (refuted as stated): the elements of `exStyleOld`/`exStyleNew` differ
in the diffed `styles` field, yet `computeDiff` emits no `modified` entry for
their id: the fingerprints collide (styles are not hashed) and the element is
declared unchanged on fingerprint equality alone, with no structural check. -/
theorem c2_diff_exactness_counterexample :
    stylesEqual exElemRed.styles exElemBlue.styles = false ∧
    modifiedLookup (computeDiff exStyleOld exStyleNew) ("a") = none := by
  constructor
  · decide
  · rw [computeDiff_modifiedLookup exStyleOld exStyleNew
      (by show (recKeys exStyleNew.elements).Nodup; decide) ("a")]
    have h1 : recGet exStyleNew.elements ("a") = some exElemBlue := by decide
    have h2 : recGet exStyleOld.elements ("a") = some exElemRed := by decide
    rw [h1, h2]
    show (if (hashElement exElemRed != hashElement exElemBlue) = true then
        if (!patchIsEmpty (computeElementChanges exElemRed exElemBlue)) = true then
          some (computeElementChanges exElemRed exElemBlue)
        else none
      else none) = none
    have hh : hashElement exElemRed = hashElement exElemBlue := rfl
    rw [bne_eq_false_of_eq hh]
    rfl

/-- C2 (amended): for an id present in both snapshots, a `modified` entry is
emitted exactly when the fingerprints differ and the field-level patch is
non-empty; when the fingerprints collide the element is declared unchanged
without any structural equality check. -/
theorem c2_diff_exactness_amended (old new : UIState) (hndn : nodupKeys new.elements)
    (id : String) (oEl nEl : UIElement)
    (ho : recGet old.elements id = some oEl) (hn : recGet new.elements id = some nEl) :
    modifiedLookup (computeDiff old new) id =
      (if (hashElement oEl != hashElement nEl) = true then
        if (!patchIsEmpty (computeElementChanges oEl nEl)) = true then
          some (computeElementChanges oEl nEl)
        else none
      else none) := by
  rw [computeDiff_modifiedLookup old new hndn id, hn, ho]

/-- Witness for amended C2 on the style-only change pair. -/
theorem c2_diff_exactness_amended_witness :
    nodupKeys exStyleNew.elements ∧
    recGet exStyleOld.elements ("a") = some exElemRed ∧
    recGet exStyleNew.elements ("a") = some exElemBlue ∧
    modifiedLookup (computeDiff exStyleOld exStyleNew) ("a") =
      (if (hashElement exElemRed != hashElement exElemBlue) = true then
        if (!patchIsEmpty (computeElementChanges exElemRed exElemBlue)) = true then
          some (computeElementChanges exElemRed exElemBlue)
        else none
      else none) :=
  ⟨by show (recKeys exStyleNew.elements).Nodup; decide, by decide, by decide,
    c2_diff_exactness_amended exStyleOld exStyleNew
      (by show (recKeys exStyleNew.elements).Nodup; decide) ("a") exElemRed exElemBlue
      (by decide) (by decide)⟩

/-! ## Claim C10 -/

/-- C10 (refuted as stated): the style maps of the two snapshots differ at the
key `color`, but the differ emits no `modified` entry at all for the element
(fingerprint collision), so no complete replacement map is propagated. -/
theorem c10_merge_semantics_counterexample :
    recGet (exElemRed.styles.getD []) ("color")
      ≠ recGet (exElemBlue.styles.getD []) ("color") ∧
    modifiedLookup (computeDiff exStyleOld exStyleNew) ("a") = none := by
  constructor
  · decide
  · rw [computeDiff_modifiedLookup exStyleOld exStyleNew
      (by show (recKeys exStyleNew.elements).Nodup; decide) ("a")]
    have h1 : recGet exStyleNew.elements ("a") = some exElemBlue := by decide
    have h2 : recGet exStyleOld.elements ("a") = some exElemRed := by decide
    rw [h1, h2]
    show (if (hashElement exElemRed != hashElement exElemBlue) = true then
        if (!patchIsEmpty (computeElementChanges exElemRed exElemBlue)) = true then
          some (computeElementChanges exElemRed exElemBlue)
        else none
      else none) = none
    have hh : hashElement exElemRed = hashElement exElemBlue := rfl
    rw [bne_eq_false_of_eq hh]
    rfl

/-- C10 (amended): when a patch carries an attributes/styles map it replaces
the base element's whole map (no per-key merge); when the differ does emit a
patch with a changed attributes/styles map it carries the complete new map;
and `modified` entries whose id is absent from the base are silently
ignored. -/
theorem c10_merge_semantics_amended :
    (∀ (el : UIElement) (ch : ElementPatch) (a : Option AttrMap),
      ch.attributes = some a → (assignElement el ch).attributes = a) ∧
    (∀ (el : UIElement) (ch : ElementPatch) (st : Option AttrMap),
      ch.styles = some st → (assignElement el ch).styles = st) ∧
    (∀ o n : UIElement, attributesEqual o.attributes n.attributes = false →
      (computeElementChanges o n).attributes = some n.attributes) ∧
    (∀ o n : UIElement, stylesEqual o.styles n.styles = false →
      (computeElementChanges o n).styles = some n.styles) ∧
    (∀ (state : UIState) (u : DifferentialUpdate) (mods : List (String × ElementPatch)),
      u.added = none → u.removed = none → u.modified = some mods →
      (∀ p ∈ mods, recGet state.elements p.1 = none) →
      (BaseServer.applyUpdate state u).elements = state.elements) := by
  refine ⟨?_, ?_, ?_, ?_, ?_⟩
  · intro el ch a h
    show (match ch.attributes with
          | some x => x
          | none => el.attributes) = a
    rw [h]
  · intro el ch st h
    show (match ch.styles with
          | some x => x
          | none => el.styles) = st
    rw [h]
  · intro o n h
    show (if (!attributesEqual o.attributes n.attributes) = true
        then some n.attributes else none) = some n.attributes
    rw [h]
    rfl
  · intro o n h
    show (if (!stylesEqual o.styles n.styles) = true
        then some n.styles else none) = some n.styles
    rw [h]
    rfl
  · intro state u mods hadd hrem hmod habs
    rw [BaseServer.applyUpdate_elements, hadd, hrem, hmod]
    simp only [Option.getD_none, Option.getD_some, List.foldl_nil]
    exact foldl_modify_all_absent mods state.elements habs

/-- Witness for amended C10 on concrete patches and an unknown-id update. -/
theorem c10_merge_semantics_amended_witness :
    (assignElement exElem0 exPatchStyles).attributes = some [("k", "v")] ∧
    (assignElement exElem0 exPatchStyles).styles = some [("color", "blue")] ∧
    (computeElementChanges exElemAttrAa exElemAttrBB).attributes
      = some (some [("k", "BB")]) ∧
    (computeElementChanges exElemRed exElemBlue).styles
      = some (some [("color", "blue")]) ∧
    (BaseServer.applyUpdate exStyleOld exUpdateModOnly).elements
      = exStyleOld.elements := by
  obtain ⟨h1, h2, h3, h4, h5⟩ := c10_merge_semantics_amended
  exact ⟨h1 exElem0 exPatchStyles (some [("k", "v")]) rfl,
    h2 exElem0 exPatchStyles (some [("color", "blue")]) rfl,
    h3 exElemAttrAa exElemAttrBB (by decide),
    h4 exElemRed exElemBlue (by decide),
    h5 exStyleOld exUpdateModOnly [("ghost", exPatchStyles)] rfl rfl rfl (by decide)⟩


theorem computeDiff_added_getD (old new : UIState) :
    (computeDiff old new).added.getD [] = (diffScan old.elements new.elements).1 :=
  optListGetD _

theorem computeDiff_modified_getD (old new : UIState) :
    (computeDiff old new).modified.getD [] = (diffScan old.elements new.elements).2 :=
  optListGetD _

theorem computeDiff_removed_getD (old new : UIState) :
    (computeDiff old new).removed.getD [] = removedIds old.elements new.elements :=
  optListGetD _

/-! ## Claim C1 -/

/-- C1 (refuted as stated): on the dangling-reference-free pair
`exStyleOld`/`exStyleNew` the round trip fails: the style change is invisible
to the fingerprint, the diff is empty on elements, and applying it to the old
snapshot cannot reproduce the new one. -/
theorem c1_round_trip_counterexample :
    BaseServer.applyUpdate exStyleOld (computeDiff exStyleOld exStyleNew) ≠ exStyleNew := by
  intro hcontra
  have h1 : recGet exStyleNew.elements ("a") = some exElemBlue := by decide
  have h2 : recGet exStyleOld.elements ("a") = some exElemRed := by decide
  have hndn : nodupKeys exStyleNew.elements := by
    show (recKeys exStyleNew.elements).Nodup
    decide
  have hel : recGet (BaseServer.applyUpdate exStyleOld
      (computeDiff exStyleOld exStyleNew)).elements ("a") = some exElemBlue := by
    rw [hcontra]
    exact h1
  have hA : recGet (diffScan exStyleOld.elements exStyleNew.elements).1 ("a") = none := by
    rw [diffScan_fst_get exStyleOld.elements exStyleNew.elements hndn ("a"), h1, h2]
  have hM : recGet (diffScan exStyleOld.elements exStyleNew.elements).2 ("a") = none := by
    rw [diffScan_snd_get exStyleOld.elements exStyleNew.elements hndn ("a"), h1, h2]
    show (if (hashElement exElemRed != hashElement exElemBlue) = true then
        if (!patchIsEmpty (computeElementChanges exElemRed exElemBlue)) = true then
          some (computeElementChanges exElemRed exElemBlue)
        else none
      else none) = none
    have hh : hashElement exElemRed = hashElement exElemBlue := rfl
    rw [bne_eq_false_of_eq hh]
    rfl
  have hactual : recGet (BaseServer.applyUpdate exStyleOld
      (computeDiff exStyleOld exStyleNew)).elements ("a") = some exElemRed := by
    rw [BaseServer.applyUpdate_elements, computeDiff_added_getD,
      computeDiff_modified_getD, computeDiff_removed_getD]
    have hrem : removedIds exStyleOld.elements exStyleNew.elements = [] := by decide
    rw [hrem]
    simp only [List.foldl_nil]
    rw [foldl_modify_get_absent _ _ _ hM,
      foldl_recSet_get _ _ _ (diffScan_nodup exStyleOld.elements exStyleNew.elements).1, hA]
    exact h2
  rw [hactual] at hel
  exact absurd hel (by decide)

/-- C1 (amended): for compatible snapshot pairs — unique keys, no falsy
focus/hover in the target, elements never disagreeing on the non-diffed
fields, fingerprints colliding only on equal elements, and attribute/style
maps observationally equal only when listed identically — the round trip
reproduces the new snapshot's element map, focus, hover, version and
timestamp. -/
theorem c1_round_trip_amended (old new : UIState) (h : roundTripCompatible old new) :
    (∀ id, recGet (BaseServer.applyUpdate old (computeDiff old new)).elements id
        = recGet new.elements id) ∧
    (BaseServer.applyUpdate old (computeDiff old new)).focus = new.focus ∧
    (BaseServer.applyUpdate old (computeDiff old new)).hover = new.hover ∧
    (BaseServer.applyUpdate old (computeDiff old new)).version = new.version ∧
    (BaseServer.applyUpdate old (computeDiff old new)).timestamp = new.timestamp := by
  obtain ⟨hndo, hndn, hfoc, hhov, hcomp⟩ := h
  refine ⟨?_, ?_, ?_, rfl, rfl⟩
  · intro id
    rw [BaseServer.applyUpdate_elements, computeDiff_added_getD,
      computeDiff_modified_getD, computeDiff_removed_getD]
    have hnd1 := (diffScan_nodup old.elements new.elements).1
    have hnd2 := (diffScan_nodup old.elements new.elements).2
    cases hn : recGet new.elements id with
    | some nEl =>
      have hnr : id ∉ removedIds old.elements new.elements := by
        intro hmem
        have := removedIds_get_none old.elements new.elements id hmem
        rw [this] at hn
        exact Option.noConfusion hn
      rw [foldl_recDelete_absent _ _ _ hnr]
      cases ho : recGet old.elements id with
      | none =>
        have hM : recGet (diffScan old.elements new.elements).2 id = none := by
          rw [diffScan_snd_get old.elements new.elements hndn id, hn, ho]
        have hA : recGet (diffScan old.elements new.elements).1 id = some nEl := by
          rw [diffScan_fst_get old.elements new.elements hndn id, hn, ho]
        rw [foldl_modify_get_absent _ _ _ hM, foldl_recSet_get _ _ _ hnd1, hA]
      | some oEl =>
        have hA : recGet (diffScan old.elements new.elements).1 id = none := by
          rw [diffScan_fst_get old.elements new.elements hndn id, hn, ho]
        have hbase1 : recGet ((diffScan old.elements new.elements).1.foldl
            (fun e p => recSet e p.1 p.2) old.elements) id = some oEl := by
          rw [foldl_recSet_get _ _ _ hnd1, hA]
          exact ho
        obtain ⟨⟨hid, hty, hpar, hz⟩, hhash, hattr, hsty⟩ :=
          hcomp (id, oEl) (mem_of_recGet_eq_some _ _ _ ho) (id, nEl)
            (mem_of_recGet_eq_some _ _ _ hn) rfl
        by_cases hh : hashElement oEl = hashElement nEl
        · have heq : oEl = nEl := hhash hh
          have hM : recGet (diffScan old.elements new.elements).2 id = none := by
            rw [diffScan_snd_get old.elements new.elements hndn id, hn, ho]
            show (if (hashElement oEl != hashElement nEl) = true then
                if (!patchIsEmpty (computeElementChanges oEl nEl)) = true then
                  some (computeElementChanges oEl nEl)
                else none
              else none) = none
            rw [bne_eq_false_of_eq hh]
            rfl
          rw [foldl_modify_get_absent _ _ _ hM, hbase1, heq]
        · by_cases hpe : patchIsEmpty (computeElementChanges oEl nEl) = true
          · have heq : oEl = nEl :=
              eq_of_patchIsEmpty oEl nEl hpe hid hty hpar hz hattr hsty
            have hM : recGet (diffScan old.elements new.elements).2 id = none := by
              rw [diffScan_snd_get old.elements new.elements hndn id, hn, ho]
              show (if (hashElement oEl != hashElement nEl) = true then
                  if (!patchIsEmpty (computeElementChanges oEl nEl)) = true then
                    some (computeElementChanges oEl nEl)
                  else none
                else none) = none
              rw [hpe]
              simp
            rw [foldl_modify_get_absent _ _ _ hM, hbase1, heq]
          · have hpe2 : patchIsEmpty (computeElementChanges oEl nEl) = false := by
              cases hq : patchIsEmpty (computeElementChanges oEl nEl) with
              | false => rfl
              | true => exact absurd hq hpe
            have hM : recGet (diffScan old.elements new.elements).2 id
                = some (computeElementChanges oEl nEl) := by
              rw [diffScan_snd_get old.elements new.elements hndn id, hn, ho]
              show (if (hashElement oEl != hashElement nEl) = true then
                  if (!patchIsEmpty (computeElementChanges oEl nEl)) = true then
                    some (computeElementChanges oEl nEl)
                  else none
                else none) = some (computeElementChanges oEl nEl)
              rw [bne_iff_ne.mpr hh, hpe2]
              rfl
            rw [foldl_modify_get_present _ _ _ _ hnd2 hM, hbase1]
            show some (assignElement oEl (computeElementChanges oEl nEl)) = some nEl
            exact congrArg some (assignElement_changes oEl nEl hid hty hpar hz hattr hsty)
    | none =>
      have hA : recGet (diffScan old.elements new.elements).1 id = none := by
        rw [diffScan_fst_get old.elements new.elements hndn id, hn]
      have hM : recGet (diffScan old.elements new.elements).2 id = none := by
        rw [diffScan_snd_get old.elements new.elements hndn id, hn]
      cases ho : recGet old.elements id with
      | none =>
        have hbase2 : recGet ((diffScan old.elements new.elements).2.foldl
            (fun e p =>
              match recGet e p.1 with
              | some el => recSet e p.1 (assignElement el p.2)
              | none => e)
            ((diffScan old.elements new.elements).1.foldl
              (fun e p => recSet e p.1 p.2) old.elements)) id = none := by
          rw [foldl_modify_get_absent _ _ _ hM, foldl_recSet_get _ _ _ hnd1, hA]
          exact ho
        rw [foldl_recDelete_none _ _ _ hbase2]
      | some oEl =>
        have hmem : id ∈ removedIds old.elements new.elements :=
          mem_removedIds _ _ _ _ ho hn
        have hndmid : nodupKeys ((diffScan old.elements new.elements).2.foldl
            (fun e p =>
              match recGet e p.1 with
              | some el => recSet e p.1 (assignElement el p.2)
              | none => e)
            ((diffScan old.elements new.elements).1.foldl
              (fun e p => recSet e p.1 p.2) old.elements)) :=
          nodupKeys_foldl_modify _ _ (nodupKeys_foldl_recSet _ _ hndo)
        rw [foldl_recDelete_mem _ _ _ hndmid hmem]
  · rw [BaseServer.applyUpdate_focus]
    by_cases hf : old.focus = new.focus
    · have hcd : (computeDiff old new).focus = none := by
        show (if (old.focus != new.focus) = true
            then some (orElseNone new.focus) else none) = none
        rw [bne_eq_false_of_eq hf]
        rfl
      rw [hcd]
      exact hf
    · have hcd : (computeDiff old new).focus = some (orElseNone new.focus) := by
        show (if (old.focus != new.focus) = true
            then some (orElseNone new.focus) else none) = some (orElseNone new.focus)
        rw [bne_iff_ne.mpr hf]
        rfl
      rw [hcd]
      show orElseNone (orElseNone new.focus) = new.focus
      rw [orElseNone_eq_self (orElseNone_ne_empty new.focus), orElseNone_eq_self hfoc]
  · rw [BaseServer.applyUpdate_hover]
    by_cases hf : old.hover = new.hover
    · have hcd : (computeDiff old new).hover = none := by
        show (if (old.hover != new.hover) = true
            then some (orElseNone new.hover) else none) = none
        rw [bne_eq_false_of_eq hf]
        rfl
      rw [hcd]
      exact hf
    · have hcd : (computeDiff old new).hover = some (orElseNone new.hover) := by
        show (if (old.hover != new.hover) = true
            then some (orElseNone new.hover) else none) = some (orElseNone new.hover)
        rw [bne_iff_ne.mpr hf]
        rfl
      rw [hcd]
      show orElseNone (orElseNone new.hover) = new.hover
      rw [orElseNone_eq_self (orElseNone_ne_empty new.hover), orElseNone_eq_self hhov]

/-- Witness for amended C1 on the scenario where a button survives untouched
and a label is added. -/
theorem c1_round_trip_amended_witness :
    roundTripCompatible exScenarioA exScenarioC ∧
    ((∀ id, recGet (BaseServer.applyUpdate exScenarioA
        (computeDiff exScenarioA exScenarioC)).elements id
        = recGet exScenarioC.elements id) ∧
     (BaseServer.applyUpdate exScenarioA (computeDiff exScenarioA exScenarioC)).focus
        = exScenarioC.focus ∧
     (BaseServer.applyUpdate exScenarioA (computeDiff exScenarioA exScenarioC)).hover
        = exScenarioC.hover ∧
     (BaseServer.applyUpdate exScenarioA (computeDiff exScenarioA exScenarioC)).version
        = exScenarioC.version ∧
     (BaseServer.applyUpdate exScenarioA (computeDiff exScenarioA exScenarioC)).timestamp
        = exScenarioC.timestamp) := by
  have hcompat : roundTripCompatible exScenarioA exScenarioC := by
    refine ⟨?_, ?_, ?_, ?_, ?_⟩
    · show (recKeys exScenarioA.elements).Nodup
      decide
    · show (recKeys exScenarioC.elements).Nodup
      decide
    · decide
    · decide
    · intro p hp q hq hpq
      have hp2 : p = ("btn", exBtnGo) := List.mem_singleton.mp hp
      subst hp2
      rcases List.mem_cons.mp hq with hq1 | hq2
      · subst hq1
        exact ⟨⟨rfl, rfl, rfl, rfl⟩, fun _ => rfl, fun _ => rfl, fun _ => rfl⟩
      · have hq3 : q = ("label", exLabel) := List.mem_singleton.mp hq2
        subst hq3
        exact absurd hpq (by decide)
  exact ⟨hcompat, c1_round_trip_amended exScenarioA exScenarioC hcompat⟩


/-! ## Membership lemmas for the filtering pipeline -/

theorem mem_foldl_recSet_scored (l : List Scored) (acc : List (String × SElement))
    (q : String × SElement)
    (hq : q ∈ l.foldl (fun acc s => recSet acc s.id s.element) acc) :
    q ∈ acc ∨ ∃ s ∈ l, q = (s.id, s.element) := by
  induction l generalizing acc with
  | nil => exact Or.inl hq
  | cons s rest ih =>
    simp only [List.foldl_cons] at hq
    rcases ih _ hq with h | ⟨t, ht, hteq⟩
    · rcases mem_recSet _ _ _ _ h with h2 | h2
      · exact Or.inl h2
      · exact Or.inr ⟨s, by simp, h2⟩
    · exact Or.inr ⟨t, by simp [ht], hteq⟩

theorem insertBy_perm {α : Type} (cmp : α → α → Int) (x : α) (l : List α) :
    List.Perm (insertBy cmp x l) (x :: l) := by
  induction l with
  | nil => exact List.Perm.refl _
  | cons y ys ih =>
    unfold insertBy
    by_cases hc : cmp x y ≤ 0
    · rw [if_pos hc]
    · rw [if_neg hc]
      exact (ih.cons y).trans (List.Perm.swap x y ys)

theorem sortBy_perm {α : Type} (cmp : α → α → Int) (l : List α) :
    List.Perm (sortBy cmp l) l := by
  induction l with
  | nil => exact List.Perm.nil
  | cons x xs ih => exact (insertBy_perm cmp x (sortBy cmp xs)).trans (ih.cons x)

theorem mem_sortBy {α : Type} (cmp : α → α → Int) (l : List α) (a : α)
    (h : a ∈ sortBy cmp l) : a ∈ l := (sortBy_perm cmp l).subset h

theorem mem_limited_opt (m : Option Nat) (sorted : List Scored) (s : Scored)
    (h : s ∈ (match m with
      | some mm => if mm ≠ 0 && sorted.length > mm then sorted.take mm else sorted
      | none => sorted)) : s ∈ sorted := by
  cases m with
  | none => exact h
  | some mm =>
    have h2 : s ∈ (if mm ≠ 0 && sorted.length > mm then sorted.take mm else sorted) := h
    by_cases hc : (mm ≠ 0 && sorted.length > mm) = true
    · rw [if_pos hc] at h2
      exact List.take_subset _ _ h2
    · rw [if_neg hc] at h2
      exact h2

theorem mem_includeFilter (inc : Option (List String)) (l : List Scored) (s : Scored)
    (h : s ∈ (match inc with
      | some iTs =>
        if iTs.length > 0 then
          l.filter (fun q : Scored => (match q.element.type with
            | some t => iTs.contains t
            | none => false))
        else l
      | none => l)) : s ∈ l := by
  cases inc with
  | none => exact h
  | some iTs =>
    have h2 : s ∈ (if iTs.length > 0 then
        l.filter (fun q : Scored => (match q.element.type with
          | some t => iTs.contains t
          | none => false))
      else l) := h
    by_cases hc : iTs.length > 0
    · rw [if_pos hc] at h2
      exact List.filter_subset' l h2
    · rw [if_neg hc] at h2
      exact h2

theorem mem_excludeFilter (ex : Option (List String)) (l : List Scored) (s : Scored)
    (h : s ∈ (match ex with
      | some eTs =>
        if eTs.length > 0 then
          l.filter (fun q : Scored => !(match q.element.type with
            | some t => eTs.contains t
            | none => false))
        else l
      | none => l)) : s ∈ l := by
  cases ex with
  | none => exact h
  | some eTs =>
    have h2 : s ∈ (if eTs.length > 0 then
        l.filter (fun q : Scored => !(match q.element.type with
          | some t => eTs.contains t
          | none => false))
      else l) := h
    by_cases hc : eTs.length > 0
    · rw [if_pos hc] at h2
      exact List.filter_subset' l h2
    · rw [if_neg hc] at h2
      exact h2

/-! ## Claim C5 -/

/-- C5 (refuted as stated): under a one-element budget the interactable
parent survives filtering with its `children` array still naming the pruned
child `c`, which is absent from the output — the dangling reference is left
in place. -/
theorem c5_referential_integrity_counterexample :
    recGet (filterElements exSState exFilterOpts).elements ("p") = some exSParent ∧
    exSParent.children = some ["c"] ∧
    recGet (filterElements exSState exFilterOpts).elements ("c") = none := by
  refine ⟨by decide, rfl, by decide⟩

/-- C5 (amended): filtering only selects whole entries of its input — every
element of the output record is an entry of the input record, carried
verbatim.  In particular `children` arrays are never rewritten, so references
to pruned elements remain dangling rather than being removed. -/
theorem c5_referential_integrity_amended (state : SState) (opts : FilterOptions)
    (q : String × SElement) (hq : q ∈ (filterElements state opts).elements) :
    q ∈ state.elements := by
  rcases mem_foldl_recSet_scored _ [] q hq with h | ⟨s, hs, hqeq⟩
  · exact absurd h (List.not_mem_nil q)
  · subst hqeq
    have hs1 := mem_limited_opt opts.maxElements _ s hs
    have hs2 := mem_sortBy _ _ s hs1
    have hs3 := mem_includeFilter opts.includeTypes _ s hs2
    have hs4 := mem_excludeFilter opts.excludeTypes _ s hs3
    rw [List.mem_map] at hs4
    obtain ⟨p, hp, hps⟩ := hs4
    have hpq : (s.id, s.element) = p := by
      rw [← hps]
    rw [hpq]
    exact hp

/-- Witness for amended C5: the surviving parent entry of the concrete
filtering counterexample is an entry of the input. -/
theorem c5_referential_integrity_amended_witness :
    (("p", exSParent) ∈ (filterElements exSState exFilterOpts).elements) ∧
    ("p", exSParent) ∈ exSState.elements :=
  ⟨by decide, c5_referential_integrity_amended exSState exFilterOpts ("p", exSParent)
    (by decide)⟩


/-! ## Measures of braced and joined serializations -/

theorem braced_length (x : String) : ((obrace ++ x) ++ cbrace).length = x.length + 2 := by
  rw [String.length_append, String.length_append]
  show 1 + x.length + 1 = x.length + 2
  omega

theorem wsRuns_obrace_prefix (x : String) : wsRuns (obrace ++ x) = wsRuns x := by
  unfold wsRuns
  rw [String.data_append]
  show wsGo false (Char.ofNat 123 :: x.data) = wsGo false x.data
  simp [wsGo, isWs]

theorem braced_ws (x : String) : wsRuns ((obrace ++ x) ++ cbrace) = wsRuns x := by
  rw [wsRuns_append _ cbrace (by rfl), wsRuns_obrace_prefix]
  have h : wsRuns cbrace = 0 := rfl
  rw [h]
  omega

theorem headNonWs_sElementStr (e : SElement) : headNonWs (sElementStr e) = true :=
  headNonWs_append _ _ (headNonWs_append _ _ (by rfl))

theorem sElemsEntryStr_headed (p : String × SElement) :
    headNonWs (sElemsEntryStr p) = true :=
  headNonWs_append _ _ (headNonWs_append _ _ (headNonWs_qstr _))

theorem headed_of_optMap {α : Type} (o : Option α) (f : α → String) (s : String)
    (hf : ∀ v, headNonWs (f v) = true) (h : some s = o.map f) : headNonWs s = true := by
  cases o with
  | none => exact Option.noConfusion h
  | some v =>
    have hs : s = f v := by
      have h2 : f v = s := by simpa using h.symm
      exact h2.symm
    rw [hs]
    exact hf v

theorem sElementEntryStrs_headed (e : SElement) :
    ∀ s ∈ sElementEntryStrs e, headNonWs s = true := by
  intro s hs
  unfold sElementEntryStrs at hs
  rw [List.reduceOption_mem_iff] at hs
  simp only [List.mem_cons, List.not_mem_nil, or_false] at hs
  rcases hs with h | h | h | h | h | h | h | h | h | h | h <;>
    exact headed_of_optMap _ _ _ (fun v => headNonWs_append _ _ (by rfl)) h

theorem strShrink_reduceOption (l' l : List (Option String))
    (h : List.Forall₂ (fun a b => a = none ∨ a = b) l' l) :
    StrShrink l'.reduceOption l.reduceOption := by
  induction h with
  | nil => exact .nil
  | @cons a b t' t hab htail ih =>
    rcases hab with ha | hab2
    · subst ha
      rw [List.reduceOption_cons_of_none]
      cases b with
      | none =>
        rw [List.reduceOption_cons_of_none]
        exact ih
      | some s =>
        rw [List.reduceOption_cons_of_some]
        exact .skip ih
    · subst hab2
      cases a with
      | none =>
        rw [List.reduceOption_cons_of_none, List.reduceOption_cons_of_none]
        exact ih
      | some s =>
        rw [List.reduceOption_cons_of_some, List.reduceOption_cons_of_some]
        exact .cons le_rfl le_rfl ih

theorem joinComma_length_mono (l' l : List String)
    (hsum : (l'.map (fun s => s.length + 1)).sum ≤ (l.map (fun s => s.length + 1)).sum)
    (himp : l' ≠ [] → l ≠ []) :
    (joinComma l').length ≤ (joinComma l).length := by
  cases l' with
  | nil => exact Nat.zero_le _
  | cons s t =>
    have hl : l ≠ [] := himp (by simp)
    have e1 := joinComma_length (s :: t) (by simp)
    have e2 := joinComma_length l hl
    omega

theorem joinComma_ws_mono (l' l : List String)
    (hsum : (l'.map wsRuns).sum ≤ (l.map wsRuns).sum)
    (hh' : ∀ s ∈ l', headNonWs s = true) (hh : ∀ s ∈ l, headNonWs s = true) :
    wsRuns (joinComma l') ≤ wsRuns (joinComma l) := by
  rw [joinComma_ws l' hh', joinComma_ws l hh]
  exact hsum

/-! ## Serialized-element measures shrink along `StrShrink` -/

theorem sElementStr_mono (e' e : SElement)
    (h : StrShrink (sElementEntryStrs e') (sElementEntryStrs e)) :
    (sElementStr e').length ≤ (sElementStr e).length ∧
    wsRuns (sElementStr e') ≤ wsRuns (sElementStr e) := by
  constructor
  · have e1 : (sElementStr e').length
        = (joinComma (sElementEntryStrs e')).length + 2 := braced_length _
    have e2 : (sElementStr e).length
        = (joinComma (sElementEntryStrs e)).length + 2 := braced_length _
    rw [e1, e2]
    have := joinComma_length_mono _ _ h.lenF_le h.ne_nil
    omega
  · have w1 : wsRuns (sElementStr e')
        = wsRuns (joinComma (sElementEntryStrs e')) := braced_ws _
    have w2 : wsRuns (sElementStr e)
        = wsRuns (joinComma (sElementEntryStrs e)) := braced_ws _
    rw [w1, w2]
    exact joinComma_ws_mono _ _ h.ws_le (sElementEntryStrs_headed e') (sElementEntryStrs_headed e)

theorem entry_shrink_simplified (id : String) (element : SElement)
    (hint : optTruthy element.interactable = true) :
    (sElemsEntryStr (id, simplifiedOf element)).length
      ≤ (sElemsEntryStr (id, element)).length ∧
    wsRuns (sElemsEntryStr (id, simplifiedOf element))
      ≤ wsRuns (sElemsEntryStr (id, element)) := by
  have hi : element.interactable = some true := by
    cases hq : element.interactable with
    | none =>
      rw [hq] at hint
      exact Bool.noConfusion hint
    | some b =>
      cases b with
      | true => rfl
      | false =>
        rw [hq] at hint
        exact Bool.noConfusion hint
  have hshr : StrShrink (sElementEntryStrs (simplifiedOf element))
      (sElementEntryStrs element) := by
    refine strShrink_reduceOption _ _ ?_
    rw [hi]
    refine List.Forall₂.cons (Or.inr rfl) ?_
    refine List.Forall₂.cons (Or.inr rfl) ?_
    refine List.Forall₂.cons (Or.inr rfl) ?_
    refine List.Forall₂.cons (Or.inl rfl) ?_
    refine List.Forall₂.cons (Or.inl rfl) ?_
    refine List.Forall₂.cons (Or.inr rfl) ?_
    refine List.Forall₂.cons (Or.inl rfl) ?_
    refine List.Forall₂.cons (Or.inl rfl) ?_
    refine List.Forall₂.cons (Or.inl rfl) ?_
    refine List.Forall₂.cons (Or.inl rfl) ?_
    exact List.Forall₂.cons (Or.inl rfl) List.Forall₂.nil
  have hmono := sElementStr_mono _ _ hshr
  constructor
  · have l1 : (sElemsEntryStr (id, simplifiedOf element)).length
        = (qstr id ++ ":").length + (sElementStr (simplifiedOf element)).length := by
      show ((qstr id ++ ":") ++ sElementStr (simplifiedOf element)).length = _
      rw [String.length_append]
    have l2 : (sElemsEntryStr (id, element)).length
        = (qstr id ++ ":").length + (sElementStr element).length := by
      show ((qstr id ++ ":") ++ sElementStr element).length = _
      rw [String.length_append]
    rw [l1, l2]
    have := hmono.1
    omega
  · have w1 : wsRuns (sElemsEntryStr (id, simplifiedOf element))
        = wsRuns (qstr id ++ ":") + wsRuns (sElementStr (simplifiedOf element)) := by
      show wsRuns ((qstr id ++ ":") ++ sElementStr (simplifiedOf element)) = _
      exact wsRuns_append _ _ (headNonWs_sElementStr _)
    have w2 : wsRuns (sElemsEntryStr (id, element))
        = wsRuns (qstr id ++ ":") + wsRuns (sElementStr element) := by
      show wsRuns ((qstr id ++ ":") ++ sElementStr element) = _
      exact wsRuns_append _ _ (headNonWs_sElementStr _)
    rw [w1, w2]
    have := hmono.2
    omega


theorem headNonWs_sElemsStr (l : List (String × SElement)) :
    headNonWs (sElemsStr l) = true :=
  headNonWs_append _ _ (headNonWs_append _ _ (by rfl))

theorem sElemsStr_len_mono (l₁ l₂ : List (String × SElement))
    (hsum : (l₁.map (fun p => (sElemsEntryStr p).length + 1)).sum
        ≤ (l₂.map (fun p => (sElemsEntryStr p).length + 1)).sum) :
    (sElemsStr l₁).length ≤ (sElemsStr l₂).length := by
  cases l₁ with
  | nil =>
    have e1 : (sElemsStr ([] : List (String × SElement))).length = 2 := rfl
    have e2 : (sElemsStr l₂).length
        = (joinComma (l₂.map sElemsEntryStr)).length + 2 := braced_length _
    rw [e1, e2]
    omega
  | cons p t =>
    have hl₂ : l₂ ≠ [] := by
      intro hnil
      subst hnil
      simp only [List.map_cons, List.sum_cons, List.map_nil, List.sum_nil] at hsum
      omega
    have e1 : (sElemsStr (p :: t)).length
        = (joinComma ((p :: t).map sElemsEntryStr)).length + 2 := braced_length _
    have e2 : (sElemsStr l₂).length
        = (joinComma (l₂.map sElemsEntryStr)).length + 2 := braced_length _
    rw [e1, e2]
    have hj := joinComma_length_mono ((p :: t).map sElemsEntryStr) (l₂.map sElemsEntryStr)
      (by
        rw [List.map_map, List.map_map]
        exact hsum)
      (by
        intro _
        intro hc
        exact hl₂ (List.map_eq_nil_iff.mp hc))
    omega

theorem sElemsStr_ws_mono (l₁ l₂ : List (String × SElement))
    (hsum : (l₁.map (fun p => wsRuns (sElemsEntryStr p))).sum
        ≤ (l₂.map (fun p => wsRuns (sElemsEntryStr p))).sum) :
    wsRuns (sElemsStr l₁) ≤ wsRuns (sElemsStr l₂) := by
  have w1 : wsRuns (sElemsStr l₁)
      = wsRuns (joinComma (l₁.map sElemsEntryStr)) := braced_ws _
  have w2 : wsRuns (sElemsStr l₂)
      = wsRuns (joinComma (l₂.map sElemsEntryStr)) := braced_ws _
  rw [w1, w2]
  apply joinComma_ws_mono
  · rw [List.map_map, List.map_map]
    exact hsum
  · intro s hs
    rw [List.mem_map] at hs
    obtain ⟨p, hp, hps⟩ := hs
    rw [← hps]
    exact sElemsEntryStr_headed p
  · intro s hs
    rw [List.mem_map] at hs
    obtain ⟨p, hp, hps⟩ := hs
    rw [← hps]
    exact sElemsEntryStr_headed p

/-! ## The state serialization around the elements record -/

theorem sStateEntryStrs_decomp (c : SState) :
    sStateEntryStrs c
      = statePreStrs c ++ (("\"elements\":" ++ sElemsStr c.elements) :: statePostStrs c) := by
  obtain ⟨pf, ap, ti, u, vp, el, fo, hv⟩ := c
  cases u <;> cases fo <;> cases hv <;>
    simp [sStateEntryStrs, statePreStrs, statePostStrs]

theorem statePreStrs_headed (c : SState) :
    ∀ s ∈ statePreStrs c, headNonWs s = true := by
  intro s hs
  unfold statePreStrs at hs
  cases hu : c.url with
  | none =>
    rw [hu] at hs
    simp at hs
    rcases hs with rfl | rfl | rfl | rfl <;> exact headNonWs_append _ _ (by rfl)
  | some u =>
    rw [hu] at hs
    simp at hs
    rcases hs with rfl | rfl | rfl | rfl | rfl <;> exact headNonWs_append _ _ (by rfl)

theorem statePostStrs_headed (c : SState) :
    ∀ s ∈ statePostStrs c, headNonWs s = true := by
  intro s hs
  unfold statePostStrs at hs
  cases hf : c.focus with
  | none =>
    cases hh : c.hover with
    | none =>
      rw [hf, hh] at hs
      simp at hs
    | some h2 =>
      rw [hf, hh] at hs
      simp at hs
      rw [hs]
      exact headNonWs_append _ _ (by rfl)
  | some f =>
    cases hh : c.hover with
    | none =>
      rw [hf, hh] at hs
      simp at hs
      rw [hs]
      exact headNonWs_append _ _ (by rfl)
    | some h2 =>
      rw [hf, hh] at hs
      simp at hs
      rcases hs with rfl | rfl <;> exact headNonWs_append _ _ (by rfl)

theorem sStateStr_mono_piece (c : SState) (E' E : List (String × SElement))
    (hlen : (sElemsStr E').length ≤ (sElemsStr E).length)
    (hws : wsRuns (sElemsStr E') ≤ wsRuns (sElemsStr E)) :
    (sStateStr { c with elements := E' }).length
      ≤ (sStateStr { c with elements := E }).length ∧
    wsRuns (sStateStr { c with elements := E' })
      ≤ wsRuns (sStateStr { c with elements := E }) := by
  have hd1 : sStateEntryStrs { c with elements := E' }
      = statePreStrs c ++ (("\"elements\":" ++ sElemsStr E') :: statePostStrs c) :=
    sStateEntryStrs_decomp { c with elements := E' }
  have hd2 : sStateEntryStrs { c with elements := E }
      = statePreStrs c ++ (("\"elements\":" ++ sElemsStr E) :: statePostStrs c) :=
    sStateEntryStrs_decomp { c with elements := E }
  constructor
  · have l1 : (sStateStr { c with elements := E' }).length
        = (joinComma (sStateEntryStrs { c with elements := E' })).length + 2 :=
      braced_length _
    have l2 : (sStateStr { c with elements := E }).length
        = (joinComma (sStateEntryStrs { c with elements := E })).length + 2 :=
      braced_length _
    rw [l1, l2, hd1, hd2]
    have hj := joinComma_length_mono
      (statePreStrs c ++ (("\"elements\":" ++ sElemsStr E') :: statePostStrs c))
      (statePreStrs c ++ (("\"elements\":" ++ sElemsStr E) :: statePostStrs c))
      (by
        simp only [List.map_append, List.sum_append, List.map_cons, List.sum_cons,
          String.length_append]
        omega)
      (by
        intro _ hnil
        rcases List.append_eq_nil.mp hnil with ⟨h1, h2⟩
        exact List.cons_ne_nil _ _ h2)
    omega
  · have w1 : wsRuns (sStateStr { c with elements := E' })
        = wsRuns (joinComma (sStateEntryStrs { c with elements := E' })) := braced_ws _
    have w2 : wsRuns (sStateStr { c with elements := E })
        = wsRuns (joinComma (sStateEntryStrs { c with elements := E })) := braced_ws _
    rw [w1, w2, hd1, hd2]
    have hx1 : wsRuns ("\"elements\":" ++ sElemsStr E') = wsRuns (sElemsStr E') := by
      rw [wsRuns_append _ _ (headNonWs_sElemsStr E')]
      have h0 : wsRuns "\"elements\":" = 0 := rfl
      rw [h0]
      omega
    have hx2 : wsRuns ("\"elements\":" ++ sElemsStr E) = wsRuns (sElemsStr E) := by
      rw [wsRuns_append _ _ (headNonWs_sElemsStr E)]
      have h0 : wsRuns "\"elements\":" = 0 := rfl
      rw [h0]
      omega
    have hhead1 : ∀ s ∈ statePreStrs c ++ (("\"elements\":" ++ sElemsStr E')
        :: statePostStrs c), headNonWs s = true := by
      intro s hs
      rcases List.mem_append.mp hs with h | h
      · exact statePreStrs_headed c s h
      · rcases List.mem_cons.mp h with h2 | h2
        · rw [h2]
          exact headNonWs_append _ _ (by rfl)
        · exact statePostStrs_headed c s h2
    have hhead2 : ∀ s ∈ statePreStrs c ++ (("\"elements\":" ++ sElemsStr E)
        :: statePostStrs c), headNonWs s = true := by
      intro s hs
      rcases List.mem_append.mp hs with h | h
      · exact statePreStrs_headed c s h
      · rcases List.mem_cons.mp h with h2 | h2
        · rw [h2]
          exact headNonWs_append _ _ (by rfl)
        · exact statePostStrs_headed c s h2
    rw [joinComma_ws _ hhead1, joinComma_ws _ hhead2]
    simp only [List.map_append, List.sum_append, List.map_cons, List.sum_cons, hx1, hx2]
    omega

/-! ## Monotonicity of the token estimate in the element record -/

theorem estimate_mono_elements (c : SState) (E' E : List (String × SElement))
    (hlen : (sElemsStr E').length ≤ (sElemsStr E).length)
    (hws : wsRuns (sElemsStr E') ≤ wsRuns (sElemsStr E)) :
    estimateTokenCountOpenAI { c with elements := E' }
      ≤ estimateTokenCountOpenAI { c with elements := E } := by
  obtain ⟨hl, hw⟩ := sStateStr_mono_piece c E' E hlen hws
  show ((sStateStr { c with elements := E' }).length
      + 3 * jsWordCount (sStateStr { c with elements := E' }) + 3) / 4
    ≤ ((sStateStr { c with elements := E }).length
      + 3 * jsWordCount (sStateStr { c with elements := E }) + 3) / 4
  apply Nat.div_le_div_right
  unfold jsWordCount
  omega


/-! ## Summing entry measures over a greedy selection -/

theorem sel_sum_le (E : List (String × SElement)) (hnd : nodupKeys E)
    (ids : List String) (hperm : List.Perm ids (recKeys E))
    (sel : List (String × SElement)) (hsub : List.Sublist (sel.map Prod.fst) ids)
    (g : String × SElement → Nat)
    (hpt : ∀ p ∈ sel, ∃ e, recGet E p.1 = some e ∧ g p ≤ g (p.1, e)) :
    (sel.map g).sum ≤ (E.map g).sum := by
  have h1 : (sel.map g).sum ≤ (sel.map (fun p => lookupMeasure E g p.1)).sum := by
    apply List.sum_le_sum
    intro p hp
    obtain ⟨e, he, hge⟩ := hpt p hp
    show g p ≤ lookupMeasure E g p.1
    unfold lookupMeasure
    rw [he]
    exact hge
  have heq : sel.map (fun p => lookupMeasure E g p.1)
      = (sel.map Prod.fst).map (lookupMeasure E g) := by
    rw [List.map_map]
    exact List.map_congr_left (fun p hp => rfl)
  have h2 : ((sel.map Prod.fst).map (lookupMeasure E g)).sum
      ≤ (ids.map (lookupMeasure E g)).sum :=
    List.Sublist.sum_le_sum (hsub.map (lookupMeasure E g))
      (by
        intro a ha
        exact Nat.zero_le a)
  have h3 : (ids.map (lookupMeasure E g)).sum
      = ((recKeys E).map (lookupMeasure E g)).sum :=
    (hperm.map (lookupMeasure E g)).sum_eq
  have h4 : ((recKeys E).map (lookupMeasure E g)).sum = (E.map g).sum := by
    show ((E.map Prod.fst).map (lookupMeasure E g)).sum = (E.map g).sum
    rw [List.map_map]
    refine congrArg List.sum (List.map_congr_left ?_)
    intro p hp
    show lookupMeasure E g p.1 = g p
    unfold lookupMeasure
    rw [recGet_eq_some_of_mem_nodup E p.1 p.2 hnd hp]
  rw [heq] at h1
  omega

theorem nodupKeys_foldl_recSet_scored (l : List Scored) (acc : List (String × SElement))
    (h : nodupKeys acc) :
    nodupKeys (l.foldl (fun acc q => recSet acc q.id q.element) acc) := by
  induction l generalizing acc with
  | nil => exact h
  | cons s rest ih =>
    simp only [List.foldl_cons]
    exact ih _ (nodupKeys_recSet _ _ _ h)

theorem filterElements_nodup (state : SState) (opts : FilterOptions) :
    nodupKeys (filterElements state opts).elements :=
  nodupKeys_foldl_recSet_scored _ [] List.nodup_nil

/-! ## The greedy fill loop of `simplifyContextForTokenLimit` -/

theorem simplifyGreedy_over_go (maxTokens : Nat) (elements : List (String × SElement)) :
    ∀ (ids : List String) (acc : List (String × SElement) × Nat), maxTokens < acc.2 →
    ids.foldl
      (fun acc id =>
        match recGet elements id with
        | none => acc
        | some element =>
          let elementTokens := jsonTokens4 (sElementStr element)
          if acc.2 + elementTokens ≤ maxTokens then
            (recSet acc.1 id element, acc.2 + elementTokens)
          else if optTruthy element.interactable then
            let simplifiedElement : SElement :=
              { id := element.id, type := element.type, text := element.text,
                attributes := none, bounds := none, interactable := some true,
                visible := none, children := none, parent := none, zIndex := none,
                styles := none }
            let simplifiedTokens := jsonTokens4 (sElementStr simplifiedElement)
            if acc.2 + simplifiedTokens ≤ maxTokens then
              (recSet acc.1 id simplifiedElement, acc.2 + simplifiedTokens)
            else acc
          else acc) acc = acc := by
  intro ids
  induction ids with
  | nil =>
    intro acc _
    rfl
  | cons id rest ih =>
    intro acc h
    simp only [List.foldl_cons]
    cases hog : recGet elements id with
    | none =>
      simp only [hog]
      exact ih acc h
    | some element =>
      simp only [hog]
      rw [if_neg (show ¬(acc.2 + jsonTokens4 (sElementStr element) ≤ maxTokens) from
        by omega)]
      by_cases hit : optTruthy element.interactable = true
      · rw [if_pos hit]
        rw [if_neg (show ¬(acc.2 + jsonTokens4 (sElementStr
            { id := element.id, type := element.type, text := element.text,
              attributes := none, bounds := none, interactable := some true,
              visible := none, children := none, parent := none, zIndex := none,
              styles := none }) ≤ maxTokens) from by omega)]
        exact ih acc h
      · rw [if_neg hit]
        exact ih acc h

theorem simplifyGreedy_over (maxTokens : Nat) (elements : List (String × SElement))
    (ids : List String) (start : Nat) (h : maxTokens < start) :
    OpenAIServer.simplifyGreedy maxTokens elements ids start = ([], start) :=
  simplifyGreedy_over_go maxTokens elements ids ([], start) h

theorem simplifyGreedy_sel_go (maxTokens : Nat) (elements : List (String × SElement)) :
    ∀ (ids : List String), ids.Nodup →
    ∀ acc : List (String × SElement) × Nat, (∀ p ∈ acc.1, p.1 ∉ ids) →
    ∃ sel : List (String × SElement),
      (ids.foldl
        (fun acc id =>
          match recGet elements id with
          | none => acc
          | some element =>
            let elementTokens := jsonTokens4 (sElementStr element)
            if acc.2 + elementTokens ≤ maxTokens then
              (recSet acc.1 id element, acc.2 + elementTokens)
            else if optTruthy element.interactable then
              let simplifiedElement : SElement :=
                { id := element.id, type := element.type, text := element.text,
                  attributes := none, bounds := none, interactable := some true,
                  visible := none, children := none, parent := none, zIndex := none,
                  styles := none }
              let simplifiedTokens := jsonTokens4 (sElementStr simplifiedElement)
              if acc.2 + simplifiedTokens ≤ maxTokens then
                (recSet acc.1 id simplifiedElement, acc.2 + simplifiedTokens)
              else acc
            else acc) acc).1 = acc.1 ++ sel ∧
      List.Sublist (sel.map Prod.fst) ids ∧
      ∀ p ∈ sel, ∃ e, recGet elements p.1 = some e ∧
        (sElemsEntryStr p).length ≤ (sElemsEntryStr (p.1, e)).length ∧
        wsRuns (sElemsEntryStr p) ≤ wsRuns (sElemsEntryStr (p.1, e)) := by
  intro ids
  induction ids with
  | nil =>
    intro _ acc _
    refine ⟨[], ?_, List.nil_sublist _, ?_⟩
    · rw [List.append_nil]
      rfl
    · intro p hp
      exact absurd hp (List.not_mem_nil p)
  | cons id rest ih =>
    intro hnd acc hdisj
    have hndrest : rest.Nodup := (List.nodup_cons.mp hnd).2
    have hidrest : id ∉ rest := (List.nodup_cons.mp hnd).1
    simp only [List.foldl_cons]
    cases hog : recGet elements id with
    | none =>
      simp only [hog]
      obtain ⟨sel, h1, h2, h3⟩ := ih hndrest acc
        (fun p hp hmem => hdisj p hp (List.mem_cons_of_mem _ hmem))
      exact ⟨sel, h1, h2.cons id, h3⟩
    | some element =>
      simp only [hog]
      have hfresh : recGet acc.1 id = none := by
        apply recGet_eq_none_of_not_mem_keys
        intro hmemk
        unfold recKeys at hmemk
        rw [List.mem_map] at hmemk
        obtain ⟨p, hp, hpid⟩ := hmemk
        apply hdisj p hp
        rw [hpid]
        exact List.mem_cons_self _ _
      by_cases h1c : acc.2 + jsonTokens4 (sElementStr element) ≤ maxTokens
      · rw [if_pos h1c]
        have hacc' : recSet acc.1 id element = acc.1 ++ [(id, element)] :=
          recSet_fresh _ _ _ hfresh
        obtain ⟨sel, hh1, hh2, hh3⟩ := ih hndrest
          (recSet acc.1 id element, acc.2 + jsonTokens4 (sElementStr element))
          (by
            intro p hp hmem
            rcases mem_recSet _ _ _ _ hp with hold | hnew
            · exact hdisj p hold (List.mem_cons_of_mem _ hmem)
            · rw [hnew] at hmem
              exact hidrest hmem)
        refine ⟨(id, element) :: sel, ?_, ?_, ?_⟩
        · rw [hh1, hacc', List.append_assoc]
          rfl
        · exact hh2.cons₂ id
        · intro p hp
          rcases List.mem_cons.mp hp with hpe | hpe
          · refine ⟨element, ?_, ?_, ?_⟩
            · rw [hpe]
              exact hog
            · rw [hpe]
            · rw [hpe]
          · exact hh3 p hpe
      · rw [if_neg h1c]
        by_cases hit : optTruthy element.interactable = true
        case neg =>
          rw [if_neg hit]
          obtain ⟨sel, h1, h2, h3⟩ := ih hndrest acc
            (fun p hp hmem => hdisj p hp (List.mem_cons_of_mem _ hmem))
          exact ⟨sel, h1, h2.cons id, h3⟩
        case pos =>
          rw [if_pos hit]
          by_cases h2c : acc.2 + jsonTokens4 (sElementStr
              { id := element.id, type := element.type, text := element.text,
                attributes := none, bounds := none, interactable := some true,
                visible := none, children := none, parent := none, zIndex := none,
                styles := none }) ≤ maxTokens
          · rw [if_pos h2c]
            have hacc' : recSet acc.1 id
                { id := element.id, type := element.type, text := element.text,
                  attributes := none, bounds := none, interactable := some true,
                  visible := none, children := none, parent := none, zIndex := none,
                  styles := none }
                = acc.1 ++ [(id,
                  { id := element.id, type := element.type, text := element.text,
                    attributes := none, bounds := none, interactable := some true,
                    visible := none, children := none, parent := none, zIndex := none,
                    styles := none })] :=
              recSet_fresh _ _ _ hfresh
            obtain ⟨sel, hh1, hh2, hh3⟩ := ih hndrest
              (recSet acc.1 id
                { id := element.id, type := element.type, text := element.text,
                  attributes := none, bounds := none, interactable := some true,
                  visible := none, children := none, parent := none, zIndex := none,
                  styles := none },
                acc.2 + jsonTokens4 (sElementStr
                  { id := element.id, type := element.type, text := element.text,
                    attributes := none, bounds := none, interactable := some true,
                    visible := none, children := none, parent := none, zIndex := none,
                    styles := none }))
              (by
                intro p hp hmem
                rcases mem_recSet _ _ _ _ hp with hold | hnew
                · exact hdisj p hold (List.mem_cons_of_mem _ hmem)
                · rw [hnew] at hmem
                  exact hidrest hmem)
            refine ⟨(id,
              { id := element.id, type := element.type, text := element.text,
                attributes := none, bounds := none, interactable := some true,
                visible := none, children := none, parent := none, zIndex := none,
                styles := none }) :: sel, ?_, ?_, ?_⟩
            · rw [hh1, hacc', List.append_assoc]
              rfl
            · exact hh2.cons₂ id
            · intro p hp
              rcases List.mem_cons.mp hp with hpe | hpe
              · refine ⟨element, ?_, ?_, ?_⟩
                · rw [hpe]
                  exact hog
                · rw [hpe]
                  exact (entry_shrink_simplified id element hit).1
                · rw [hpe]
                  exact (entry_shrink_simplified id element hit).2
              · exact hh3 p hpe
          · rw [if_neg h2c]
            obtain ⟨sel, h1, h2, h3⟩ := ih hndrest acc
              (fun p hp hmem => hdisj p hp (List.mem_cons_of_mem _ hmem))
            exact ⟨sel, h1, h2.cons id, h3⟩

theorem simplifyGreedy_sel (maxTokens : Nat) (elements : List (String × SElement))
    (ids : List String) (hnd : ids.Nodup) (start : Nat) :
    ∃ sel : List (String × SElement),
      (OpenAIServer.simplifyGreedy maxTokens elements ids start).1 = sel ∧
      List.Sublist (sel.map Prod.fst) ids ∧
      ∀ p ∈ sel, ∃ e, recGet elements p.1 = some e ∧
        (sElemsEntryStr p).length ≤ (sElemsEntryStr (p.1, e)).length ∧
        wsRuns (sElemsEntryStr p) ≤ wsRuns (sElemsEntryStr (p.1, e)) := by
  obtain ⟨sel, h1, h2, h3⟩ := simplifyGreedy_sel_go maxTokens elements ids hnd ([], start)
    (by
      intro p hp
      exact absurd hp (List.not_mem_nil p))
  have h1' : (OpenAIServer.simplifyGreedy maxTokens elements ids start).1 = [] ++ sel := h1
  rw [List.nil_append] at h1'
  exact ⟨sel, h1', h2, h3⟩

/-! ## Budget safety of the aggressive simplification -/

theorem simplifyCore_bound (F : SState) (mt : Nat) (hnd : nodupKeys F.elements)
    (hempty : estimateTokenCountOpenAI
      { F with elements := ([] : List (String × SElement)) } ≤ mt) :
    estimateTokenCountOpenAI
      { F with elements :=
          (OpenAIServer.simplifyGreedy mt F.elements
            (OpenAIServer.sortIdsByImportance F.elements)
            (estimateTokenCountOpenAI F)).1 } ≤ mt := by
  by_cases hstart : estimateTokenCountOpenAI F ≤ mt
  · have hperm : List.Perm (OpenAIServer.sortIdsByImportance F.elements)
        (recKeys F.elements) := sortBy_perm _ _
    have hndids : (OpenAIServer.sortIdsByImportance F.elements).Nodup :=
      hperm.symm.nodup hnd
    obtain ⟨sel, hsel, hsub, hpt⟩ := simplifyGreedy_sel mt F.elements
      (OpenAIServer.sortIdsByImportance F.elements) hndids (estimateTokenCountOpenAI F)
    rw [hsel]
    have hlen : (sElemsStr sel).length ≤ (sElemsStr F.elements).length := by
      apply sElemsStr_len_mono
      apply sel_sum_le F.elements hnd _ hperm sel hsub
        (fun p => (sElemsEntryStr p).length + 1)
      intro p hp
      obtain ⟨e, he, hl, hw⟩ := hpt p hp
      exact ⟨e, he, by omega⟩
    have hws : wsRuns (sElemsStr sel) ≤ wsRuns (sElemsStr F.elements) := by
      apply sElemsStr_ws_mono
      apply sel_sum_le F.elements hnd _ hperm sel hsub
        (fun p => wsRuns (sElemsEntryStr p))
      intro p hp
      obtain ⟨e, he, hl, hw⟩ := hpt p hp
      exact ⟨e, he, hw⟩
    have hmono := estimate_mono_elements F sel F.elements hlen hws
    have hEeta : ({ F with elements := F.elements } : SState) = F := rfl
    rw [hEeta] at hmono
    omega
  · have hlt : mt < estimateTokenCountOpenAI F := Nat.lt_of_not_le hstart
    have hz := simplifyGreedy_over mt F.elements
      (OpenAIServer.sortIdsByImportance F.elements) (estimateTokenCountOpenAI F) hlt
    rw [hz]
    exact hempty

theorem simplifyContextForTokenLimit_bound (ctx : ModelContext) (mt : Nat)
    (hempty : estimateTokenCountOpenAI
      { ctx.uiState with elements := ([] : List (String × SElement)) } ≤ mt) :
    (OpenAIServer.simplifyContextForTokenLimit ctx mt).tokenCount ≤ mt := by
  have h1 : nodupKeys (filterElements ctx.uiState
      { maxElements := some 50, prioritizeInteractable := some true,
        prioritizeVisible := some true,
        excludeTypes := some ["script", "style", "meta", "link", "noscript"],
        includeTypes := none }).elements := filterElements_nodup _ _
  have h2 : estimateTokenCountOpenAI
      { filterElements ctx.uiState
          { maxElements := some 50, prioritizeInteractable := some true,
            prioritizeVisible := some true,
            excludeTypes := some ["script", "style", "meta", "link", "noscript"],
            includeTypes := none } with
        elements := ([] : List (String × SElement)) } ≤ mt := hempty
  exact simplifyCore_bound _ mt h1 h2


/-! ## Claim C3 -/

/-- C3 (confirmed): for every snapshot and every budget at least the
estimated cost of the empty compacted output, the context prepared under
that budget has an estimated token count within the budget.  When the
compressed snapshot already fits the budget it is returned as is; otherwise
the aggressive simplification either fills greedily below the starting
estimate (and shrinking the element record only shrinks the estimate) or
falls back to the empty element record, whose cost the hypothesis bounds. -/
theorem c3_budget_safety (serverMaxTokens : Nat) (cfg : Option Bool) (st : UIState)
    (opts : ContextOptions)
    (hbudget : estimateTokenCountOpenAI (OpenAIServer.emptyContextState cfg st opts)
      ≤ opts.maxTokens.getD serverMaxTokens) :
    (OpenAIServer.prepareContextForModel serverMaxTokens cfg st opts).tokenCount
      ≤ opts.maxTokens.getD serverMaxTokens := by
  by_cases hover : estimateTokenCountOpenAI
      (compressState (OpenAIServer.basePrepareContext cfg st opts).uiState)
      > opts.maxTokens.getD serverMaxTokens
  · have heq : OpenAIServer.prepareContextForModel serverMaxTokens cfg st opts
        = OpenAIServer.simplifyContextForTokenLimit
            { uiState := compressState (OpenAIServer.basePrepareContext cfg st opts).uiState,
              tokenCount := estimateTokenCountOpenAI
                (compressState (OpenAIServer.basePrepareContext cfg st opts).uiState) }
            (opts.maxTokens.getD serverMaxTokens) := by
      show (if estimateTokenCountOpenAI
            (compressState (OpenAIServer.basePrepareContext cfg st opts).uiState)
            > opts.maxTokens.getD serverMaxTokens then
          OpenAIServer.simplifyContextForTokenLimit
            { uiState := compressState (OpenAIServer.basePrepareContext cfg st opts).uiState,
              tokenCount := estimateTokenCountOpenAI
                (compressState (OpenAIServer.basePrepareContext cfg st opts).uiState) }
            (opts.maxTokens.getD serverMaxTokens)
        else
          { uiState := compressState (OpenAIServer.basePrepareContext cfg st opts).uiState,
            tokenCount := estimateTokenCountOpenAI
              (compressState (OpenAIServer.basePrepareContext cfg st opts).uiState) })
        = OpenAIServer.simplifyContextForTokenLimit
            { uiState := compressState (OpenAIServer.basePrepareContext cfg st opts).uiState,
              tokenCount := estimateTokenCountOpenAI
                (compressState (OpenAIServer.basePrepareContext cfg st opts).uiState) }
            (opts.maxTokens.getD serverMaxTokens)
      rw [if_pos hover]
    rw [heq]
    exact simplifyContextForTokenLimit_bound _ _ hbudget
  · have heq : OpenAIServer.prepareContextForModel serverMaxTokens cfg st opts
        = { uiState := compressState (OpenAIServer.basePrepareContext cfg st opts).uiState,
            tokenCount := estimateTokenCountOpenAI
              (compressState (OpenAIServer.basePrepareContext cfg st opts).uiState) } := by
      show (if estimateTokenCountOpenAI
            (compressState (OpenAIServer.basePrepareContext cfg st opts).uiState)
            > opts.maxTokens.getD serverMaxTokens then
          OpenAIServer.simplifyContextForTokenLimit
            { uiState := compressState (OpenAIServer.basePrepareContext cfg st opts).uiState,
              tokenCount := estimateTokenCountOpenAI
                (compressState (OpenAIServer.basePrepareContext cfg st opts).uiState) }
            (opts.maxTokens.getD serverMaxTokens)
        else
          { uiState := compressState (OpenAIServer.basePrepareContext cfg st opts).uiState,
            tokenCount := estimateTokenCountOpenAI
              (compressState (OpenAIServer.basePrepareContext cfg st opts).uiState) })
        = { uiState := compressState (OpenAIServer.basePrepareContext cfg st opts).uiState,
            tokenCount := estimateTokenCountOpenAI
              (compressState (OpenAIServer.basePrepareContext cfg st opts).uiState) }
      rw [if_neg hover]
    rw [heq]
    show estimateTokenCountOpenAI
        (compressState (OpenAIServer.basePrepareContext cfg st opts).uiState)
      ≤ opts.maxTokens.getD serverMaxTokens
    omega

/-- Witness for C3 on a concrete snapshot with a 30-token budget. -/
theorem c3_budget_safety_witness :
    estimateTokenCountOpenAI (OpenAIServer.emptyContextState none exScenarioA exCtxOpts)
      ≤ 30 ∧
    (OpenAIServer.prepareContextForModel 5 none exScenarioA exCtxOpts).tokenCount ≤ 30 :=
  ⟨by decide, c3_budget_safety 5 none exScenarioA exCtxOpts (by decide)⟩

end ModelEyes
